import Mathlib

/-!
# AVLTree.h: a shallow embedding

`AVLTree<Key, Value>` owns a graph of `node` objects through its single field `root`.
Every node is exclusively owned through the `left_` / `right_` link of its parent, so the
owned graph is a tree and a `node*` is embedded as the value `Tree K V`: `null` is `nullptr`,
`node addr height_ value_ key_ parent_ left_ right_` is the node object living at address
`addr` with the fields of `struct node` in their declaration order.  The non-owning back link
`parent_` is kept as the address it stores (`none` is `nullptr`); following it needs the
owning tree (`nodeAt`).

`operator new` is embedded by a parameter `fresh`: the address the allocator hands out.
A function that dereferences a null or dangling pointer returns `none`.
-/

namespace AVLTree

/-- A `node*`: `null` is `nullptr`, `node` is the object at address `addr` with the fields
`height_`, `value_`, `key_`, `parent_`, `left_`, `right_` of `struct node`. -/
inductive Tree (K V : Type) where
  | null : Tree K V
  | node (addr : Nat) (height_ : Int) (value_ : V) (key_ : K) (parent_ : Option Nat)
      (left_ right_ : Tree K V) : Tree K V
  deriving DecidableEq, Repr

/-- The only failure `operator*` can raise: `std::out_of_range`. -/
inductive DerefError where
  | out_of_range : DerefError
  deriving DecidableEq, Repr

/-- Class `Iterator`: the two fields `it_node` and `it_prev_node`. -/
structure Iterator (K V : Type) where
  it_node : Tree K V
  it_prev_node : Tree K V
  deriving DecidableEq, Repr

section Model

variable {K V : Type}

/-- Test `p == nullptr`. -/
def Tree.isNull : Tree K V → Bool
  | .null => true
  | .node .. => false

/-- Pointer comparison `p == q` of two `node*`: both null, or the same address. -/
def Tree.ptrEq : Tree K V → Tree K V → Bool
  | .null, .null => true
  | .node a _ _ _ _ _ _, .node b _ _ _ _ _ _ => a == b
  | _, _ => false

/-- Constructor `node(key, value)`: `height_ = 0`, all three links null. -/
def newNode (fresh : Nat) (key : K) (value : V) : Tree K V :=
  .node fresh 0 value key none .null .null

/-- Constructor `node(key, value, parent)`: `height_ = 0`, children null. -/
def newNodeP (fresh : Nat) (key : K) (value : V) (parent : Option Nat) : Tree K V :=
  .node fresh 0 value key parent .null .null

/-- `GetHeightNum`: `-1` for null, else the stored `height_`. -/
def GetHeightNum : Tree K V → Int
  | .null => -1
  | .node _ h _ _ _ _ _ => h

/-- `GetBalanceNum`: stored height of right minus stored height of left; `0` for null. -/
def GetBalanceNum : Tree K V → Int
  | .null => 0
  | .node _ _ _ _ _ l r => GetHeightNum r - GetHeightNum l

/-- `SetHeight`: `height_ = max(GetHeightNum(left_), GetHeightNum(right_)) + 1`; no-op on null. -/
def SetHeight : Tree K V → Tree K V
  | .null => .null
  | .node a _ v k p l r => .node a (max (GetHeightNum l) (GetHeightNum r) + 1) v k p l r

/-- The guarded store `if (X) X->parent_ = P`. -/
def setParent (P : Option Nat) : Tree K V → Tree K V
  | .null => .null
  | .node a h v k _ l r => .node a h v k P l r

/-- `RightRotation(Node)`: payloads of `Node` and `Node->left_` are swapped (`SwapValue`),
the old left node becomes the right child, links and parents are rewired, and heights are
recomputed lower node first.  Dereferences `Node` and `Node->left_`. -/
def RightRotation : Tree K V → Option (Tree K V)
  | .node a h v k p (.node la lh lv lk lp ll lr) r =>
    some (SetHeight (.node a h lv lk p (setParent (some a) ll)
      (SetHeight (.node la lh v k lp (setParent (some la) lr) (setParent (some la) r)))))
  | _ => none

/-- `LeftRotation(Node)`: mirror image of `RightRotation`.  Dereferences `Node` and
`Node->right_`. -/
def LeftRotation : Tree K V → Option (Tree K V)
  | .node a h v k p l (.node ra rh rv rk rp rl rr) =>
    some (SetHeight (.node a h rv rk p
      (SetHeight (.node ra rh v k rp (setParent (some ra) l) (setParent (some ra) rl)))
      (setParent (some a) rr)))
  | _ => none

/-- `Balancing(Node)`: on stored balance `-2` an optional left rotation of the left child and
a right rotation of `Node`; on `2` the mirror image; otherwise nothing. -/
def Balancing (Node : Tree K V) : Option (Tree K V) :=
  if GetBalanceNum Node = -2 then
    match Node with
    | .null => none
    | .node a h v k p l r =>
      if GetBalanceNum l = 1 then
        (LeftRotation l).bind fun l1 => RightRotation (.node a h v k p l1 r)
      else RightRotation (.node a h v k p l r)
  else if GetBalanceNum Node = 2 then
    match Node with
    | .null => none
    | .node a h v k p l r =>
      if GetBalanceNum r = -1 then
        (RightRotation r).bind fun r1 => LeftRotation (.node a h v k p l r1)
      else LeftRotation (.node a h v k p l r)
  else some Node

/-- `GetMinNode`: leftmost node, null for null. -/
def GetMinNode : Tree K V → Tree K V
  | .null => .null
  | .node a h v k p .null r => .node a h v k p .null r
  | .node _ _ _ _ _ l _ => GetMinNode l

/-- `GetMaxNode`: rightmost node, null for null. -/
def GetMaxNode : Tree K V → Tree K V
  | .null => .null
  | .node a h v k p l .null => .node a h v k p l .null
  | .node _ _ _ _ _ _ r => GetMaxNode r

/-- The two statements closing `RecursiveInsertion`: `SetHeight(Node); Balancing(Node);`
followed by `return status`. -/
def retrace (Node : Tree K V) (status : Bool) : Option (Tree K V × Bool) :=
  (Balancing (SetHeight Node)).map fun n => (n, status)

/-- `RecursiveInsertion(Node, key, value)`: returns the updated node and the status flag. -/
def RecursiveInsertion [LT K] [DecidableRel (fun a b : K => a < b)]
    (fresh : Nat) (key : K) (value : V) : Tree K V → Option (Tree K V × Bool)
  | .null => some (.null, false)
  | .node a h v k p l r =>
    if k > key then
      match l with
      | .null => retrace (.node a h v k p (newNodeP fresh key value (some a)) r) true
      | .node la lh lv lk lp ll lr =>
        (RecursiveInsertion fresh key value (.node la lh lv lk lp ll lr)).bind fun res =>
          retrace (.node a h v k p res.1 r) res.2
    else if k < key then
      match r with
      | .null => retrace (.node a h v k p l (newNodeP fresh key value (some a))) true
      | .node ra rh rv rk rp rl rr =>
        (RecursiveInsertion fresh key value (.node ra rh rv rk rp rl rr)).bind fun res =>
          retrace (.node a h v k p l res.1) res.2
    else retrace (.node a h v k p l r) false

/-- The statements closing `RecursiveDeleting`:
`if (Node != nullptr) { SetHeight(Node); Balancing(Node); } return Node;`. -/
def retraceDel : Tree K V → Option (Tree K V)
  | .null => some .null
  | .node a h v k p l r => Balancing (SetHeight (.node a h v k p l r))

/-- `RecursiveDeleting(Node, key)`: returns the node that takes the place of `Node`. -/
def RecursiveDeleting [LT K] [DecidableRel (fun a b : K => a < b)] :
    Tree K V → K → Option (Tree K V)
  | .null, _ => some .null
  | .node a h v k p l r, key =>
    if key < k then
      (RecursiveDeleting l key).bind fun l1 => retraceDel (.node a h v k p l1 r)
    else if key > k then
      (RecursiveDeleting r key).bind fun r1 => retraceDel (.node a h v k p l r1)
    else
      match l, r with
      | .null, r => retraceDel (setParent p r)
      | .node la lh lv lk lp ll lr, .null => retraceDel (setParent p (.node la lh lv lk lp ll lr))
      | .node la lh lv lk lp ll lr, .node ra rh rv rk rp rl rr =>
        match GetMinNode (.node ra rh rv rk rp rl rr) with
        | .null => none
        | .node _ _ mv mk _ _ _ =>
          (RecursiveDeleting (.node ra rh rv rk rp rl rr) mk).bind fun r1 =>
            retraceDel (.node a h mv mk p (.node la lh lv lk lp ll lr) r1)

/-- `RecursiveSize`: number of nodes. -/
def RecursiveSize : Tree K V → Nat
  | .null => 0
  | .node _ _ _ _ _ l r => RecursiveSize l + RecursiveSize r + 1

/-- `RecursiveSearch(Node, key)`: the node holding `key` on the search path, or null. -/
def RecursiveSearch [LT K] [DecidableRel (fun a b : K => a < b)] [DecidableEq K]
    (key : K) : Tree K V → Tree K V
  | .null => .null
  | .node a h v k p l r =>
    if key = k then .node a h v k p l r
    else if k > key then RecursiveSearch key l
    else RecursiveSearch key r

/-- `CopyTree(Node, parent)`: pre-order clone; every clone is built by
`node(key, value, parent)`.  Returns the clone and the next unused address. -/
def CopyTree : Tree K V → Option Nat → Nat → Tree K V × Nat
  | .null, _, fresh => (.null, fresh)
  | .node _ _ v k _ l r, parent, fresh =>
    let cl := CopyTree l (some fresh) (fresh + 1)
    let cr := CopyTree r (some fresh) cl.2
    (.node fresh 0 v k parent cl.1 cr.1, cr.2)

/-- Following a `node*` held as an address: the node of the tree `root` that lives at
address `a`, null when no node of the tree does (a dangling pointer). -/
def nodeAt (a : Nat) : Tree K V → Tree K V
  | .null => .null
  | .node b h v k p l r =>
    if b = a then .node b h v k p l r
    else match nodeAt a l with
      | .null => nodeAt a r
      | .node a1 h1 v1 k1 p1 l1 r1 => .node a1 h1 v1 k1 p1 l1 r1

/-- The loop of `operator++`:
`while (it_node != nullptr && prev == it_node->right_) { prev = it_node; it_node = it_node->parent_; }`
with `it_node` held as the address last read from a `parent_` field. -/
def climbWhileRight (root : Tree K V) : Nat → Tree K V → Option Nat → Option (Tree K V)
  | 0, _, _ => none
  | _ + 1, _, none => some .null
  | fuel + 1, prev, some a =>
    match nodeAt a root with
    | .null => none
    | .node b h v k p l r =>
      if prev.ptrEq r then climbWhileRight root fuel (.node b h v k p l r) p
      else some (.node b h v k p l r)

/-- The loop of `operator--`: as `climbWhileRight` with `left_`. -/
def climbWhileLeft (root : Tree K V) : Nat → Tree K V → Option Nat → Option (Tree K V)
  | 0, _, _ => none
  | _ + 1, _, none => some .null
  | fuel + 1, prev, some a =>
    match nodeAt a root with
    | .null => none
    | .node b h v k p l r =>
      if prev.ptrEq l then climbWhileLeft root fuel (.node b h v k p l r) p
      else some (.node b h v k p l r)

/-- `Iterator::operator++` on an iterator into the tree `root`. -/
def Iterator.incr (root : Tree K V) (it : Iterator K V) : Option (Iterator K V) :=
  match it.it_node with
  | .null => some it
  | .node a h v k p l r =>
    match r with
    | .node ra rh rv rk rp rl rr =>
      some ⟨GetMinNode (.node ra rh rv rk rp rl rr), it.it_prev_node⟩
    | .null =>
      (climbWhileRight root (RecursiveSize root + 1) (.node a h v k p l .null) p).map
        fun n => ⟨n, it.it_prev_node⟩

/-- `Iterator::operator--` on an iterator into the tree `root`. -/
def Iterator.decr (root : Tree K V) (it : Iterator K V) : Option (Iterator K V) :=
  match it.it_node with
  | .null => some it
  | .node a h v k p l r =>
    match l with
    | .node la lh lv lk lp ll lr =>
      some ⟨GetMaxNode (.node la lh lv lk lp ll lr), it.it_prev_node⟩
    | .null =>
      (climbWhileLeft root (RecursiveSize root + 1) (.node a h v k p .null r) p).map
        fun n => ⟨n, it.it_prev_node⟩

/-- `Iterator::operator*`: throws on a null `it_node`, else returns `it_node->key_`
(declared as `reference`, so the operator is only instantiated when `Key` is `Value`). -/
def Iterator.deref (it : Iterator K V) : Except DerefError K :=
  match it.it_node with
  | .null => .error .out_of_range
  | .node _ _ _ k _ _ _ => .ok k

/-- `Iterator::operator==`: compares `it_node` only. -/
def Iterator.eq (x y : Iterator K V) : Bool :=
  x.it_node.ptrEq y.it_node

/-- Constructor `AVLTree()`: `root(nullptr)`. -/
def empty : Tree K V := .null

/-- `begin()`. -/
def begin (root : Tree K V) : Iterator K V :=
  ⟨GetMinNode root, .null⟩

/-- `end()`. -/
def end_ (root : Tree K V) : Iterator K V :=
  match root with
  | .null => begin root
  | .node a h v k p l r => ⟨.null, GetMaxNode (.node a h v k p l r)⟩

/-- `size()`. -/
def size (root : Tree K V) : Nat :=
  RecursiveSize root

/-- `Search(key)`. -/
def Search [LT K] [DecidableRel (fun a b : K => a < b)] [DecidableEq K]
    (root : Tree K V) (key : K) : Iterator K V :=
  ⟨RecursiveSearch key root, .null⟩

/-- `find(key)`. -/
def find [LT K] [DecidableRel (fun a b : K => a < b)] [DecidableEq K]
    (root : Tree K V) (key : K) : Iterator K V :=
  Search root key

/-- `contains(key)`. -/
def contains [LT K] [DecidableRel (fun a b : K => a < b)] [DecidableEq K]
    (root : Tree K V) (key : K) : Bool :=
  !(RecursiveSearch key root).isNull

/-- `insert(key, value)`: the new `root`, and the returned pair. -/
def insert [LT K] [DecidableRel (fun a b : K => a < b)] [DecidableEq K]
    (root : Tree K V) (key : K) (value : V) (fresh : Nat) :
    Option (Tree K V × Iterator K V × Bool) :=
  match root with
  | .null => some (newNode fresh key value, ⟨newNode fresh key value, .null⟩, true)
  | .node a h v k p l r =>
    (RecursiveInsertion fresh key value (.node a h v k p l r)).map fun res =>
      (res.1, Search res.1 key, res.2)

/-- `erase(pos)`: the new `root`. -/
def erase [LT K] [DecidableRel (fun a b : K => a < b)]
    (root : Tree K V) (pos : Iterator K V) : Option (Tree K V) :=
  match root, pos.it_node with
  | .null, _ => some .null
  | .node a h v k p l r, .null => some (.node a h v k p l r)
  | .node a h v k p l r, .node _ _ _ key _ _ _ => RecursiveDeleting (.node a h v k p l r) key

/-- The `for` loop of `merge` over the snapshot `tree`: the state is the iterator, the roots
of `*this` and `other`, and the allocator. -/
def mergeLoop [LT K] [DecidableRel (fun a b : K => a < b)] [DecidableEq K] [Inhabited V]
    (tree : Tree K V) : Nat → Iterator K V → Tree K V → Tree K V → Nat →
    Option (Tree K V × Tree K V × Nat)
  | 0, _, _, _, _ => none
  | fuel + 1, it, this, other, fresh =>
    if it.eq (end_ tree) then some (this, other, fresh)
    else
      match it.deref with
      | .error _ => none
      | .ok key =>
        (insert this key default fresh).bind fun res =>
          (if res.2.2 then erase other res.2.1 else some other).bind fun other1 =>
            (it.incr tree).bind fun it1 =>
              mergeLoop tree fuel it1 res.1 other1 (fresh + 1)

/-- `this->merge(other)` for two different objects: the new roots of `*this` and `other`
and the next unused address. -/
def merge [LT K] [DecidableRel (fun a b : K => a < b)] [DecidableEq K] [Inhabited V]
    (this other : Tree K V) (fresh : Nat) : Option (Tree K V × Tree K V × Nat) :=
  let tree := CopyTree other none fresh
  mergeLoop tree.1 (RecursiveSize tree.1 + 1) (begin tree.1) this other tree.2

/-- The `for` loop of `merge` when `other` is `*this` itself: `insert` and `erase` act on the
same root. -/
def mergeSelfLoop [LT K] [DecidableRel (fun a b : K => a < b)] [DecidableEq K] [Inhabited V]
    (tree : Tree K V) : Nat → Iterator K V → Tree K V → Nat → Option (Tree K V × Nat)
  | 0, _, _, _ => none
  | fuel + 1, it, this, fresh =>
    if it.eq (end_ tree) then some (this, fresh)
    else
      match it.deref with
      | .error _ => none
      | .ok key =>
        (insert this key default fresh).bind fun res =>
          (if res.2.2 then erase res.1 res.2.1 else some res.1).bind fun this1 =>
            (it.incr tree).bind fun it1 =>
              mergeSelfLoop tree fuel it1 this1 (fresh + 1)

/-- `this->merge(*this)`: the new root and the next unused address. -/
def mergeSelf [LT K] [DecidableRel (fun a b : K => a < b)] [DecidableEq K] [Inhabited V]
    (this : Tree K V) (fresh : Nat) : Option (Tree K V × Nat) :=
  let tree := CopyTree this none fresh
  mergeSelfLoop tree.1 (RecursiveSize tree.1 + 1) (begin tree.1) this tree.2

end Model

/-! ## Observations used to state the properties -/

section Observations

variable {K V : Type}

/-- In-order sequence of the payloads `(key_, value_)`. -/
def toList : Tree K V → List (K × V)
  | .null => []
  | .node _ _ v k _ l r => toList l ++ (k, v) :: toList r

/-- In-order sequence of the keys. -/
def keys : Tree K V → List K
  | .null => []
  | .node _ _ _ k _ l r => keys l ++ k :: keys r

/-- In-order sequence of the nodes (each with its subtree). -/
def nodes : Tree K V → List (Tree K V)
  | .null => []
  | .node a h v k p l r => nodes l ++ .node a h v k p l r :: nodes r

/-- In-order sequence of the node addresses. -/
def addrs : Tree K V → List Nat
  | .null => []
  | .node a _ _ _ _ l r => addrs l ++ a :: addrs r

/-- Binary-search-tree order: at every node, the keys of the left subtree are smaller than
the node's key and the keys of the right subtree are larger. -/
def BST [LT K] : Tree K V → Prop
  | .null => True
  | .node _ _ _ k _ l r => (∀ x ∈ keys l, x < k) ∧ (∀ x ∈ keys r, k < x) ∧ BST l ∧ BST r

/-- Actual height of a subtree: `-1` for an absent subtree, `0` for a leaf. -/
def height : Tree K V → Int
  | .null => -1
  | .node _ _ _ _ _ l r => max (height l) (height r) + 1

/-- AVL balance condition on actual heights, at every node. -/
def Balanced : Tree K V → Prop
  | .null => True
  | .node _ _ _ _ _ l r =>
    (height r - height l = -1 ∨ height r - height l = 0 ∨ height r - height l = 1) ∧
      Balanced l ∧ Balanced r

/-- Every node stores the actual height of its subtree in `height_`. -/
def HeightsStored : Tree K V → Prop
  | .null => True
  | .node a h v k p l r => h = height (.node a h v k p l r) ∧ HeightsStored l ∧ HeightsStored r

/-- The AVL invariant read off the stored heights: every node stores one more than the larger
stored height of its children, and the stored heights of its children differ by at most one. -/
def StoredAVL : Tree K V → Prop
  | .null => True
  | .node _ h _ _ _ l r =>
    h = max (GetHeightNum l) (GetHeightNum r) + 1 ∧
      -1 ≤ GetHeightNum r - GetHeightNum l ∧ GetHeightNum r - GetHeightNum l ≤ 1 ∧
      StoredAVL l ∧ StoredAVL r

/-- Every stored `height_` is at least `0`. -/
def HeightsNonneg : Tree K V → Prop
  | .null => True
  | .node _ h _ _ _ l r => 0 ≤ h ∧ HeightsNonneg l ∧ HeightsNonneg r

/-- Parent links are reciprocal: the node at the top stores `P` in `parent_`, and every
child stores the address of the node whose `left_` or `right_` link refers to it. -/
def ParentsOK (P : Option Nat) : Tree K V → Prop
  | .null => True
  | .node a _ _ _ p l r => p = P ∧ ParentsOK (some a) l ∧ ParentsOK (some a) r

/-- Same shape, and the same key and value at every position. -/
def SameShape : Tree K V → Tree K V → Prop
  | .null, .null => True
  | .node _ _ v k _ l r, .node _ _ v1 k1 _ l1 r1 =>
    k = k1 ∧ v = v1 ∧ SameShape l l1 ∧ SameShape r r1
  | _, _ => False

/-- Same stored `height_` at every position of two trees of the same shape. -/
def SameHeights : Tree K V → Tree K V → Prop
  | .null, .null => True
  | .node _ h _ _ _ l r, .node _ h1 _ _ _ l1 r1 =>
    h = h1 ∧ SameHeights l l1 ∧ SameHeights r r1
  | _, _ => False

/-- The key stored in a node (`none` for null). -/
def rootKey : Tree K V → Option K
  | .null => none
  | .node _ _ _ k _ _ _ => some k

/-- The address of a node (`none` for null). -/
def rootAddr : Tree K V → Option Nat
  | .null => none
  | .node a _ _ _ _ _ _ => some a

/-- One `operator++` step leads from the node `x` to `y` (null past the last node) when the
climbing loop is given `fuel` iterations. -/
def NextNode (root : Tree K V) (fuel : Nat) (x y : Tree K V) : Prop :=
  match x with
  | .null => False
  | .node _ _ _ _ _ _ (.node ra rh rv rk rp rl rr) => y = GetMinNode (.node ra rh rv rk rp rl rr)
  | .node a h v k p l .null => climbWhileRight root fuel (.node a h v k p l .null) p = some y

/-- The loop `for (; it != end(); ++it)` over the tree `root`: the nodes visited, in the
order of the visits. -/
def forward (root : Tree K V) : Nat → Iterator K V → Option (List (Tree K V))
  | 0, _ => none
  | fuel + 1, it =>
    if it.eq (end_ root) then some []
    else (it.incr root).bind fun it1 => (forward root fuel it1).map fun ns => it.it_node :: ns

/-- Well-formed tree object with the allocator at `fresh`: no negative stored height, keys
in BST order, reciprocal parent links with a null parent at the root, pairwise different
node addresses, all of them already handed out. -/
def TreeOK [LT K] (fresh : Nat) (t : Tree K V) : Prop :=
  HeightsNonneg t ∧ BST t ∧ ParentsOK none t ∧ (addrs t).Nodup ∧ ∀ a ∈ addrs t, a < fresh

/-- The one-node tree holding key `10` (value `1`). -/
def tree10 : Tree Int Int :=
  .node 0 0 1 10 none .null .null

/-- The tree built by inserting `10`, `20`, `30` in that order (values `1`, `2`, `3`), node
addresses handed out from `0`. -/
def tree102030 : Tree Int Int :=
  .node 0 1 2 20 none (.node 1 0 1 10 (some 0) .null .null) (.node 2 0 3 30 (some 0) .null .null)

/-- The tree built by inserting `1`, `3`, `5` in that order, addresses from `0`. -/
def tree135 : Tree Int Int :=
  .node 0 1 0 3 none (.node 1 0 0 1 (some 0) .null .null) (.node 2 0 0 5 (some 0) .null .null)

/-- The tree built by inserting `3`, `4`, `6` in that order, addresses from `3`. -/
def tree346 : Tree Int Int :=
  .node 3 1 0 4 none (.node 4 0 0 3 (some 3) .null .null) (.node 5 0 0 6 (some 3) .null .null)

/-- The tree built by inserting `1`, `2` in that order (values `1`, `2`), addresses
from `0`. -/
def tree12 : Tree Int Int :=
  .node 0 1 1 1 none .null (.node 1 0 2 2 (some 0) .null .null)

/-- One call of the public interface on a single tree: `insert(key, value)` or
`erase(pos)`. -/
inductive Call (K V : Type) where
  | insert (key : K) (value : V) : Call K V
  | erase (pos : Iterator K V) : Call K V

/-- Runs one call on the tree `st.1` with the allocator at `st.2`. -/
def Call.run [LT K] [DecidableRel (fun a b : K => a < b)] [DecidableEq K]
    (st : Tree K V × Nat) : Call K V → Option (Tree K V × Nat)
  | .insert key value => (AVLTree.insert st.1 key value st.2).map fun res => (res.1, st.2 + 1)
  | .erase pos => (AVLTree.erase st.1 pos).map fun root => (root, st.2)

/-- Runs a sequence of calls, first call first. -/
def runCalls [LT K] [DecidableRel (fun a b : K => a < b)] [DecidableEq K] :
    List (Call K V) → Tree K V × Nat → Option (Tree K V × Nat)
  | [], st => some st
  | c :: cs, st => (c.run st).bind (runCalls cs)

end Observations

/-! ## Programs over several tree objects -/

/-- The tree objects alive (each one its `root`) and the allocator. -/
structure World (K V : Type) where
  trees : List (Tree K V)
  fresh : Nat

/-- A call of the public interface; objects are named by their position in `World.trees`. -/
inductive Op (K V : Type) where
  | construct : Op K V
  | copyConstruct (src : Nat) : Op K V
  | moveConstruct (src : Nat) : Op K V
  | moveAssign (dst src : Nat) : Op K V
  | copyAssign (dst src : Nat) : Op K V
  | clean (i : Nat) : Op K V
  | insert (i : Nat) (key : K) (value : V) : Op K V
  | erase (i : Nat) (pos : Iterator K V) : Op K V
  | swap (i j : Nat) : Op K V
  | merge (i j : Nat) : Op K V

section Programs

variable {K V : Type}

/-- Runs one call; a call naming an object that does not exist is skipped. -/
def Op.run [LT K] [DecidableRel (fun a b : K => a < b)] [DecidableEq K] [Inhabited V]
    (w : World K V) : Op K V → Option (World K V)
  | .construct => some ⟨w.trees ++ [empty], w.fresh⟩
  | .copyConstruct src =>
    match w.trees[src]? with
    | none => some w
    | some t => some ⟨w.trees ++ [(CopyTree t none w.fresh).1], (CopyTree t none w.fresh).2⟩
  | .moveConstruct src =>
    match w.trees[src]? with
    | none => some w
    | some t => some ⟨w.trees.set src .null ++ [t], w.fresh⟩
  | .moveAssign dst src =>
    match w.trees[dst]?, w.trees[src]? with
    | some _, some t =>
      if dst = src then some w else some ⟨(w.trees.set dst t).set src .null, w.fresh⟩
    | _, _ => some w
  | .copyAssign dst src =>
    match w.trees[dst]?, w.trees[src]? with
    | some _, some t =>
      if dst = src then some w
      else some ⟨w.trees.set dst (CopyTree t none w.fresh).1, (CopyTree t none w.fresh).2⟩
    | _, _ => some w
  | .clean i => some ⟨w.trees.set i .null, w.fresh⟩
  | .insert i key value =>
    match w.trees[i]? with
    | none => some w
    | some t =>
      (AVLTree.insert t key value w.fresh).map fun res => ⟨w.trees.set i res.1, w.fresh + 1⟩
  | .erase i pos =>
    match w.trees[i]? with
    | none => some w
    | some t => (AVLTree.erase t pos).map fun t1 => ⟨w.trees.set i t1, w.fresh⟩
  | .swap i j =>
    match w.trees[i]?, w.trees[j]? with
    | some a, some b => some ⟨(w.trees.set i b).set j a, w.fresh⟩
    | _, _ => some w
  | .merge i j =>
    match w.trees[i]?, w.trees[j]? with
    | some a, some b =>
      if i = j then (mergeSelf a w.fresh).map fun res => ⟨w.trees.set i res.1, res.2⟩
      else
        (AVLTree.merge a b w.fresh).map fun res =>
          ⟨(w.trees.set i res.1).set j res.2.1, res.2.2⟩
    | _, _ => some w

/-- Runs a program, first call first. -/
def runOps [LT K] [DecidableRel (fun a b : K => a < b)] [DecidableEq K] [Inhabited V] :
    List (Op K V) → World K V → Option (World K V)
  | [], w => some w
  | op :: ops, w => (op.run w).bind (runOps ops)

/-- Every tree object of the world is well formed. -/
def WorldOK [LT K] (w : World K V) : Prop :=
  ∀ t ∈ w.trees, TreeOK w.fresh t

end Programs

end AVLTree

namespace AVLTree

/-! ## Rebalancing with a record of the rotation calls -/

/-- One call of a rotation function, with the address of the node it is called on. -/
inductive Rotation where
  | left (Node : Option Nat) : Rotation
  | right (Node : Option Nat) : Rotation
  deriving DecidableEq, Repr

/-- One call `Balancing(Node)`: the address of `Node`, the balance `bal` it reads, and the
rotation calls it makes, in call order. -/
structure BalancingCall where
  Node : Option Nat
  bal : Int
  rotations : List Rotation
  deriving DecidableEq, Repr

section Recorded

variable {K V : Type}

/-- `Balancing(Node)` as in `Balancing`, returning also the record of the call. -/
def BalancingLog (Node : Tree K V) : Option (Tree K V × BalancingCall) :=
  if GetBalanceNum Node = -2 then
    match Node with
    | .null => none
    | .node a h v k p l r =>
      if GetBalanceNum l = 1 then
        (LeftRotation l).bind fun l1 =>
          (RightRotation (.node a h v k p l1 r)).map fun n =>
            (n, ⟨some a, -2, [.left (rootAddr l), .right (some a)]⟩)
      else (RightRotation (.node a h v k p l r)).map fun n => (n, ⟨some a, -2, [.right (some a)]⟩)
  else if GetBalanceNum Node = 2 then
    match Node with
    | .null => none
    | .node a h v k p l r =>
      if GetBalanceNum r = -1 then
        (RightRotation r).bind fun r1 =>
          (LeftRotation (.node a h v k p l r1)).map fun n =>
            (n, ⟨some a, 2, [.right (rootAddr r), .left (some a)]⟩)
      else (LeftRotation (.node a h v k p l r)).map fun n => (n, ⟨some a, 2, [.left (some a)]⟩)
  else some (Node, ⟨rootAddr Node, GetBalanceNum Node, []⟩)

/-- The statements closing `RecursiveInsertion` as in `retrace`; the record of the call of
`Balancing` is appended to the records `below` of the calls made deeper on the path. -/
def retraceLog (Node : Tree K V) (status : Bool) (below : List BalancingCall) :
    Option (Tree K V × Bool × List BalancingCall) :=
  (BalancingLog (SetHeight Node)).map fun res => (res.1, status, below ++ [res.2])

/-- `RecursiveInsertion(Node, key, value)` as in `RecursiveInsertion`, returning also the
records of the calls of `Balancing`, lowest node of the path first. -/
def RecursiveInsertionLog [LT K] [DecidableRel (fun a b : K => a < b)]
    (fresh : Nat) (key : K) (value : V) :
    Tree K V → Option (Tree K V × Bool × List BalancingCall)
  | .null => some (.null, false, [])
  | .node a h v k p l r =>
    if k > key then
      match l with
      | .null => retraceLog (.node a h v k p (newNodeP fresh key value (some a)) r) true []
      | .node la lh lv lk lp ll lr =>
        (RecursiveInsertionLog fresh key value (.node la lh lv lk lp ll lr)).bind fun res =>
          retraceLog (.node a h v k p res.1 r) res.2.1 res.2.2
    else if k < key then
      match r with
      | .null => retraceLog (.node a h v k p l (newNodeP fresh key value (some a))) true []
      | .node ra rh rv rk rp rl rr =>
        (RecursiveInsertionLog fresh key value (.node ra rh rv rk rp rl rr)).bind fun res =>
          retraceLog (.node a h v k p l res.1) res.2.1 res.2.2
    else retraceLog (.node a h v k p l r) false []

/-- `insert(key, value)` as in `insert`, returning also the records of the calls of
`Balancing` made during the call. -/
def insertLog [LT K] [DecidableRel (fun a b : K => a < b)] [DecidableEq K]
    (root : Tree K V) (key : K) (value : V) (fresh : Nat) :
    Option (Tree K V × Iterator K V × Bool × List BalancingCall) :=
  match root with
  | .null => some (newNode fresh key value, ⟨newNode fresh key value, .null⟩, true, [])
  | .node a h v k p l r =>
    (RecursiveInsertionLog fresh key value (.node a h v k p l r)).map fun res =>
      (res.1, Search res.1 key, res.2.1, res.2.2)

/-- One `operator--` step leads from the node `x` to `y` (null before the first node) when
the climbing loop is given `fuel` iterations. -/
def PrevNode (root : Tree K V) (fuel : Nat) (x y : Tree K V) : Prop :=
  match x with
  | .null => False
  | .node _ _ _ _ _ (.node la lh lv lk lp ll lr) _ => y = GetMaxNode (.node la lh lv lk lp ll lr)
  | .node a h v k p .null r => climbWhileLeft root fuel (.node a h v k p .null r) p = some y

/-- The node object at address `a` of the tree `t` holds `key` and `value`. -/
def HoldsAt (a : Nat) (key : K) (value : V) (t : Tree K V) : Prop :=
  ∃ h p l r, Tree.node a h value key p l r ∈ nodes t

/-- The tree built by inserting `10`, `30` in that order (values `0`), addresses from `0`. -/
def tree1030 : Tree Int Int :=
  .node 0 1 0 10 none .null (.node 1 0 0 30 (some 0) .null .null)

/-- The tree built by inserting `10`, `20`, `30`, `40`, `50`, `60` in that order (all
values `0`), node addresses handed out from `0`. -/
def tree10to60 : Tree Int Int :=
  .node 0 2 0 40 none
    (.node 2 1 0 20 (some 0) (.node 1 0 0 10 (some 2) .null .null)
      (.node 3 0 0 30 (some 2) .null .null))
    (.node 4 1 0 50 (some 0) .null (.node 5 0 0 60 (some 4) .null .null))

/-- The clone of `tree10to60` made by `CopyTree` at allocator `6`, after `insert(25)`. -/
def treeCopy25 : Tree Int Int :=
  .node 6 2 0 30 none
    (.node 9 1 0 20 (some 6) (.node 8 0 0 10 (some 9) .null .null)
      (.node 12 0 0 25 (some 9) .null .null))
    (.node 7 1 0 40 (some 6) .null
      (.node 10 0 0 50 (some 7) .null (.node 11 0 0 60 (some 10) .null .null)))

/-- The tree handed to `Balancing` at the root when `10` is inserted after `30` and `20`:
the root stores balance `-2`. -/
def tree302010 : Tree Int Int :=
  .node 0 2 0 30 none
    (.node 1 1 0 20 (some 0) (.node 2 0 0 10 (some 1) .null .null) .null) .null

end Recorded

end AVLTree

namespace AVLTree

section Basic

variable {K V : Type}

@[simp] theorem toList_SetHeight (t : Tree K V) : toList (SetHeight t) = toList t := by
  cases t <;> rfl

@[simp] theorem toList_setParent (P : Option Nat) (t : Tree K V) :
    toList (setParent P t) = toList t := by
  cases t <;> rfl

theorem keys_eq_map (t : Tree K V) : keys t = (toList t).map Prod.fst := by
  induction t with
  | null => rfl
  | node a h v k p l r ihl ihr => simp [keys, toList, ihl, ihr]

theorem size_eq_length (t : Tree K V) : RecursiveSize t = (toList t).length := by
  induction t with
  | null => rfl
  | node a h v k p l r ihl ihr => simp [RecursiveSize, toList, ihl, ihr]; omega

theorem RightRotation_toList {n n1 : Tree K V} (h : RightRotation n = some n1) :
    toList n1 = toList n := by
  unfold RightRotation at h
  split at h
  · simp at h; subst h; simp [toList]
  · simp at h

theorem LeftRotation_toList {n n1 : Tree K V} (h : LeftRotation n = some n1) :
    toList n1 = toList n := by
  unfold LeftRotation at h
  split at h
  · simp at h; subst h; simp [toList]
  · simp at h

theorem Balancing_toList {n n1 : Tree K V} (h : Balancing n = some n1) :
    toList n1 = toList n := by
  unfold Balancing at h
  split at h
  · split at h
    · simp at h
    · split at h
      · rw [Option.bind_eq_some] at h
        obtain ⟨l1, h1, h2⟩ := h
        rw [RightRotation_toList h2]
        simp [toList, LeftRotation_toList h1]
      · exact RightRotation_toList h
  · split at h
    · split at h
      · simp at h
      · split at h
        · rw [Option.bind_eq_some] at h
          obtain ⟨r1, h1, h2⟩ := h
          rw [LeftRotation_toList h2]
          simp [toList, RightRotation_toList h1]
        · exact LeftRotation_toList h
    · simp at h; subst h; rfl

end Basic

end AVLTree

namespace AVLTree

section Nonneg

variable {K V : Type}

@[simp] theorem GetHeightNum_setParent (P : Option Nat) (t : Tree K V) :
    GetHeightNum (setParent P t) = GetHeightNum t := by
  cases t <;> rfl

@[simp] theorem HeightsNonneg_setParent (P : Option Nat) (t : Tree K V) :
    HeightsNonneg (setParent P t) ↔ HeightsNonneg t := by
  cases t <;> simp [setParent, HeightsNonneg]

theorem GetHeightNum_ge {t : Tree K V} (h : HeightsNonneg t) : -1 ≤ GetHeightNum t := by
  cases t with
  | null => simp [GetHeightNum]
  | node a hh v k p l r =>
    have := h.1
    simp only [GetHeightNum]
    omega

theorem HeightsNonneg_SetHeight_node {a : Nat} {h : Int} {v : V} {k : K} {p : Option Nat}
    {l r : Tree K V} (hl : HeightsNonneg l) (hr : HeightsNonneg r) :
    HeightsNonneg (SetHeight (.node a h v k p l r)) := by
  have h1 := GetHeightNum_ge hl
  have h2 := GetHeightNum_ge hr
  refine ⟨?_, hl, hr⟩
  omega

theorem RightRotation_total {a : Nat} {h : Int} {v : V} {k : K} {p : Option Nat}
    {l r : Tree K V} (hl : HeightsNonneg l) (hr : HeightsNonneg r) (hn : l.isNull = false) :
    ∃ n1, RightRotation (.node a h v k p l r) = some n1 ∧ HeightsNonneg n1 := by
  cases l with
  | null => simp [Tree.isNull] at hn
  | node la lh lv lk lp ll lr =>
    refine ⟨_, rfl, ?_⟩
    obtain ⟨_, hll, hlr⟩ := hl
    apply HeightsNonneg_SetHeight_node
    · simpa using hll
    · apply HeightsNonneg_SetHeight_node <;> simpa

theorem LeftRotation_total {a : Nat} {h : Int} {v : V} {k : K} {p : Option Nat}
    {l r : Tree K V} (hl : HeightsNonneg l) (hr : HeightsNonneg r) (hn : r.isNull = false) :
    ∃ n1, LeftRotation (.node a h v k p l r) = some n1 ∧ HeightsNonneg n1 := by
  cases r with
  | null => simp [Tree.isNull] at hn
  | node ra rh rv rk rp rl rr =>
    refine ⟨_, rfl, ?_⟩
    obtain ⟨_, hrl, hrr⟩ := hr
    apply HeightsNonneg_SetHeight_node
    · apply HeightsNonneg_SetHeight_node <;> simpa
    · simpa using hrr

theorem isNull_of_RightRotation {n n1 : Tree K V} (h : RightRotation n = some n1) :
    n1.isNull = false := by
  unfold RightRotation at h
  split at h
  · simp at h; subst h; rfl
  · simp at h

theorem isNull_of_LeftRotation {n n1 : Tree K V} (h : LeftRotation n = some n1) :
    n1.isNull = false := by
  unfold LeftRotation at h
  split at h
  · simp at h; subst h; rfl
  · simp at h

/-- With no negative stored height below it, `Balancing` never follows a null link. -/
theorem Balancing_total {n : Tree K V} (hn : HeightsNonneg n) :
    ∃ n1, Balancing n = some n1 ∧ HeightsNonneg n1 := by
  cases n with
  | null => exact ⟨.null, by simp [Balancing, GetBalanceNum], trivial⟩
  | node a h v k p l r =>
    obtain ⟨h0, hl, hr⟩ := hn
    have gl := GetHeightNum_ge hl
    have gr := GetHeightNum_ge hr
    unfold Balancing
    by_cases b1 : GetBalanceNum (Tree.node a h v k p l r) = -2
    · rw [if_pos b1]
      have lnn : l.isNull = false := by
        cases l with
        | null => simp [GetBalanceNum, GetHeightNum] at b1 gr; omega
        | node => rfl
      simp only
      by_cases b2 : GetBalanceNum l = 1
      · rw [if_pos b2]
        cases l with
        | null => simp [Tree.isNull] at lnn
        | node la lh lv lk lp ll lr =>
          obtain ⟨_, hll, hlr⟩ := hl
          have glr := GetHeightNum_ge hlr
          have gll := GetHeightNum_ge hll
          have : lr.isNull = false := by
            cases lr with
            | null => simp [GetBalanceNum, GetHeightNum] at b2 gll; omega
            | node => rfl
          obtain ⟨l1, e1, hl1⟩ := LeftRotation_total (a := la) (h := lh) (v := lv) (k := lk)
            (p := lp) hll hlr this
          rw [e1]
          exact RightRotation_total hl1 hr (isNull_of_LeftRotation e1)
      · rw [if_neg b2]
        exact RightRotation_total hl hr lnn
    · rw [if_neg b1]
      by_cases b3 : GetBalanceNum (Tree.node a h v k p l r) = 2
      · rw [if_pos b3]
        have rnn : r.isNull = false := by
          cases r with
          | null => simp [GetBalanceNum, GetHeightNum] at b3 gl; omega
          | node => rfl
        simp only
        by_cases b4 : GetBalanceNum r = -1
        · rw [if_pos b4]
          cases r with
          | null => simp [Tree.isNull] at rnn
          | node ra rh rv rk rp rl rr =>
            obtain ⟨_, hrl, hrr⟩ := hr
            have grl := GetHeightNum_ge hrl
            have grr := GetHeightNum_ge hrr
            have : rl.isNull = false := by
              cases rl with
              | null => simp [GetBalanceNum, GetHeightNum] at b4 grr; omega
              | node => rfl
            obtain ⟨r1, e1, hr1⟩ := RightRotation_total (a := ra) (h := rh) (v := rv) (k := rk)
              (p := rp) hrl hrr this
            rw [e1]
            exact LeftRotation_total hl hr1 (isNull_of_RightRotation e1)
        · rw [if_neg b4]
          exact LeftRotation_total hl hr rnn
      · rw [if_neg b3]
        exact ⟨_, rfl, h0, hl, hr⟩

end Nonneg

end AVLTree

namespace AVLTree

section Order

variable {K V : Type} [LinearOrder K]

theorem BST_iff_pairwise (t : Tree K V) : BST t ↔ (keys t).Pairwise (· < ·) := by
  induction t with
  | null => simp [BST, keys]
  | node a h v k p l r ihl ihr =>
    simp only [BST, keys, List.pairwise_append, List.pairwise_cons, List.mem_cons, ihl, ihr]
    constructor
    · rintro ⟨h1, h2, h3, h4⟩
      refine ⟨h3, ⟨h2, h4⟩, ?_⟩
      intro x hx y hy
      rcases hy with rfl | hy
      · exact h1 x hx
      · exact lt_trans (h1 x hx) (h2 y hy)
    · rintro ⟨h3, ⟨h2, h4⟩, h5⟩
      exact ⟨fun x hx => h5 x hx k (Or.inl rfl), h2, h3, h4⟩

theorem BST_of_toList_eq {t t1 : Tree K V} (h : toList t1 = toList t) (hb : BST t) : BST t1 := by
  rw [BST_iff_pairwise] at *
  rw [keys_eq_map, h, ← keys_eq_map]
  exact hb

omit [LinearOrder K] in
theorem keys_of_toList_eq {t t1 : Tree K V} (h : toList t1 = toList t) : keys t1 = keys t := by
  rw [keys_eq_map, h, ← keys_eq_map]

omit [LinearOrder K] in
theorem size_of_toList_eq {t t1 : Tree K V} (h : toList t1 = toList t) :
    RecursiveSize t1 = RecursiveSize t := by
  rw [size_eq_length, h, ← size_eq_length]

/-- The result of `RecursiveSearch` is null or a node of the tree holding the key. -/
theorem RecursiveSearch_sound (key : K) (t : Tree K V) :
    RecursiveSearch key t = .null ∨
      (RecursiveSearch key t ∈ nodes t ∧
        ∃ a h v p l r, RecursiveSearch key t = .node a h v key p l r) := by
  induction t with
  | null => left; rfl
  | node a h v k p l r ihl ihr =>
    unfold RecursiveSearch
    by_cases e : key = k
    · rw [if_pos e]
      right
      subst e
      exact ⟨by simp [nodes], _, _, _, _, _, _, rfl⟩
    · rw [if_neg e]
      by_cases g : k > key
      · rw [if_pos g]
        rcases ihl with h1 | ⟨h1, h2⟩
        · left; exact h1
        · right; exact ⟨by simp [nodes, h1], h2⟩
      · rw [if_neg g]
        rcases ihr with h1 | ⟨h1, h2⟩
        · left; exact h1
        · right; exact ⟨by simp [nodes, h1], h2⟩

/-- In a tree in BST order `RecursiveSearch` finds every stored key. -/
theorem RecursiveSearch_complete (key : K) {t : Tree K V} (hb : BST t) (hk : key ∈ keys t) :
    (RecursiveSearch key t).isNull = false := by
  induction t with
  | null => simp [keys] at hk
  | node a h v k p l r ihl ihr =>
    obtain ⟨h1, h2, h3, h4⟩ := hb
    unfold RecursiveSearch
    by_cases e : key = k
    · rw [if_pos e]; rfl
    · rw [if_neg e]
      simp only [keys, List.mem_append, List.mem_cons] at hk
      by_cases g : k > key
      · rw [if_pos g]
        rcases hk with hk | hk | hk
        · exact ihl h3 hk
        · exact absurd hk e
        · exact absurd (h2 key hk) (not_lt.mpr (le_of_lt g))
      · rw [if_neg g]
        rcases hk with hk | hk | hk
        · exact absurd (h1 key hk) g
        · exact absurd hk e
        · exact ihr h4 hk

omit [LinearOrder K] in
theorem key_mem_of_mem_nodes {n t : Tree K V} (h : n ∈ nodes t) :
    ∃ a hh v k p l r, n = .node a hh v k p l r ∧ k ∈ keys t := by
  induction t with
  | null => simp [nodes] at h
  | node a hh v k p l r ihl ihr =>
    simp only [nodes, List.mem_append, List.mem_cons] at h
    rcases h with h | h | h
    · obtain ⟨a1, h1, v1, k1, p1, l1, r1, e, m⟩ := ihl h
      exact ⟨a1, h1, v1, k1, p1, l1, r1, e, by simp [keys, m]⟩
    · exact ⟨a, hh, v, k, p, l, r, h, by simp [keys]⟩
    · obtain ⟨a1, h1, v1, k1, p1, l1, r1, e, m⟩ := ihr h
      exact ⟨a1, h1, v1, k1, p1, l1, r1, e, by simp [keys, m]⟩

/-- A key that is not stored is not found. -/
theorem RecursiveSearch_absent (key : K) {t : Tree K V} (hk : key ∉ keys t) :
    RecursiveSearch key t = .null := by
  rcases RecursiveSearch_sound key t with h | ⟨h1, a, hh, v, p, l, r, h2⟩
  · exact h
  · rw [h2] at h1
    obtain ⟨_, _, _, k1, _, _, _, e, m⟩ := key_mem_of_mem_nodes h1
    injection e with _ _ _ e4
    subst e4
    exact absurd m hk

end Order

end AVLTree

namespace AVLTree

section InsertLemmas

variable {K V : Type}

theorem mem_keys_of_mem_toList {x : K × V} {t : Tree K V} (h : x ∈ toList t) :
    x.1 ∈ keys t := by
  rw [keys_eq_map]
  exact List.mem_map_of_mem _ h

theorem Balancing_isNull {n n1 : Tree K V} (h : Balancing n = some n1)
    (hn : n.isNull = false) : n1.isNull = false := by
  unfold Balancing at h
  split at h
  · split at h
    · simp at h
    · split at h
      · rw [Option.bind_eq_some] at h
        obtain ⟨l1, _, h2⟩ := h
        exact isNull_of_RightRotation h2
      · exact isNull_of_RightRotation h
  · split at h
    · split at h
      · simp at h
      · split at h
        · rw [Option.bind_eq_some] at h
          obtain ⟨r1, _, h2⟩ := h
          exact isNull_of_LeftRotation h2
        · exact isNull_of_LeftRotation h
    · simp at h; subst h; exact hn

theorem retrace_spec {a : Nat} {h : Int} {v : V} {k : K} {p : Option Nat} {l r : Tree K V}
    (st : Bool) (hl : HeightsNonneg l) (hr : HeightsNonneg r) :
    ∃ n1, retrace (.node a h v k p l r) st = some (n1, st) ∧ HeightsNonneg n1 ∧
      toList n1 = toList l ++ (k, v) :: toList r ∧ n1.isNull = false := by
  obtain ⟨n1, e, hn1⟩ := Balancing_total (HeightsNonneg_SetHeight_node (a := a) (h := h)
    (v := v) (k := k) (p := p) hl hr)
  refine ⟨n1, ?_, hn1, ?_, ?_⟩
  · simp [retrace, e]
  · rw [Balancing_toList e]; simp [toList]
  · exact Balancing_isNull e rfl

variable [LinearOrder K]

theorem RecursiveInsertion_spec (fresh : Nat) (key : K) (value : V) {t : Tree K V}
    (hn : HeightsNonneg t) (hb : BST t) (ht : t.isNull = false) :
    ∃ t1 b, RecursiveInsertion fresh key value t = some (t1, b) ∧ HeightsNonneg t1 ∧
      t1.isNull = false ∧ (b = true ↔ key ∉ keys t) ∧
      (key ∈ keys t → toList t1 = toList t) ∧
      (key ∉ keys t → ∃ l1 l2, toList t = l1 ++ l2 ∧ toList t1 = l1 ++ (key, value) :: l2 ∧
        (∀ x ∈ l1, x.1 < key) ∧ (∀ x ∈ l2, key < x.1)) := by
  induction t with
  | null => simp [Tree.isNull] at ht
  | node a h v k p l r ihl ihr =>
    obtain ⟨h0, hl, hr⟩ := hn
    obtain ⟨b1, b2, b3, b4⟩ := hb
    unfold RecursiveInsertion
    by_cases g : k > key
    · rw [if_pos g]
      have nr : key ∉ keys r := fun m => absurd (b2 key m) (not_lt.mpr (le_of_lt g))
      have nk : key ≠ k := ne_of_lt g
      cases l with
      | null =>
        simp only
        obtain ⟨n1, e, hn1, tl, nn⟩ := retrace_spec (a := a) (h := h) (v := v) (k := k) (p := p)
          true (l := newNodeP fresh key value (some a)) (r := r) ⟨le_refl _, trivial, trivial⟩ hr
        refine ⟨n1, true, e, hn1, nn, ?_, ?_, ?_⟩
        · simp [keys, nk, nr]
        · intro m; simp [keys, nk, nr] at m
        · intro _
          refine ⟨[], (k, v) :: toList r, by simp [toList], ?_, by simp, ?_⟩
          · rw [tl]; simp [toList, newNodeP]
          · intro x hx
            rcases List.mem_cons.mp hx with rfl | hx
            · exact g
            · exact lt_trans g (b2 _ (mem_keys_of_mem_toList hx))
      | node la lh lv lk lp ll lr =>
        simp only
        obtain ⟨l1, b, e, hl1, _, c1, c2, c3⟩ := ihl hl b3 rfl
        rw [e]
        simp only [Option.some_bind]
        obtain ⟨n1, e1, hn1, tl, nn⟩ := retrace_spec (a := a) (h := h) (v := v) (k := k)
          (p := p) b (l := l1) (r := r) hl1 hr
        have mem : key ∈ keys (Tree.node a h v k p (Tree.node la lh lv lk lp ll lr) r) ↔
            key ∈ keys (Tree.node la lh lv lk lp ll lr) := by
          conv_lhs => rw [keys]
          simp [nk, nr]
        refine ⟨n1, b, e1, hn1, nn, ?_, ?_, ?_⟩
        · rw [mem]; exact c1
        · intro m
          rw [tl, c2 (mem.mp m)]; rfl
        · intro m
          obtain ⟨x1, x2, q1, q2, q3, q4⟩ := c3 (fun m1 => m (mem.mpr m1))
          refine ⟨x1, x2 ++ (k, v) :: toList r, ?_, ?_, q3, ?_⟩
          · conv_lhs => rw [toList]
            rw [q1]; simp
          · rw [tl, q2]; simp
          · intro x hx
            rcases List.mem_append.mp hx with hx | hx
            · exact q4 x hx
            · rcases List.mem_cons.mp hx with rfl | hx
              · exact g
              · exact lt_trans g (b2 _ (mem_keys_of_mem_toList hx))
    · rw [if_neg g]
      by_cases g2 : k < key
      · rw [if_pos g2]
        have nl : key ∉ keys l := fun m => absurd (b1 key m) (not_lt.mpr (le_of_lt g2))
        have nk : key ≠ k := ne_of_gt g2
        cases r with
        | null =>
          simp only
          obtain ⟨n1, e, hn1, tl, nn⟩ := retrace_spec (a := a) (h := h) (v := v) (k := k)
            (p := p) true (l := l) (r := newNodeP fresh key value (some a)) hl
            ⟨le_refl _, trivial, trivial⟩
          refine ⟨n1, true, e, hn1, nn, ?_, ?_, ?_⟩
          · simp [keys, nk, nl]
          · intro m; simp [keys, nk, nl] at m
          · intro _
            refine ⟨toList l ++ [(k, v)], [], by simp [toList], ?_, ?_, by simp⟩
            · rw [tl]; simp [toList, newNodeP]
            · intro x hx
              rcases List.mem_append.mp hx with hx | hx
              · exact lt_trans (b1 _ (mem_keys_of_mem_toList hx)) g2
              · simp at hx; subst hx; exact g2
        | node ra rh rv rk rp rl rr =>
          simp only
          obtain ⟨r1, b, e, hr1, _, c1, c2, c3⟩ := ihr hr b4 rfl
          rw [e]
          simp only [Option.some_bind]
          obtain ⟨n1, e1, hn1, tl, nn⟩ := retrace_spec (a := a) (h := h) (v := v) (k := k)
            (p := p) b (l := l) (r := r1) hl hr1
          have mem : key ∈ keys (Tree.node a h v k p l (Tree.node ra rh rv rk rp rl rr)) ↔
              key ∈ keys (Tree.node ra rh rv rk rp rl rr) := by
            conv_lhs => rw [keys]
            simp [nk, nl]
          refine ⟨n1, b, e1, hn1, nn, ?_, ?_, ?_⟩
          · rw [mem]; exact c1
          · intro m
            rw [tl, c2 (mem.mp m)]; rfl
          · intro m
            obtain ⟨x1, x2, q1, q2, q3, q4⟩ := c3 (fun m1 => m (mem.mpr m1))
            refine ⟨toList l ++ (k, v) :: x1, x2, ?_, ?_, ?_, q4⟩
            · conv_lhs => rw [toList]
              rw [q1]; simp
            · rw [tl, q2]; simp
            · intro x hx
              rcases List.mem_append.mp hx with hx | hx
              · exact lt_trans (b1 _ (mem_keys_of_mem_toList hx)) g2
              · rcases List.mem_cons.mp hx with rfl | hx
                · exact g2
                · exact q3 x hx
      · rw [if_neg g2]
        have ek : key = k := le_antisymm (not_lt.mp g2) (not_lt.mp g)
        obtain ⟨n1, e1, hn1, tl, nn⟩ := retrace_spec (a := a) (h := h) (v := v) (k := k)
          (p := p) false (l := l) (r := r) hl hr
        refine ⟨n1, false, e1, hn1, nn, ?_, ?_, ?_⟩
        · simp [keys, ek]
        · intro _; rw [tl]; rfl
        · intro m; simp [keys, ek] at m

end InsertLemmas

end AVLTree

namespace AVLTree

section DeleteLemmas

variable {K V : Type}

theorem retraceDel_spec {t : Tree K V} (hn : HeightsNonneg t) :
    ∃ n1, retraceDel t = some n1 ∧ HeightsNonneg n1 ∧ toList n1 = toList t := by
  cases t with
  | null => exact ⟨.null, rfl, trivial, rfl⟩
  | node a h v k p l r =>
    obtain ⟨_, hl, hr⟩ := hn
    obtain ⟨n1, e, hn1⟩ := Balancing_total (HeightsNonneg_SetHeight_node (a := a) (h := h)
      (v := v) (k := k) (p := p) hl hr)
    refine ⟨n1, e, hn1, ?_⟩
    rw [Balancing_toList e]; simp [toList]

theorem retraceDel_node_spec {a : Nat} {h : Int} {v : V} {k : K} {p : Option Nat}
    {l r : Tree K V} (hl : HeightsNonneg l) (hr : HeightsNonneg r) :
    ∃ n1, retraceDel (.node a h v k p l r) = some n1 ∧ HeightsNonneg n1 ∧
      toList n1 = toList l ++ (k, v) :: toList r := by
  obtain ⟨n1, e, hn1⟩ := Balancing_total (HeightsNonneg_SetHeight_node (a := a) (h := h)
    (v := v) (k := k) (p := p) hl hr)
  refine ⟨n1, e, hn1, ?_⟩
  rw [Balancing_toList e]; simp [toList]

/-- On a node, `GetMinNode` returns the node holding the first payload of the in-order
sequence, and that node has no left child. -/
theorem GetMinNode_spec {t : Tree K V} (ht : t.isNull = false) :
    ∃ a h v k p r rest, GetMinNode t = .node a h v k p .null r ∧ toList t = (k, v) :: rest := by
  induction t with
  | null => simp [Tree.isNull] at ht
  | node a h v k p l r ihl _ =>
    cases l with
    | null => exact ⟨a, h, v, k, p, r, toList r, rfl, rfl⟩
    | node la lh lv lk lp ll lr =>
      obtain ⟨a1, h1, v1, k1, p1, r1, rest, e, tl⟩ := ihl rfl
      refine ⟨a1, h1, v1, k1, p1, r1, rest ++ (k, v) :: toList r, ?_, ?_⟩
      · rw [GetMinNode]
        · exact e
        · intro hc; cases hc
      · conv_lhs => rw [toList]
        rw [tl]; rfl

variable [LinearOrder K]

theorem filter_ne_of_lt {xs : List (K × V)} {key : K} (h : ∀ x ∈ xs, key < x.1) :
    xs.filter (fun x => decide (x.1 ≠ key)) = xs := by
  rw [List.filter_eq_self]
  intro x hx
  simpa using ne_of_gt (h x hx)

theorem filter_ne_of_gt {xs : List (K × V)} {key : K} (h : ∀ x ∈ xs, x.1 < key) :
    xs.filter (fun x => decide (x.1 ≠ key)) = xs := by
  rw [List.filter_eq_self]
  intro x hx
  simpa using ne_of_lt (h x hx)

theorem lt_of_mem_toList_left {a : Nat} {h : Int} {v : V} {k : K} {p : Option Nat}
    {l r : Tree K V} (hb : BST (.node a h v k p l r)) : ∀ x ∈ toList l, x.1 < k :=
  fun _ hx => hb.1 _ (mem_keys_of_mem_toList hx)

theorem lt_of_mem_toList_right {a : Nat} {h : Int} {v : V} {k : K} {p : Option Nat}
    {l r : Tree K V} (hb : BST (.node a h v k p l r)) : ∀ x ∈ toList r, k < x.1 :=
  fun _ hx => hb.2.1 _ (mem_keys_of_mem_toList hx)

theorem head_lt_of_BST {t : Tree K V} {k : K} {v : V} {rest : List (K × V)} (hb : BST t)
    (e : toList t = (k, v) :: rest) : ∀ x ∈ rest, k < x.1 := by
  rw [BST_iff_pairwise, keys_eq_map, e] at hb
  simp only [List.map_cons, List.pairwise_cons, List.mem_map] at hb
  intro x hx
  exact hb.1 x.1 ⟨x, hx, rfl⟩

theorem RecursiveDeleting_spec {t : Tree K V} (key : K) (hn : HeightsNonneg t) (hb : BST t) :
    ∃ t1, RecursiveDeleting t key = some t1 ∧ HeightsNonneg t1 ∧
      toList t1 = (toList t).filter (fun x => decide (x.1 ≠ key)) := by
  induction t generalizing key with
  | null => exact ⟨.null, rfl, trivial, rfl⟩
  | node a h v k p l r ihl ihr =>
    have hbl := lt_of_mem_toList_left hb
    have hbr := lt_of_mem_toList_right hb
    obtain ⟨h0, hl, hr⟩ := hn
    obtain ⟨b1, b2, b3, b4⟩ := hb
    unfold RecursiveDeleting
    by_cases g : key < k
    · rw [if_pos g]
      obtain ⟨l1, e, hl1, tl⟩ := ihl key hl b3
      rw [e]
      simp only [Option.some_bind]
      obtain ⟨n1, e1, hn1, tn⟩ := retraceDel_node_spec (a := a) (h := h) (v := v) (k := k)
        (p := p) hl1 hr
      refine ⟨n1, e1, hn1, ?_⟩
      rw [tn, tl]
      simp only [toList, List.filter_append, List.filter_cons]
      rw [filter_ne_of_lt (fun x hx => lt_trans g (hbr x hx))]
      simp [ne_of_gt g]
    · rw [if_neg g]
      by_cases g2 : key > k
      · rw [if_pos g2]
        obtain ⟨r1, e, hr1, tl⟩ := ihr key hr b4
        rw [e]
        simp only [Option.some_bind]
        obtain ⟨n1, e1, hn1, tn⟩ := retraceDel_node_spec (a := a) (h := h) (v := v) (k := k)
          (p := p) hl hr1
        refine ⟨n1, e1, hn1, ?_⟩
        rw [tn, tl]
        simp only [toList, List.filter_append, List.filter_cons]
        rw [filter_ne_of_gt (fun x hx => lt_trans (hbl x hx) g2)]
        simp [ne_of_lt g2]
      · rw [if_neg g2]
        have ek : key = k := le_antisymm (not_lt.mp g2) (not_lt.mp g)
        subst ek
        have fl : (toList (Tree.node a h v key p l r)).filter (fun x => decide (x.1 ≠ key)) =
            toList l ++ toList r := by
          simp only [toList, List.filter_append, List.filter_cons]
          rw [filter_ne_of_gt hbl, filter_ne_of_lt hbr]
          simp
        rw [fl]
        cases l with
        | null =>
          simp only
          obtain ⟨n1, e1, hn1, tn⟩ := retraceDel_spec (t := setParent p r) (by simpa using hr)
          exact ⟨n1, e1, hn1, by rw [tn]; simp [toList]⟩
        | node la lh lv lk lp ll lr =>
          cases r with
          | null =>
            simp only
            obtain ⟨n1, e1, hn1, tn⟩ := retraceDel_spec
              (t := setParent p (Tree.node la lh lv lk lp ll lr)) (by simpa using hl)
            exact ⟨n1, e1, hn1, by rw [tn]; simp [toList]⟩
          | node ra rh rv rk rp rl rr =>
            simp only
            obtain ⟨a1, h1, mv, mk, p1, r1, rest, em, tr⟩ :=
              GetMinNode_spec (t := Tree.node ra rh rv rk rp rl rr) rfl
            rw [em]
            simp only
            obtain ⟨r2, e, hr2, tl⟩ := ihr mk hr b4
            rw [e]
            simp only [Option.some_bind]
            obtain ⟨n1, e1, hn1, tn⟩ := retraceDel_node_spec (a := a) (h := h) (v := mv)
              (k := mk) (p := p) hl hr2
            refine ⟨n1, e1, hn1, ?_⟩
            rw [tn, tl, tr]
            simp only [List.filter_cons]
            rw [filter_ne_of_lt (head_lt_of_BST b4 tr)]
            simp

end DeleteLemmas

end AVLTree

namespace AVLTree

section Balance

variable {K V : Type}

theorem GetHeightNum_node (a : Nat) (h : Int) (v : V) (k : K) (p : Option Nat)
    (l r : Tree K V) : GetHeightNum (.node a h v k p l r) = h := rfl

theorem GetHeightNum_null : GetHeightNum (.null : Tree K V) = -1 := rfl

theorem SetHeight_node (a : Nat) (h : Int) (v : V) (k : K) (p : Option Nat) (l r : Tree K V) :
    SetHeight (.node a h v k p l r) =
      .node a (max (GetHeightNum l) (GetHeightNum r) + 1) v k p l r := rfl

theorem setParent_node (P : Option Nat) (a : Nat) (h : Int) (v : V) (k : K) (p : Option Nat)
    (l r : Tree K V) : setParent P (.node a h v k p l r) = .node a h v k P l r := rfl

theorem GetBalanceNum_node (a : Nat) (h : Int) (v : V) (k : K) (p : Option Nat)
    (l r : Tree K V) :
    GetBalanceNum (.node a h v k p l r) = GetHeightNum r - GetHeightNum l := rfl

theorem StoredAVL_node (a : Nat) (h : Int) (v : V) (k : K) (p : Option Nat) (l r : Tree K V) :
    StoredAVL (.node a h v k p l r) ↔
      (h = max (GetHeightNum l) (GetHeightNum r) + 1 ∧
        -1 ≤ GetHeightNum r - GetHeightNum l ∧ GetHeightNum r - GetHeightNum l ≤ 1 ∧
        StoredAVL l ∧ StoredAVL r) := Iff.rfl

@[simp] theorem StoredAVL_setParent (P : Option Nat) (t : Tree K V) :
    StoredAVL (setParent P t) ↔ StoredAVL t := by
  cases t <;> simp [setParent, StoredAVL]

theorem StoredAVL_nonneg {t : Tree K V} (h : StoredAVL t) : HeightsNonneg t := by
  induction t with
  | null => trivial
  | node a hh v k p l r ihl ihr =>
    obtain ⟨h1, _, _, h4, h5⟩ := h
    have g1 := GetHeightNum_ge (ihl h4)
    have g2 := GetHeightNum_ge (ihr h5)
    exact ⟨by omega, ihl h4, ihr h5⟩

theorem StoredAVL_ge {t : Tree K V} (h : StoredAVL t) : -1 ≤ GetHeightNum t :=
  GetHeightNum_ge (StoredAVL_nonneg h)

theorem StoredAVL_height {t : Tree K V} (h : StoredAVL t) : GetHeightNum t = height t := by
  induction t with
  | null => rfl
  | node a hh v k p l r ihl ihr =>
    obtain ⟨h1, _, _, h4, h5⟩ := h
    simp only [GetHeightNum, height]
    rw [h1, ihl h4, ihr h5]

theorem StoredAVL_stored {t : Tree K V} (h : StoredAVL t) : HeightsStored t := by
  induction t with
  | null => trivial
  | node a hh v k p l r ihl ihr =>
    have e := StoredAVL_height h
    obtain ⟨_, _, _, h4, h5⟩ := h
    exact ⟨e, ihl h4, ihr h5⟩

theorem StoredAVL_balanced {t : Tree K V} (h : StoredAVL t) : Balanced t := by
  induction t with
  | null => trivial
  | node a hh v k p l r ihl ihr =>
    obtain ⟨_, h2, h3, h4, h5⟩ := h
    rw [StoredAVL_height h4, StoredAVL_height h5] at h2 h3
    exact ⟨by omega, ihl h4, ihr h5⟩

/-- Rebalancing step: with both children AVL and stored heights at most two apart,
`SetHeight` followed by `Balancing` returns an AVL node whose height is the larger child
height plus one, or (only after a rotation) the larger child height. -/
theorem Balancing_StoredAVL {a : Nat} {h : Int} {v : V} {k : K} {p : Option Nat}
    {l r : Tree K V} (hl : StoredAVL l) (hr : StoredAVL r)
    (d1 : -2 ≤ GetHeightNum r - GetHeightNum l) (d2 : GetHeightNum r - GetHeightNum l ≤ 2) :
    ∃ n1, Balancing (SetHeight (.node a h v k p l r)) = some n1 ∧ StoredAVL n1 ∧
      (GetHeightNum n1 = max (GetHeightNum l) (GetHeightNum r) + 1 ∨
        (GetHeightNum n1 = max (GetHeightNum l) (GetHeightNum r) ∧
          (GetHeightNum r - GetHeightNum l = 2 ∨ GetHeightNum r - GetHeightNum l = -2))) := by
  have gl := StoredAVL_ge hl
  have gr := StoredAVL_ge hr
  unfold Balancing
  by_cases b1 : GetHeightNum r - GetHeightNum l = -2
  · rw [if_pos (by simpa [SetHeight, GetBalanceNum] using b1)]
    cases l with
    | null => simp [GetHeightNum] at b1 gr; omega
    | node la lh lv lk lp ll lr =>
      obtain ⟨e1, e2, e3, all, alr⟩ := hl
      have gll := StoredAVL_ge all
      have glr := StoredAVL_ge alr
      simp only [SetHeight]
      by_cases b2 : GetBalanceNum (Tree.node la lh lv lk lp ll lr) = 1
      · rw [if_pos b2]
        cases lr with
        | null => simp [GetBalanceNum, GetHeightNum] at b2 gll; omega
        | node ca ch cv ck cp cl cr =>
          obtain ⟨f1, f2, f3, acl, acr⟩ := alr
          have gcl := StoredAVL_ge acl
          have gcr := StoredAVL_ge acr
          simp only [GetBalanceNum_node, GetHeightNum_node] at b1 b2 e1 f1 e2 e3 ⊢
          refine ⟨_, rfl, ?_⟩
          simp only [SetHeight_node, GetHeightNum_node, GetHeightNum_setParent, StoredAVL_node,
            StoredAVL_setParent, setParent_node]
          refine ⟨⟨trivial, ?_, ?_, ⟨trivial, ?_, ?_, all, acl⟩, ⟨trivial, ?_, ?_, acr, hr⟩⟩, ?_⟩ <;>
            omega
      · rw [if_neg b2]
        simp only [GetBalanceNum_node, GetHeightNum_node] at b1 b2 e1 e2 e3 ⊢
        refine ⟨_, rfl, ?_⟩
        simp only [SetHeight_node, GetHeightNum_node, GetHeightNum_setParent, StoredAVL_node,
          StoredAVL_setParent, setParent_node]
        refine ⟨⟨trivial, ?_, ?_, all, ⟨trivial, ?_, ?_, alr, hr⟩⟩, ?_⟩ <;> omega
  · rw [if_neg (by simpa [SetHeight, GetBalanceNum] using b1)]
    by_cases b3 : GetHeightNum r - GetHeightNum l = 2
    · rw [if_pos (by simpa [SetHeight, GetBalanceNum] using b3)]
      cases r with
      | null => simp [GetHeightNum] at b3 gl; omega
      | node ra rh rv rk rp rl rr =>
        obtain ⟨e1, e2, e3, arl, arr⟩ := hr
        have grl := StoredAVL_ge arl
        have grr := StoredAVL_ge arr
        simp only [SetHeight]
        by_cases b4 : GetBalanceNum (Tree.node ra rh rv rk rp rl rr) = -1
        · rw [if_pos b4]
          cases rl with
          | null => simp [GetBalanceNum, GetHeightNum] at b4 grr; omega
          | node ca ch cv ck cp cl cr =>
            obtain ⟨f1, f2, f3, acl, acr⟩ := arl
            have gcl := StoredAVL_ge acl
            have gcr := StoredAVL_ge acr
            simp only [GetBalanceNum_node, GetHeightNum_node] at b3 b4 e1 f1 e2 e3 ⊢
            refine ⟨_, rfl, ?_⟩
            simp only [SetHeight_node, GetHeightNum_node, GetHeightNum_setParent, StoredAVL_node,
              StoredAVL_setParent, setParent_node]
            refine ⟨⟨trivial, ?_, ?_, ⟨trivial, ?_, ?_, hl, acl⟩, ⟨trivial, ?_, ?_, acr, arr⟩⟩,
              ?_⟩ <;> omega
        · rw [if_neg b4]
          simp only [GetBalanceNum_node, GetHeightNum_node] at b3 b4 e1 e2 e3 ⊢
          refine ⟨_, rfl, ?_⟩
          simp only [SetHeight_node, GetHeightNum_node, GetHeightNum_setParent, StoredAVL_node,
            StoredAVL_setParent, setParent_node]
          refine ⟨⟨trivial, ?_, ?_, ⟨trivial, ?_, ?_, hl, arl⟩, arr⟩, ?_⟩ <;> omega
    · rw [if_neg (by simpa [SetHeight, GetBalanceNum] using b3)]
      refine ⟨_, rfl, ⟨rfl, ?_, ?_, hl, hr⟩, Or.inl rfl⟩ <;> omega

end Balance

end AVLTree

namespace AVLTree

section BalanceOps

variable {K V : Type} [LinearOrder K]

theorem RecursiveInsertion_StoredAVL (fresh : Nat) (key : K) (value : V) {t : Tree K V}
    (ha : StoredAVL t) (ht : t.isNull = false) :
    ∃ t1 b, RecursiveInsertion fresh key value t = some (t1, b) ∧ StoredAVL t1 ∧
      (GetHeightNum t1 = GetHeightNum t ∨ GetHeightNum t1 = GetHeightNum t + 1) := by
  induction t with
  | null => simp [Tree.isNull] at ht
  | node a h v k p l r ihl ihr =>
    obtain ⟨e1, e2, e3, al, ar⟩ := ha
    have gl := StoredAVL_ge al
    have gr := StoredAVL_ge ar
    unfold RecursiveInsertion
    by_cases g : k > key
    · rw [if_pos g]
      cases l with
      | null =>
        simp only
        have an : StoredAVL (newNodeP fresh key value (some a) : Tree K V) :=
          ⟨rfl, by simp [GetHeightNum], by simp [GetHeightNum], trivial, trivial⟩
        simp only [GetHeightNum_null, GetHeightNum_node] at e1 e2 e3 gl
        obtain ⟨n1, q1, q2, q3⟩ := Balancing_StoredAVL (a := a) (h := h) (v := v) (k := k)
          (p := p) an ar (by simp only [newNodeP, GetHeightNum_node, GetHeightNum_null]; omega)
          (by simp only [newNodeP, GetHeightNum_node, GetHeightNum_null]; omega)
        refine ⟨n1, true, by simp [retrace, q1], q2, ?_⟩
        simp only [newNodeP, GetHeightNum_node, GetHeightNum_null] at q3 ⊢
        omega
      | node la lh lv lk lp ll lr =>
        simp only
        obtain ⟨l1, b, e, al1, hh⟩ := ihl al rfl
        rw [e]
        simp only [Option.some_bind]
        obtain ⟨n1, q1, q2, q3⟩ := Balancing_StoredAVL (a := a) (h := h) (v := v) (k := k)
          (p := p) al1 ar (by omega) (by omega)
        refine ⟨n1, b, by simp [retrace, q1], q2, ?_⟩
        simp only [GetHeightNum_node] at q3 hh e1 e2 e3 ⊢
        omega
    · rw [if_neg g]
      by_cases g2 : k < key
      · rw [if_pos g2]
        cases r with
        | null =>
          simp only
          have an : StoredAVL (newNodeP fresh key value (some a) : Tree K V) :=
            ⟨rfl, by simp [GetHeightNum], by simp [GetHeightNum], trivial, trivial⟩
          simp only [GetHeightNum_null, GetHeightNum_node] at e1 e2 e3 gr
          obtain ⟨n1, q1, q2, q3⟩ := Balancing_StoredAVL (a := a) (h := h) (v := v) (k := k)
            (p := p) al an (by simp only [newNodeP, GetHeightNum_node, GetHeightNum_null]; omega)
            (by simp only [newNodeP, GetHeightNum_node, GetHeightNum_null]; omega)
          refine ⟨n1, true, by simp [retrace, q1], q2, ?_⟩
          simp only [newNodeP, GetHeightNum_node, GetHeightNum_null] at q3 ⊢
          omega
        | node ra rh rv rk rp rl rr =>
          simp only
          obtain ⟨r1, b, e, ar1, hh⟩ := ihr ar rfl
          rw [e]
          simp only [Option.some_bind]
          obtain ⟨n1, q1, q2, q3⟩ := Balancing_StoredAVL (a := a) (h := h) (v := v) (k := k)
            (p := p) al ar1 (by omega) (by omega)
          refine ⟨n1, b, by simp [retrace, q1], q2, ?_⟩
          simp only [GetHeightNum_node] at q3 hh e1 e2 e3 ⊢
          omega
      · rw [if_neg g2]
        obtain ⟨n1, q1, q2, q3⟩ := Balancing_StoredAVL (a := a) (h := h) (v := v) (k := k)
          (p := p) al ar (by omega) (by omega)
        refine ⟨n1, false, by simp [retrace, q1], q2, ?_⟩
        simp only [GetHeightNum_node] at q3 ⊢
        omega

omit [LinearOrder K] in
theorem retraceDel_StoredAVL {a : Nat} {h : Int} {v : V} {k : K} {p : Option Nat}
    {l r : Tree K V} (hl : StoredAVL l) (hr : StoredAVL r)
    (d1 : -2 ≤ GetHeightNum r - GetHeightNum l) (d2 : GetHeightNum r - GetHeightNum l ≤ 2) :
    ∃ n1, retraceDel (.node a h v k p l r) = some n1 ∧ StoredAVL n1 ∧
      (GetHeightNum n1 = max (GetHeightNum l) (GetHeightNum r) + 1 ∨
        (GetHeightNum n1 = max (GetHeightNum l) (GetHeightNum r) ∧
          (GetHeightNum r - GetHeightNum l = 2 ∨ GetHeightNum r - GetHeightNum l = -2))) :=
  Balancing_StoredAVL hl hr d1 d2

omit [LinearOrder K] in
theorem retraceDel_setParent_StoredAVL (P : Option Nat) {t : Tree K V} (ha : StoredAVL t) :
    ∃ n1, retraceDel (setParent P t) = some n1 ∧ StoredAVL n1 ∧
      GetHeightNum n1 = GetHeightNum t := by
  cases t with
  | null => exact ⟨.null, rfl, trivial, rfl⟩
  | node a h v k p l r =>
    obtain ⟨e1, e2, e3, al, ar⟩ := ha
    obtain ⟨n1, q1, q2, q3⟩ := retraceDel_StoredAVL (a := a) (h := h) (v := v) (k := k)
      (p := P) al ar (by omega) (by omega)
    refine ⟨n1, q1, q2, ?_⟩
    simp only [GetHeightNum_node]
    omega

theorem RecursiveDeleting_StoredAVL {t : Tree K V} (key : K) (ha : StoredAVL t) :
    ∃ t1, RecursiveDeleting t key = some t1 ∧ StoredAVL t1 ∧
      (GetHeightNum t1 = GetHeightNum t ∨ GetHeightNum t1 = GetHeightNum t - 1) := by
  induction t generalizing key with
  | null => exact ⟨.null, rfl, trivial, Or.inl rfl⟩
  | node a h v k p l r ihl ihr =>
    obtain ⟨e1, e2, e3, al, ar⟩ := ha
    have gl := StoredAVL_ge al
    have gr := StoredAVL_ge ar
    unfold RecursiveDeleting
    by_cases g : key < k
    · rw [if_pos g]
      obtain ⟨l1, e, al1, hh⟩ := ihl key al
      rw [e]
      simp only [Option.some_bind]
      obtain ⟨n1, q1, q2, q3⟩ := retraceDel_StoredAVL (a := a) (h := h) (v := v) (k := k)
        (p := p) al1 ar (by omega) (by omega)
      refine ⟨n1, q1, q2, ?_⟩
      simp only [GetHeightNum_node]
      omega
    · rw [if_neg g]
      by_cases g2 : key > k
      · rw [if_pos g2]
        obtain ⟨r1, e, ar1, hh⟩ := ihr key ar
        rw [e]
        simp only [Option.some_bind]
        obtain ⟨n1, q1, q2, q3⟩ := retraceDel_StoredAVL (a := a) (h := h) (v := v) (k := k)
          (p := p) al ar1 (by omega) (by omega)
        refine ⟨n1, q1, q2, ?_⟩
        simp only [GetHeightNum_node]
        omega
      · rw [if_neg g2]
        cases l with
        | null =>
          simp only
          obtain ⟨n1, q1, q2, q3⟩ := retraceDel_setParent_StoredAVL p ar
          refine ⟨n1, q1, q2, ?_⟩
          simp only [GetHeightNum_null, GetHeightNum_node] at e1 e2 e3 gl ⊢
          omega
        | node la lh lv lk lp ll lr =>
          cases r with
          | null =>
            simp only
            obtain ⟨n1, q1, q2, q3⟩ := retraceDel_setParent_StoredAVL p al
            refine ⟨n1, q1, q2, ?_⟩
            simp only [GetHeightNum_null, GetHeightNum_node] at e1 e2 e3 gr gl q3 ⊢
            omega
          | node ra rh rv rk rp rl rr =>
            simp only
            obtain ⟨a1, h1, mv, mk, p1, r1, rest, em, tr⟩ :=
              GetMinNode_spec (t := Tree.node ra rh rv rk rp rl rr) rfl
            rw [em]
            simp only
            obtain ⟨r2, e, ar2, hh⟩ := ihr mk ar
            rw [e]
            simp only [Option.some_bind]
            obtain ⟨n1, q1, q2, q3⟩ := retraceDel_StoredAVL (a := a) (h := h) (v := mv)
              (k := mk) (p := p) al ar2 (by omega) (by omega)
            refine ⟨n1, q1, q2, ?_⟩
            simp only [GetHeightNum_node] at q3 hh e1 e2 e3 ⊢
            omega

end BalanceOps

end AVLTree

namespace AVLTree

section Api

variable {K V : Type} [LinearOrder K]

theorem pairwise_insert_mid {l1 l2 : List (K × V)} {key : K} (value : V)
    (hp : ((l1 ++ l2).map Prod.fst).Pairwise (· < ·)) (h1 : ∀ x ∈ l1, x.1 < key)
    (h2 : ∀ x ∈ l2, key < x.1) :
    ((l1 ++ (key, value) :: l2).map Prod.fst).Pairwise (· < ·) := by
  simp only [List.map_append, List.map_cons, List.pairwise_append, List.pairwise_cons,
    List.mem_map, List.mem_cons] at hp ⊢
  obtain ⟨p1, p2, p3⟩ := hp
  refine ⟨p1, ⟨?_, p2⟩, ?_⟩
  · rintro _ ⟨x, hx, rfl⟩
    exact h2 x hx
  · rintro _ ⟨x, hx, rfl⟩ y hy
    rcases hy with rfl | ⟨z, hz, rfl⟩
    · exact h1 x hx
    · exact p3 _ ⟨x, hx, rfl⟩ _ ⟨z, hz, rfl⟩

/-- What `insert` returns on a tree in BST order with no negative stored height. -/
theorem insert_spec (t : Tree K V) (key : K) (value : V) (fresh : Nat)
    (hn : HeightsNonneg t) (hb : BST t) :
    ∃ t1 b, insert t key value fresh = some (t1, Search t1 key, b) ∧ HeightsNonneg t1 ∧
      BST t1 ∧ t1.isNull = false ∧ (b = true ↔ key ∉ keys t) ∧
      (key ∈ keys t → toList t1 = toList t) ∧
      (key ∉ keys t → ∃ l1 l2, toList t = l1 ++ l2 ∧ toList t1 = l1 ++ (key, value) :: l2 ∧
        (∀ x ∈ l1, x.1 < key) ∧ (∀ x ∈ l2, key < x.1)) := by
  cases t with
  | null =>
    refine ⟨newNode fresh key value, true, ?_, ⟨le_refl _, trivial, trivial⟩, ?_, rfl, ?_, ?_, ?_⟩
    · simp [insert, Search, newNode, RecursiveSearch]
    · simp [newNode, BST, keys]
    · simp [keys]
    · simp [keys]
    · intro _
      exact ⟨[], [], rfl, rfl, by simp, by simp⟩
  | node a h v k p l r =>
    obtain ⟨t1, b, e, hn1, nn, c1, c2, c3⟩ := RecursiveInsertion_spec fresh key value hn hb rfl
    refine ⟨t1, b, by simp [insert, e], hn1, ?_, nn, c1, c2, c3⟩
    by_cases m : key ∈ keys (Tree.node a h v k p l r)
    · exact BST_of_toList_eq (c2 m) hb
    · obtain ⟨l1, l2, q1, q2, q3, q4⟩ := c3 m
      rw [BST_iff_pairwise, keys_eq_map] at hb ⊢
      rw [q2]
      rw [q1] at hb
      exact pairwise_insert_mid value hb q3 q4

theorem insert_keys {t t1 : Tree K V} {key : K} {value : V}
    (c2 : key ∈ keys t → toList t1 = toList t)
    (c3 : key ∉ keys t → ∃ l1 l2, toList t = l1 ++ l2 ∧ toList t1 = l1 ++ (key, value) :: l2 ∧
        (∀ x ∈ l1, x.1 < key) ∧ (∀ x ∈ l2, key < x.1)) (x : K) :
    x ∈ keys t1 ↔ x = key ∨ x ∈ keys t := by
  by_cases m : key ∈ keys t
  · rw [keys_of_toList_eq (c2 m)]
    constructor
    · exact Or.inr
    · rintro (rfl | h)
      · exact m
      · exact h
  · obtain ⟨l1, l2, q1, q2, _, _⟩ := c3 m
    rw [keys_eq_map, keys_eq_map, q1, q2]
    simp only [List.map_append, List.map_cons, List.mem_append, List.mem_cons]
    tauto

theorem insert_size {t t1 : Tree K V} {key : K} {value : V}
    (c2 : key ∈ keys t → toList t1 = toList t)
    (c3 : key ∉ keys t → ∃ l1 l2, toList t = l1 ++ l2 ∧ toList t1 = l1 ++ (key, value) :: l2 ∧
        (∀ x ∈ l1, x.1 < key) ∧ (∀ x ∈ l2, key < x.1)) :
    RecursiveSize t1 = RecursiveSize t + (if key ∈ keys t then 0 else 1) := by
  by_cases m : key ∈ keys t
  · rw [if_pos m, size_of_toList_eq (c2 m)]; rfl
  · obtain ⟨l1, l2, q1, q2, _, _⟩ := c3 m
    rw [if_neg m, size_eq_length, size_eq_length, q1, q2]
    simp only [List.length_append, List.length_cons]
    omega

/-- In a tree in BST order, `Search` for a stored key is positioned at a node of the tree
that holds the key. -/
theorem Search_found {t : Tree K V} {key : K} (hb : BST t) (hk : key ∈ keys t) :
    (Search t key).it_node ∈ nodes t ∧
      ∃ a h v p l r, (Search t key).it_node = .node a h v key p l r := by
  have nn := RecursiveSearch_complete key hb hk
  rcases RecursiveSearch_sound key t with h | h
  · rw [h] at nn; simp [Tree.isNull] at nn
  · exact h

/-- What `erase` does on a tree in BST order with no negative stored height. -/
theorem erase_spec (t : Tree K V) (pos : Iterator K V) (hn : HeightsNonneg t) (hb : BST t) :
    ∃ t1, erase t pos = some t1 ∧ HeightsNonneg t1 ∧ BST t1 ∧
      (pos.it_node = .null → t1 = t) ∧
      (∀ a h v k p l r, pos.it_node = .node a h v k p l r →
        toList t1 = (toList t).filter (fun x => decide (x.1 ≠ k))) := by
  cases t with
  | null =>
    refine ⟨.null, by simp [erase], trivial, trivial, fun _ => rfl, ?_⟩
    intros; rfl
  | node a h v k p l r =>
    cases hp : pos.it_node with
    | null =>
      refine ⟨_, by simp [erase, hp], hn, hb, fun _ => rfl, ?_⟩
      intro _ _ _ _ _ _ _ hc; cases hc
    | node a1 h1 v1 k1 p1 l1 r1 =>
      obtain ⟨t1, e, hn1, tl⟩ := RecursiveDeleting_spec k1 hn hb
      refine ⟨t1, by simp [erase, hp, e], hn1, ?_, fun hc => Tree.noConfusion hc, ?_⟩
      · rw [BST_iff_pairwise, keys_eq_map] at hb ⊢
        rw [tl]
        exact (List.Pairwise.sublist ((List.filter_sublist _).map _) hb)
      · intro _ _ _ _ _ _ _ hc
        cases hc
        exact tl

end Api

end AVLTree

namespace AVLTree

section Pointers

variable {K V : Type}

@[simp] theorem addrs_SetHeight (t : Tree K V) : addrs (SetHeight t) = addrs t := by
  cases t <;> rfl

@[simp] theorem addrs_setParent (P : Option Nat) (t : Tree K V) :
    addrs (setParent P t) = addrs t := by
  cases t <;> rfl

theorem addrs_node (a : Nat) (h : Int) (v : V) (k : K) (p : Option Nat) (l r : Tree K V) :
    addrs (.node a h v k p l r) = addrs l ++ a :: addrs r := rfl

theorem ParentsOK_node (P : Option Nat) (a : Nat) (h : Int) (v : V) (k : K) (p : Option Nat)
    (l r : Tree K V) :
    ParentsOK P (.node a h v k p l r) ↔ (p = P ∧ ParentsOK (some a) l ∧ ParentsOK (some a) r) :=
  Iff.rfl

theorem ParentsOK_setParent {P : Option Nat} (Q : Option Nat) {t : Tree K V}
    (h : ParentsOK P t) : ParentsOK Q (setParent Q t) := by
  cases t with
  | null => trivial
  | node a hh v k p l r => exact ⟨rfl, h.2.1, h.2.2⟩

@[simp] theorem ParentsOK_SetHeight (P : Option Nat) (t : Tree K V) :
    ParentsOK P (SetHeight t) ↔ ParentsOK P t := by
  cases t <;> simp [SetHeight, ParentsOK]

theorem RightRotation_ParentsOK {P : Option Nat} {n n1 : Tree K V} (hp : ParentsOK P n)
    (h : RightRotation n = some n1) : ParentsOK P n1 := by
  unfold RightRotation at h
  split at h
  · simp only [Option.some.injEq] at h
    subst h
    obtain ⟨e, ⟨e1, pll, plr⟩, pr⟩ := hp
    simp only [SetHeight_node, ParentsOK_node]
    exact ⟨e, ParentsOK_setParent _ pll, e1, ParentsOK_setParent _ plr, ParentsOK_setParent _ pr⟩
  · simp at h

theorem LeftRotation_ParentsOK {P : Option Nat} {n n1 : Tree K V} (hp : ParentsOK P n)
    (h : LeftRotation n = some n1) : ParentsOK P n1 := by
  unfold LeftRotation at h
  split at h
  · simp only [Option.some.injEq] at h
    subst h
    obtain ⟨e, pl, ⟨e1, prl, prr⟩⟩ := hp
    simp only [SetHeight_node, ParentsOK_node]
    exact ⟨e, ⟨e1, ParentsOK_setParent _ pl, ParentsOK_setParent _ prl⟩,
      ParentsOK_setParent _ prr⟩
  · simp at h

theorem RightRotation_addrs {n n1 : Tree K V} (h : RightRotation n = some n1) :
    (addrs n1).Perm (addrs n) := by
  unfold RightRotation at h
  split at h
  · simp only [Option.some.injEq] at h
    subst h
    simp only [SetHeight_node, addrs_node, addrs_setParent]
    rw [List.perm_iff_count]
    intro x
    simp only [List.count_append, List.count_cons]
    omega
  · simp at h

theorem LeftRotation_addrs {n n1 : Tree K V} (h : LeftRotation n = some n1) :
    (addrs n1).Perm (addrs n) := by
  unfold LeftRotation at h
  split at h
  · simp only [Option.some.injEq] at h
    subst h
    simp only [SetHeight_node, addrs_node, addrs_setParent]
    rw [List.perm_iff_count]
    intro x
    simp only [List.count_append, List.count_cons]
    omega
  · simp at h

theorem Balancing_ptr {P : Option Nat} {n n1 : Tree K V} (h : Balancing n = some n1)
    (hp : ParentsOK P n) : ParentsOK P n1 ∧ (addrs n1).Perm (addrs n) := by
  unfold Balancing at h
  split at h
  · split at h
    · simp at h
    · split at h
      · rw [Option.bind_eq_some] at h
        obtain ⟨l1, h1, h2⟩ := h
        obtain ⟨e, pl, pr⟩ := hp
        refine ⟨RightRotation_ParentsOK (n := Tree.node _ _ _ _ _ _ _)
          ⟨e, LeftRotation_ParentsOK pl h1, pr⟩ h2, ?_⟩
        refine (RightRotation_addrs h2).trans ?_
        simp only [addrs_node]
        exact List.Perm.append_right _ (LeftRotation_addrs h1)
      · exact ⟨RightRotation_ParentsOK hp h, RightRotation_addrs h⟩
  · split at h
    · split at h
      · simp at h
      · split at h
        · rw [Option.bind_eq_some] at h
          obtain ⟨r1, h1, h2⟩ := h
          obtain ⟨e, pl, pr⟩ := hp
          refine ⟨LeftRotation_ParentsOK (n := Tree.node _ _ _ _ _ _ _)
            ⟨e, pl, RightRotation_ParentsOK pr h1⟩ h2, ?_⟩
          refine (LeftRotation_addrs h2).trans ?_
          simp only [addrs_node]
          exact List.Perm.append_left _ (List.Perm.cons _ (RightRotation_addrs h1))
        · exact ⟨LeftRotation_ParentsOK hp h, LeftRotation_addrs h⟩
    · simp only [Option.some.injEq] at h
      subst h
      exact ⟨hp, List.Perm.refl _⟩

theorem retrace_ptr {P : Option Nat} {n n1 : Tree K V} {st b : Bool}
    (h : retrace n st = some (n1, b)) (hp : ParentsOK P n) :
    b = st ∧ ParentsOK P n1 ∧ (addrs n1).Perm (addrs n) := by
  unfold retrace at h
  rw [Option.map_eq_some'] at h
  obtain ⟨n2, h1, h2⟩ := h
  simp only [Prod.mk.injEq] at h2
  obtain ⟨rfl, rfl⟩ := h2
  obtain ⟨q1, q2⟩ := Balancing_ptr h1 ((ParentsOK_SetHeight P n).mpr hp)
  exact ⟨rfl, q1, by simpa using q2⟩

theorem retraceDel_ptr {P : Option Nat} {n n1 : Tree K V} (h : retraceDel n = some n1)
    (hp : ParentsOK P n) : ParentsOK P n1 ∧ (addrs n1).Perm (addrs n) := by
  cases n with
  | null =>
    simp only [retraceDel, Option.some.injEq] at h
    subst h
    exact ⟨trivial, List.Perm.refl _⟩
  | node a hh v k p l r =>
    simp only [retraceDel] at h
    obtain ⟨q1, q2⟩ := Balancing_ptr h ((ParentsOK_SetHeight P _).mpr hp)
    exact ⟨q1, by simpa using q2⟩

variable [LinearOrder K]

theorem RecursiveInsertion_ptr {P : Option Nat} {fresh : Nat} {key : K} {value : V}
    {t t1 : Tree K V} {b : Bool} (hp : ParentsOK P t)
    (h : RecursiveInsertion fresh key value t = some (t1, b)) :
    ParentsOK P t1 ∧ (addrs t1).Perm (if b then fresh :: addrs t else addrs t) := by
  induction t generalizing P t1 b with
  | null =>
    simp only [RecursiveInsertion, Option.some.injEq, Prod.mk.injEq] at h
    obtain ⟨rfl, rfl⟩ := h
    exact ⟨trivial, by simp⟩
  | node a hh v k p l r ihl ihr =>
    obtain ⟨e, pl, pr⟩ := hp
    subst e
    unfold RecursiveInsertion at h
    split at h
    · split at h
      · obtain ⟨rfl, q1, q2⟩ := retrace_ptr h (P := p) ⟨rfl, ⟨rfl, trivial, trivial⟩, pr⟩
        refine ⟨q1, q2.trans ?_⟩
        simp only [addrs_node, newNodeP, addrs, List.nil_append, if_true]
        exact List.Perm.refl _
      · rw [Option.bind_eq_some] at h
        obtain ⟨res, h1, h2⟩ := h
        obtain ⟨i1, i2⟩ := ihl pl h1
        obtain ⟨rfl, q1, q2⟩ := retrace_ptr h2 (P := p) ⟨rfl, i1, pr⟩
        refine ⟨q1, q2.trans ?_⟩
        rw [addrs_node]
        refine (List.Perm.append_right _ i2).trans ?_
        cases res.2 <;> simp [addrs_node]
    · split at h
      · split at h
        · obtain ⟨rfl, q1, q2⟩ := retrace_ptr h (P := p) ⟨rfl, pl, ⟨rfl, trivial, trivial⟩⟩
          refine ⟨q1, q2.trans ?_⟩
          simp only [addrs_node, newNodeP, addrs, List.nil_append, if_true]
          rw [List.perm_iff_count]
          intro x
          simp only [List.count_append, List.count_cons, List.count_nil]
          omega
        · rw [Option.bind_eq_some] at h
          obtain ⟨res, h1, h2⟩ := h
          obtain ⟨i1, i2⟩ := ihr pr h1
          obtain ⟨rfl, q1, q2⟩ := retrace_ptr h2 (P := p) ⟨rfl, pl, i1⟩
          refine ⟨q1, q2.trans ?_⟩
          rw [addrs_node]
          refine (List.Perm.append_left _ (List.Perm.cons _ i2)).trans ?_
          cases res.2
          · simp [addrs_node]
          · simp only [if_true, addrs_node]
            rw [List.perm_iff_count]
            intro x
            simp only [List.count_append, List.count_cons]
            omega
      · obtain ⟨rfl, q1, q2⟩ := retrace_ptr h (P := p) ⟨rfl, pl, pr⟩
        exact ⟨q1, by simpa using q2⟩

theorem RecursiveDeleting_ptr {P : Option Nat} {key : K} {t t1 : Tree K V}
    (hp : ParentsOK P t) (h : RecursiveDeleting t key = some t1) :
    ParentsOK P t1 ∧ (addrs t1).Subperm (addrs t) := by
  induction t generalizing P t1 key with
  | null =>
    simp only [RecursiveDeleting, Option.some.injEq] at h
    subst h
    exact ⟨trivial, List.Subperm.refl _⟩
  | node a hh v k p l r ihl ihr =>
    obtain ⟨e, pl, pr⟩ := hp
    subst e
    unfold RecursiveDeleting at h
    split at h
    · rw [Option.bind_eq_some] at h
      obtain ⟨l1, h1, h2⟩ := h
      obtain ⟨i1, i2⟩ := ihl pl h1
      obtain ⟨q1, q2⟩ := retraceDel_ptr h2 (P := p) ⟨rfl, i1, pr⟩
      refine ⟨q1, q2.subperm.trans ?_⟩
      simp only [addrs_node]
      exact (List.subperm_append_right _).mpr i2
    · split at h
      · rw [Option.bind_eq_some] at h
        obtain ⟨r1, h1, h2⟩ := h
        obtain ⟨i1, i2⟩ := ihr pr h1
        obtain ⟨q1, q2⟩ := retraceDel_ptr h2 (P := p) ⟨rfl, pl, i1⟩
        refine ⟨q1, q2.subperm.trans ?_⟩
        simp only [addrs_node]
        exact (List.subperm_append_left _).mpr ((List.subperm_cons _).mpr i2)
      · split at h
        · obtain ⟨q1, q2⟩ := retraceDel_ptr h (P := p) (ParentsOK_setParent p pr)
          refine ⟨q1, q2.subperm.trans ?_⟩
          simp only [addrs_setParent, addrs_node, addrs, List.nil_append]
          exact List.Subperm.cons_self
        · obtain ⟨q1, q2⟩ := retraceDel_ptr h (P := p) (ParentsOK_setParent p pl)
          refine ⟨q1, q2.subperm.trans ?_⟩
          simp only [addrs_setParent]
          conv_rhs => rw [addrs_node]
          exact (List.sublist_append_left _ _).subperm
        · split at h
          · simp at h
          · rw [Option.bind_eq_some] at h
            obtain ⟨r1, h1, h2⟩ := h
            obtain ⟨i1, i2⟩ := ihr pr h1
            obtain ⟨q1, q2⟩ := retraceDel_ptr h2 (P := p) ⟨rfl, pl, i1⟩
            refine ⟨q1, q2.subperm.trans ?_⟩
            simp only [addrs_node]
            exact (List.subperm_append_left _).mpr ((List.subperm_cons _).mpr i2)

end Pointers

end AVLTree

namespace AVLTree

section Copy

variable {K V : Type}

theorem CopyTree_node (a : Nat) (h : Int) (v : V) (k : K) (p : Option Nat) (l r : Tree K V)
    (P : Option Nat) (f : Nat) :
    CopyTree (.node a h v k p l r) P f =
      (.node f 0 v k P (CopyTree l (some f) (f + 1)).1
        (CopyTree r (some f) (CopyTree l (some f) (f + 1)).2).1,
        (CopyTree r (some f) (CopyTree l (some f) (f + 1)).2).2) := rfl

theorem CopyTree_next (t : Tree K V) (P : Option Nat) (f : Nat) :
    (CopyTree t P f).2 = f + RecursiveSize t := by
  induction t generalizing P f with
  | null => rfl
  | node a h v k p l r ihl ihr =>
    rw [CopyTree_node]
    simp only [ihr, ihl, RecursiveSize]
    omega

theorem CopyTree_toList (t : Tree K V) (P : Option Nat) (f : Nat) :
    toList (CopyTree t P f).1 = toList t := by
  induction t generalizing P f with
  | null => rfl
  | node a h v k p l r ihl ihr =>
    rw [CopyTree_node]
    simp only [toList, ihl, ihr]

theorem CopyTree_SameShape (t : Tree K V) (P : Option Nat) (f : Nat) :
    SameShape t (CopyTree t P f).1 := by
  induction t generalizing P f with
  | null => trivial
  | node a h v k p l r ihl ihr =>
    rw [CopyTree_node]
    exact ⟨rfl, rfl, ihl _ _, ihr _ _⟩

theorem CopyTree_ParentsOK (t : Tree K V) (P : Option Nat) (f : Nat) :
    ParentsOK P (CopyTree t P f).1 := by
  induction t generalizing P f with
  | null => trivial
  | node a h v k p l r ihl ihr =>
    rw [CopyTree_node]
    exact ⟨rfl, ihl _ _, ihr _ _⟩

theorem CopyTree_HeightsNonneg (t : Tree K V) (P : Option Nat) (f : Nat) :
    HeightsNonneg (CopyTree t P f).1 := by
  induction t generalizing P f with
  | null => trivial
  | node a h v k p l r ihl ihr =>
    rw [CopyTree_node]
    exact ⟨le_refl _, ihl _ _, ihr _ _⟩

theorem CopyTree_addrs_range (t : Tree K V) (P : Option Nat) (f : Nat) :
    ∀ x ∈ addrs (CopyTree t P f).1, f ≤ x ∧ x < f + RecursiveSize t := by
  induction t generalizing P f with
  | null => intro x hx; simp [CopyTree, addrs] at hx
  | node a h v k p l r ihl ihr =>
    rw [CopyTree_node]
    intro x hx
    simp only [addrs_node, List.mem_append, List.mem_cons] at hx
    simp only [RecursiveSize]
    rcases hx with hx | rfl | hx
    · have := ihl _ _ x hx
      omega
    · omega
    · have := ihr _ _ x hx
      rw [CopyTree_next] at this
      omega

theorem CopyTree_addrs_nodup (t : Tree K V) (P : Option Nat) (f : Nat) :
    (addrs (CopyTree t P f).1).Nodup := by
  induction t generalizing P f with
  | null => simp [CopyTree, addrs]
  | node a h v k p l r ihl ihr =>
    rw [CopyTree_node]
    simp only [addrs_node]
    rw [List.nodup_append]
    refine ⟨ihl _ _, ?_, ?_⟩
    · rw [List.nodup_cons]
      refine ⟨?_, ihr _ _⟩
      intro hx
      have := CopyTree_addrs_range r (some f) _ f hx
      rw [CopyTree_next] at this
      omega
    · intro x hx hy
      have h1 := CopyTree_addrs_range l (some f) _ x hx
      rcases List.mem_cons.mp hy with rfl | hy
      · omega
      · have h2 := CopyTree_addrs_range r (some f) _ x hy
        rw [CopyTree_next] at h2
        omega

/-- Every node of a clone made by `CopyTree` stores height `0`. -/
theorem CopyTree_heights (t : Tree K V) (P : Option Nat) (f : Nat) :
    ∀ x ∈ nodes (CopyTree t P f).1, GetHeightNum x = 0 := by
  induction t generalizing P f with
  | null => intro x hx; simp [CopyTree, nodes] at hx
  | node a h v k p l r ihl ihr =>
    rw [CopyTree_node]
    intro x hx
    simp only [nodes, List.mem_append, List.mem_cons] at hx
    rcases hx with hx | rfl | hx
    · exact ihl _ _ x hx
    · rfl
    · exact ihr _ _ x hx

end Copy

end AVLTree

namespace AVLTree

section Iteration

variable {K V : Type}

theorem nodes_node (a : Nat) (h : Int) (v : V) (k : K) (p : Option Nat) (l r : Tree K V) :
    nodes (.node a h v k p l r) = nodes l ++ .node a h v k p l r :: nodes r := rfl

theorem mem_addrs_of_mem_nodes {a : Nat} {h : Int} {v : V} {k : K} {p : Option Nat}
    {l r t : Tree K V} (hm : Tree.node a h v k p l r ∈ nodes t) : a ∈ addrs t := by
  induction t with
  | null => simp [nodes] at hm
  | node b hb vb kb pb lb rb ihl ihr =>
    simp only [nodes_node, List.mem_append, List.mem_cons] at hm
    simp only [addrs_node, List.mem_append, List.mem_cons]
    rcases hm with hm | hm | hm
    · exact Or.inl (ihl hm)
    · injection hm with e
      exact Or.inr (Or.inl e)
    · exact Or.inr (Or.inr (ihr hm))

theorem nodeAt_of_not_mem {a : Nat} {t : Tree K V} (hm : a ∉ addrs t) : nodeAt a t = .null := by
  induction t with
  | null => rfl
  | node b hb vb kb pb lb rb ihl ihr =>
    simp only [addrs_node, List.mem_append, List.mem_cons, not_or] at hm
    obtain ⟨h1, h2, h3⟩ := hm
    simp only [nodeAt, if_neg (Ne.symm h2), ihl h1, ihr h3]

/-- With pairwise different addresses, following the address of a node of the tree leads
to that node. -/
theorem nodeAt_of_mem {a : Nat} {h : Int} {v : V} {k : K} {p : Option Nat}
    {l r t : Tree K V} (hd : (addrs t).Nodup) (hm : Tree.node a h v k p l r ∈ nodes t) :
    nodeAt a t = .node a h v k p l r := by
  induction t with
  | null => simp [nodes] at hm
  | node b hb vb kb pb lb rb ihl ihr =>
    simp only [addrs_node] at hd
    rw [List.nodup_append] at hd
    obtain ⟨d1, d2, d3⟩ := hd
    rw [List.nodup_cons] at d2
    simp only [nodes_node, List.mem_append, List.mem_cons] at hm
    rcases hm with hm | hm | hm
    · have ma := mem_addrs_of_mem_nodes hm
      have ne : b ≠ a := fun e => d3 ma (by simp [e])
      simp only [nodeAt, if_neg ne, ihl d1 hm]
    · rw [← hm]
      injection hm with e
      simp only [nodeAt, e, if_true]
    · have ma := mem_addrs_of_mem_nodes hm
      have ne : b ≠ a := fun e => d2.1 (e ▸ ma)
      have nl : a ∉ addrs lb := fun m => d3 m (by simp [ma])
      simp only [nodeAt, if_neg ne, nodeAt_of_not_mem nl, ihr d2.2 hm]

theorem climbWhileRight_mono (root : Tree K V) {f : Nat} {prev c : Tree K V} {a : Option Nat}
    (h : climbWhileRight root f prev a = some c) {g : Nat} (hg : f ≤ g) :
    climbWhileRight root g prev a = some c := by
  induction f generalizing prev a g with
  | zero => simp [climbWhileRight] at h
  | succ f ih =>
    obtain ⟨g, rfl⟩ : ∃ g1, g = g1 + 1 := ⟨g - 1, by omega⟩
    cases a with
    | none => simpa [climbWhileRight] using h
    | some a =>
      simp only [climbWhileRight] at h ⊢
      split at h
      · simp at h
      · split at h
        · rename_i e1
          rw [if_pos e1]
          exact ih h (by omega)
        · rename_i e1
          rw [if_neg e1]
          exact h

theorem NextNode_mono (root : Tree K V) {f g : Nat} {x y : Tree K V}
    (h : NextNode root f x y) (hg : f ≤ g) : NextNode root g x y := by
  unfold NextNode at h ⊢
  split
  · simp at h
  · simpa using h
  · simp only at h
    exact climbWhileRight_mono root h hg

theorem GetMinNode_node_node (a : Nat) (h : Int) (v : V) (k : K) (p : Option Nat)
    (la : Nat) (lh : Int) (lv : V) (lk : K) (lp : Option Nat) (ll lr r : Tree K V) :
    GetMinNode (.node a h v k p (.node la lh lv lk lp ll lr) r) =
      GetMinNode (.node la lh lv lk lp ll lr) := by
  rw [GetMinNode]
  intro hc; cases hc

theorem GetMinNode_head {t : Tree K V} (ht : t.isNull = false) :
    ∃ rest, nodes t = GetMinNode t :: rest := by
  induction t with
  | null => simp [Tree.isNull] at ht
  | node a h v k p l r ihl _ =>
    cases l with
    | null => exact ⟨nodes r, rfl⟩
    | node la lh lv lk lp ll lr =>
      obtain ⟨rest, e⟩ := ihl rfl
      refine ⟨rest ++ Tree.node a h v k p (Tree.node la lh lv lk lp ll lr) r :: nodes r, ?_⟩
      rw [nodes_node, e, GetMinNode_node_node]
      rfl

/-- In-order succession inside a subtree `s` of `root`: consecutive nodes of `s` are linked
by `operator++`, and the last node of `s` is linked to `c`, the node the climbing loop
reaches when it leaves `s`. -/
theorem chain_subtree (root : Tree K V) (s : Tree K V) :
    ∀ (P : Option Nat) (f : Nat) (c : Tree K V),
      (∀ a h v k p l r, Tree.node a h v k p l r ∈ nodes s →
        nodeAt a root = .node a h v k p l r) →
      ParentsOK P s → (addrs s).Nodup → climbWhileRight root f s P = some c →
      List.Chain' (NextNode root (f + RecursiveSize s)) (nodes s ++ [c]) := by
  induction s with
  | null => intro P f c _ _ _ _; simp [nodes]
  | node a h v k p l r ihl ihr =>
    intro P f c hlook hpar hnd hexit
    obtain ⟨e, pl, pr⟩ := hpar
    subst e
    have hs := hlook a h v k p l r (by simp [nodes_node])
    simp only [addrs_node] at hnd
    rw [List.nodup_append] at hnd
    obtain ⟨d1, d2, d3⟩ := hnd
    rw [List.nodup_cons] at d2
    have hlookl : ∀ a1 h1 v1 k1 p1 l1 r1, Tree.node a1 h1 v1 k1 p1 l1 r1 ∈ nodes l →
        nodeAt a1 root = .node a1 h1 v1 k1 p1 l1 r1 :=
      fun a1 h1 v1 k1 p1 l1 r1 m => hlook a1 h1 v1 k1 p1 l1 r1 (by simp [nodes_node, m])
    have hlookr : ∀ a1 h1 v1 k1 p1 l1 r1, Tree.node a1 h1 v1 k1 p1 l1 r1 ∈ nodes r →
        nodeAt a1 root = .node a1 h1 v1 k1 p1 l1 r1 :=
      fun a1 h1 v1 k1 p1 l1 r1 m => hlook a1 h1 v1 k1 p1 l1 r1 (by simp [nodes_node, m])
    rw [nodes_node, List.append_assoc, List.cons_append, List.chain'_split]
    constructor
    · cases l with
      | null => simp [nodes]
      | node la lh lv lk lp ll lr =>
        have hne : (Tree.node la lh lv lk lp ll lr).ptrEq r = false := by
          cases r with
          | null => rfl
          | node ra rh rv rk rp rl rr =>
            simp only [Tree.ptrEq, beq_eq_false_iff_ne]
            intro e
            exact d3 (a := la) (by simp [addrs_node]) (by simp [addrs_node, e])
        have hex : climbWhileRight root 1 (Tree.node la lh lv lk lp ll lr) (some a) =
            some (Tree.node a h v k p (Tree.node la lh lv lk lp ll lr) r) := by
          simp only [climbWhileRight, hs, hne]
          simp
        have := ihl (some a) 1 _ hlookl pl d1 hex
        exact this.imp fun x y hxy => NextNode_mono root hxy (by simp only [RecursiveSize]; omega)
    · cases r with
      | null =>
        simp only [nodes, List.nil_append, List.chain'_cons, List.chain'_singleton, and_true]
        simp only [NextNode]
        exact climbWhileRight_mono root hexit (by omega)
      | node ra rh rv rk rp rl rr =>
        have hex : climbWhileRight root (f + 1) (Tree.node ra rh rv rk rp rl rr) (some a) =
            some c := by
          simp only [climbWhileRight, hs, Tree.ptrEq, beq_self_eq_true, if_true]
          exact hexit
        have := ihr (some a) (f + 1) c hlookr pr d2.2 hex
        obtain ⟨rest, er⟩ := GetMinNode_head (t := Tree.node ra rh rv rk rp rl rr) rfl
        rw [er] at this ⊢
        rw [List.cons_append, List.chain'_cons]
        refine ⟨rfl, ?_⟩
        exact this.imp fun x y hxy => NextNode_mono root hxy (by simp only [RecursiveSize]; omega)

end Iteration

end AVLTree

namespace AVLTree

section Forward

variable {K V : Type}

theorem isNull_of_mem_nodes {x t : Tree K V} (h : x ∈ nodes t) : x.isNull = false := by
  induction t with
  | null => simp [nodes] at h
  | node a hh v k p l r ihl ihr =>
    simp only [nodes_node, List.mem_append, List.mem_cons] at h
    rcases h with h | h | h
    · exact ihl h
    · subst h; rfl
    · exact ihr h

theorem length_nodes (t : Tree K V) : (nodes t).length = RecursiveSize t := by
  induction t with
  | null => rfl
  | node a hh v k p l r ihl ihr =>
    simp only [nodes_node, List.length_append, List.length_cons, ihl, ihr, RecursiveSize]
    omega

theorem keys_eq_filterMap (t : Tree K V) : (nodes t).filterMap rootKey = keys t := by
  induction t with
  | null => rfl
  | node a hh v k p l r ihl ihr =>
    simp only [nodes_node, List.filterMap_append, List.filterMap_cons, rootKey, ihl, ihr, keys]

theorem addrs_eq_filterMap (t : Tree K V) : (nodes t).filterMap rootAddr = addrs t := by
  induction t with
  | null => rfl
  | node a hh v k p l r ihl ihr =>
    simp only [nodes_node, List.filterMap_append, List.filterMap_cons, rootAddr, ihl, ihr,
      addrs]

/-- In a tree with reciprocal parent links and pairwise different addresses, `operator++`
links every node to its in-order successor and the last node to null. -/
theorem chain_root {root : Tree K V} (hp : ParentsOK none root) (hd : (addrs root).Nodup) :
    List.Chain' (NextNode root (RecursiveSize root + 1)) (nodes root ++ [.null]) := by
  have := chain_subtree root root none 1 .null
    (fun a h v k p l r m => nodeAt_of_mem hd m) hp hd
    (by cases root <;> rfl)
  rwa [Nat.add_comm] at this

theorem incr_of_NextNode {root x y : Tree K V} (q : Tree K V)
    (h : NextNode root (RecursiveSize root + 1) x y) :
    Iterator.incr root ⟨x, q⟩ = some ⟨y, q⟩ := by
  unfold NextNode at h
  split at h
  · exact absurd h id
  · subst h
    rfl
  · simp only [Iterator.incr, h, Option.map_some']

theorem end_it_node (root : Tree K V) : (end_ root).it_node = .null := by
  cases root <;> rfl

theorem eq_end_iff (root : Tree K V) (it : Iterator K V) :
    it.eq (end_ root) = it.it_node.isNull := by
  unfold Iterator.eq
  rw [end_it_node]
  cases it.it_node <;> rfl

/-- A forward loop started on the first node of an `operator++` chain that ends in null
visits exactly the nodes of the chain. -/
theorem forward_of_chain (root : Tree K V) (q : Tree K V) :
    ∀ (xs : List (Tree K V)) (x : Tree K V),
      List.Chain' (NextNode root (RecursiveSize root + 1)) (x :: xs ++ [.null]) →
      (∀ y ∈ x :: xs, y.isNull = false) →
      forward root ((x :: xs).length + 1) ⟨x, q⟩ = some (x :: xs) := by
  intro xs
  induction xs with
  | nil =>
    intro x hc hn
    have hc1 : NextNode root (RecursiveSize root + 1) x .null := by
      simpa using hc
    have hx : x.isNull = false := hn x (by simp)
    have hnull : (Tree.null : Tree K V).isNull = true := rfl
    simp [forward, eq_end_iff, hx, incr_of_NextNode q hc1, hnull]
  | cons y ys ih =>
    intro x hc hn
    rw [List.cons_append, List.cons_append, List.chain'_cons] at hc
    have hy := ih y (by simpa using hc.2) (fun z hz => hn z (List.mem_cons_of_mem _ hz))
    rw [List.length_cons, forward, eq_end_iff, hn x (by simp)]
    simp only [Bool.false_eq_true, if_false, incr_of_NextNode q hc.1, Option.some_bind, hy,
      Option.map_some']

/-- The forward loop from `begin()` visits the nodes of the tree in in-order. -/
theorem forward_begin {root : Tree K V} (hp : ParentsOK none root) (hd : (addrs root).Nodup) :
    forward root (RecursiveSize root + 1) (begin root) = some (nodes root) := by
  cases hr : root with
  | null =>
    have hnull : (Tree.null : Tree K V).isNull = true := rfl
    simp [forward, begin, GetMinNode, eq_end_iff, hnull, nodes, RecursiveSize]
  | node a h v k p l r =>
    rw [← hr]
    have hnn : root.isNull = false := by rw [hr]; rfl
    obtain ⟨rest, e⟩ := GetMinNode_head hnn
    have hc := chain_root hp hd
    rw [e] at hc
    have := forward_of_chain root .null rest (GetMinNode root) hc
      (fun y hy => isNull_of_mem_nodes (t := root) (by rw [e]; exact hy))
    rw [← e, length_nodes] at this
    exact this

end Forward

end AVLTree

namespace AVLTree

section WellFormed

variable {K V : Type} [LinearOrder K]

theorem nodup_of_subperm {l1 l2 : List Nat} (h : l1.Subperm l2) (hd : l2.Nodup) : l1.Nodup := by
  obtain ⟨l, hp, hs⟩ := h
  exact hp.nodup_iff.mp (hs.nodup hd)

theorem TreeOK_mono {n m : Nat} {t : Tree K V} (h : TreeOK n t) (hnm : n ≤ m) : TreeOK m t :=
  ⟨h.1, h.2.1, h.2.2.1, h.2.2.2.1, fun a ha => lt_of_lt_of_le (h.2.2.2.2 a ha) hnm⟩

theorem TreeOK_null (n : Nat) : TreeOK n (.null : Tree K V) :=
  ⟨trivial, trivial, trivial, List.nodup_nil, fun a ha => by simp [addrs] at ha⟩

theorem insert_ptr {t t1 : Tree K V} {key : K} {value : V} {fresh : Nat} {it : Iterator K V}
    {b : Bool} (h : insert t key value fresh = some (t1, it, b)) (hp : ParentsOK none t) :
    ParentsOK none t1 ∧ (addrs t1).Perm (if b then fresh :: addrs t else addrs t) := by
  cases t with
  | null =>
    simp only [insert, Option.some.injEq, Prod.mk.injEq] at h
    obtain ⟨rfl, _, rfl⟩ := h
    exact ⟨⟨rfl, trivial, trivial⟩, by simp [newNode, addrs]⟩
  | node a hh v k p l r =>
    simp only [insert, Option.map_eq_some', Prod.mk.injEq] at h
    obtain ⟨res, h1, rfl, _, rfl⟩ := h
    exact RecursiveInsertion_ptr hp h1

theorem erase_ptr {t t1 : Tree K V} {pos : Iterator K V} (h : erase t pos = some t1)
    (hp : ParentsOK none t) : ParentsOK none t1 ∧ (addrs t1).Subperm (addrs t) := by
  unfold erase at h
  split at h
  · simp only [Option.some.injEq] at h
    subst h
    exact ⟨trivial, List.Subperm.refl _⟩
  · simp only [Option.some.injEq] at h
    subst h
    exact ⟨hp, List.Subperm.refl _⟩
  · exact RecursiveDeleting_ptr hp h

/-- On a well-formed tree `insert` returns, and the tree stays well formed. -/
theorem insert_TreeOK {n : Nat} {t : Tree K V} (key : K) (value : V) (h : TreeOK n t) :
    ∃ t1 b, insert t key value n = some (t1, Search t1 key, b) ∧ TreeOK (n + 1) t1 ∧
      (b = true ↔ key ∉ keys t) ∧ (∀ x, x ∈ keys t1 ↔ x = key ∨ x ∈ keys t) := by
  obtain ⟨hn, hb, hp, hd, hlt⟩ := h
  obtain ⟨t1, b, e, hn1, hb1, _, c1, c2, c3⟩ := insert_spec t key value n hn hb
  obtain ⟨p1, p2⟩ := insert_ptr e hp
  refine ⟨t1, b, e, ⟨hn1, hb1, p1, ?_, ?_⟩, c1, insert_keys c2 c3⟩
  · rw [p2.nodup_iff]
    cases b
    · exact hd
    · simp only [if_true, List.nodup_cons]
      exact ⟨fun m => lt_irrefl _ (hlt n m), hd⟩
  · intro a ha
    have := p2.subset ha
    cases b
    · exact Nat.lt_succ_of_lt (hlt a this)
    · simp only [if_true, List.mem_cons] at this
      rcases this with rfl | this
      · exact Nat.lt_succ_self _
      · exact Nat.lt_succ_of_lt (hlt a this)

/-- On a well-formed tree `erase` returns, and the tree stays well formed. -/
theorem erase_TreeOK {n : Nat} {t : Tree K V} (pos : Iterator K V) (h : TreeOK n t) :
    ∃ t1, erase t pos = some t1 ∧ TreeOK n t1 ∧ (pos.it_node = .null → t1 = t) ∧
      (∀ a hh v k p l r, pos.it_node = .node a hh v k p l r →
        toList t1 = (toList t).filter (fun x => decide (x.1 ≠ k))) := by
  obtain ⟨hn, hb, hp, hd, hlt⟩ := h
  obtain ⟨t1, e, hn1, hb1, c1, c2⟩ := erase_spec t pos hn hb
  obtain ⟨p1, p2⟩ := erase_ptr e hp
  exact ⟨t1, e, ⟨hn1, hb1, p1, nodup_of_subperm p2 hd, fun a ha => hlt a (p2.subset ha)⟩,
    c1, c2⟩

/-- The clone made by `CopyTree` of a tree in BST order is well formed. -/
theorem CopyTree_TreeOK {t : Tree K V} (n : Nat) (hb : BST t) :
    TreeOK (CopyTree t none n).2 (CopyTree t none n).1 := by
  refine ⟨CopyTree_HeightsNonneg t none n, BST_of_toList_eq (CopyTree_toList t none n) hb,
    CopyTree_ParentsOK t none n, CopyTree_addrs_nodup t none n, ?_⟩
  intro a ha
  rw [CopyTree_next]
  exact (CopyTree_addrs_range t none n a ha).2

omit [LinearOrder K] in
theorem CopyTree_fresh_le (t : Tree K V) (P : Option Nat) (n : Nat) : n ≤ (CopyTree t P n).2 := by
  rw [CopyTree_next]
  exact Nat.le_add_right _ _

end WellFormed

end AVLTree

namespace AVLTree

section Merge

variable {K V : Type} [LinearOrder K]

theorem mem_keys_filter {t t1 : Tree K V} {k : K}
    (h : toList t1 = (toList t).filter (fun x => decide (x.1 ≠ k))) (x : K) :
    x ∈ keys t1 ↔ x ∈ keys t ∧ x ≠ k := by
  rw [keys_eq_map, keys_eq_map, h]
  simp only [List.mem_map, List.mem_filter, decide_eq_true_eq]
  constructor
  · rintro ⟨y, ⟨hy, hne⟩, rfl⟩
    exact ⟨⟨y, hy, rfl⟩, hne⟩
  · rintro ⟨⟨y, hy, rfl⟩, hne⟩
    exact ⟨y, ⟨hy, hne⟩, rfl⟩

omit [LinearOrder K] in
theorem chain_head_step {tree : Tree K V} {x : Tree K V} {xs : List (Tree K V)}
    (hc : List.Chain' (NextNode tree (RecursiveSize tree + 1)) (x :: xs ++ [.null]))
    (q : Tree K V) :
    Iterator.incr tree ⟨x, q⟩ = some ⟨xs.headD .null, q⟩ ∧
      List.Chain' (NextNode tree (RecursiveSize tree + 1)) (xs ++ [.null]) := by
  cases xs with
  | nil =>
    simp only [List.cons_append, List.nil_append, List.chain'_cons, List.chain'_singleton,
      and_true] at hc
    exact ⟨incr_of_NextNode q hc, by simp⟩
  | cons y ys =>
    rw [List.cons_append, List.cons_append, List.chain'_cons] at hc
    exact ⟨incr_of_NextNode q hc.1, by simpa using hc.2⟩

variable [Inhabited V]

/-- The loop of `merge` over an `operator++` chain `ys` of the snapshot: it returns, both
trees stay in BST order, `*this` gains the keys of the chain and `other` loses those of them
that `*this` did not hold. -/
theorem mergeLoop_spec (tree q : Tree K V) :
    ∀ (ys : List (Tree K V)) (this other : Tree K V) (n : Nat),
      List.Chain' (NextNode tree (RecursiveSize tree + 1)) (ys ++ [.null]) →
      (∀ y ∈ ys, y.isNull = false) → (ys.filterMap rootKey).Nodup →
      HeightsNonneg this → BST this → HeightsNonneg other → BST other →
      ∃ this1 other1 n1, mergeLoop tree (ys.length + 1) ⟨ys.headD .null, q⟩ this other n =
          some (this1, other1, n1) ∧
        HeightsNonneg this1 ∧ BST this1 ∧ HeightsNonneg other1 ∧ BST other1 ∧
        (∀ x, x ∈ keys this1 ↔ x ∈ keys this ∨ x ∈ ys.filterMap rootKey) ∧
        (∀ x, x ∈ keys other1 ↔ x ∈ keys other ∧ (x ∈ ys.filterMap rootKey → x ∈ keys this)) := by
  intro ys
  induction ys with
  | nil =>
    intro this other n _ _ _ h1 h2 h3 h4
    have hnull : (Tree.null : Tree K V).isNull = true := rfl
    refine ⟨this, other, n, ?_, h1, h2, h3, h4, by simp, by simp⟩
    simp [mergeLoop, eq_end_iff, hnull]
  | cons y ys ih =>
    intro this other n hc hnn hnd h1 h2 h3 h4
    have hy := hnn y (by simp)
    cases y with
    | null => simp [Tree.isNull] at hy
    | node a h v k p l r =>
      simp only [List.filterMap_cons, rootKey, List.nodup_cons] at hnd
      obtain ⟨st, hc1⟩ := chain_head_step hc q
      obtain ⟨this1, b, e, hn1, hb1, _, c1, c2, c3⟩ := insert_spec this k (default : V) n h1 h2
      have kin : ∀ x, x ∈ keys this1 ↔ x = k ∨ x ∈ keys this := insert_keys c2 c3
      have hfound := Search_found hb1 ((kin k).mpr (Or.inl rfl))
      obtain ⟨other1, e2, hn2, hb2, ko⟩ : ∃ other1,
          (if b then erase other (Search this1 k) else some other) = some other1 ∧
          HeightsNonneg other1 ∧ BST other1 ∧
          (∀ x, x ∈ keys other1 ↔ x ∈ keys other ∧ (x = k → b = false)) := by
        cases b with
        | false => exact ⟨other, rfl, h3, h4, by simp⟩
        | true =>
          obtain ⟨o1, e1, q1, q2, _, q4⟩ := erase_spec other (Search this1 k) h3 h4
          obtain ⟨_, a1, hh1, v1, p1, l1, r1, e3⟩ := hfound
          refine ⟨o1, e1, q1, q2, ?_⟩
          intro x
          rw [mem_keys_filter (q4 a1 hh1 v1 k p1 l1 r1 e3) x]
          simp
      obtain ⟨this2, other2, n2, e3, r1, r2, r3, r4, r5, r6⟩ :=
        ih this1 other1 (n + 1) hc1 (fun z hz => hnn z (List.mem_cons_of_mem _ hz)) hnd.2
          hn1 hb1 hn2 hb2
      refine ⟨this2, other2, n2, ?_, r1, r2, r3, r4, ?_, ?_⟩
      · rw [List.length_cons, mergeLoop, eq_end_iff]
        simp only [Tree.isNull, Bool.false_eq_true, if_false, Iterator.deref, e,
          Option.some_bind, e2, st, List.headD_cons]
        exact e3
      · intro x
        rw [r5, kin]
        simp only [List.filterMap_cons, rootKey, List.mem_cons]
        tauto
      · intro x
        rw [r6, ko, kin]
        simp only [List.filterMap_cons, rootKey, List.mem_cons]
        by_cases hx : x = k
        · subst hx
          have : (b = false) ↔ x ∈ keys this := by
            cases b
            · simpa using c1
            · simpa using c1
          simp [hnd.1, this]
        · simp [hx]

end Merge

end AVLTree

namespace AVLTree

section MergeOK

variable {K V : Type} [LinearOrder K]

omit [LinearOrder K] in
theorem GetMinNode_headD (t : Tree K V) : GetMinNode t = (nodes t).headD .null := by
  cases ht : t with
  | null => rfl
  | node a h v k p l r =>
    obtain ⟨rest, e⟩ := GetMinNode_head (t := Tree.node a h v k p l r) rfl
    rw [e]
    rfl

theorem nodup_keys_of_BST {t : Tree K V} (hb : BST t) : (keys t).Nodup := by
  rw [BST_iff_pairwise] at hb
  exact hb.imp ne_of_lt

theorem insert_PtrOK {t t1 : Tree K V} {key : K} {value : V} {n : Nat} {it : Iterator K V}
    {b : Bool} (h : insert t key value n = some (t1, it, b))
    (hp : ParentsOK none t ∧ (addrs t).Nodup ∧ ∀ a ∈ addrs t, a < n) :
    ParentsOK none t1 ∧ (addrs t1).Nodup ∧ ∀ a ∈ addrs t1, a < n + 1 := by
  obtain ⟨hp, hd, hlt⟩ := hp
  obtain ⟨p1, p2⟩ := insert_ptr h hp
  refine ⟨p1, ?_, ?_⟩
  · rw [p2.nodup_iff]
    cases b
    · exact hd
    · simp only [if_true, List.nodup_cons]
      exact ⟨fun m => lt_irrefl _ (hlt n m), hd⟩
  · intro a ha
    have := p2.subset ha
    cases b
    · exact Nat.lt_succ_of_lt (hlt a this)
    · simp only [if_true, List.mem_cons] at this
      rcases this with rfl | this
      · exact Nat.lt_succ_self _
      · exact Nat.lt_succ_of_lt (hlt a this)

theorem erase_PtrOK {t t1 : Tree K V} {pos : Iterator K V} {n : Nat}
    (h : erase t pos = some t1)
    (hp : ParentsOK none t ∧ (addrs t).Nodup ∧ ∀ a ∈ addrs t, a < n) :
    ParentsOK none t1 ∧ (addrs t1).Nodup ∧ ∀ a ∈ addrs t1, a < n := by
  obtain ⟨hp, hd, hlt⟩ := hp
  obtain ⟨p1, p2⟩ := erase_ptr h hp
  exact ⟨p1, nodup_of_subperm p2 hd, fun a ha => hlt a (p2.subset ha)⟩

omit [LinearOrder K] in
theorem PtrOK_mono {t : Tree K V} {n m : Nat}
    (hp : ParentsOK none t ∧ (addrs t).Nodup ∧ ∀ a ∈ addrs t, a < n) (hnm : n ≤ m) :
    ParentsOK none t ∧ (addrs t).Nodup ∧ ∀ a ∈ addrs t, a < m :=
  ⟨hp.1, hp.2.1, fun a ha => lt_of_lt_of_le (hp.2.2 a ha) hnm⟩

variable [Inhabited V]

/-- Whatever the loop of `merge` returns keeps the links of both trees well formed. -/
theorem mergeLoop_ptr (tree : Tree K V) :
    ∀ (fuel : Nat) (it : Iterator K V) (this other : Tree K V) (n : Nat)
      (res : Tree K V × Tree K V × Nat),
      mergeLoop tree fuel it this other n = some res →
      (ParentsOK none this ∧ (addrs this).Nodup ∧ ∀ a ∈ addrs this, a < n) →
      (ParentsOK none other ∧ (addrs other).Nodup ∧ ∀ a ∈ addrs other, a < n) →
      n ≤ res.2.2 ∧
        (ParentsOK none res.1 ∧ (addrs res.1).Nodup ∧ ∀ a ∈ addrs res.1, a < res.2.2) ∧
        (ParentsOK none res.2.1 ∧ (addrs res.2.1).Nodup ∧ ∀ a ∈ addrs res.2.1, a < res.2.2) := by
  intro fuel
  induction fuel with
  | zero => intro it this other n res h; simp [mergeLoop] at h
  | succ fuel ih =>
    intro it this other n res h h1 h2
    rw [mergeLoop] at h
    split at h
    · simp only [Option.some.injEq] at h
      subst h
      exact ⟨le_refl _, h1, h2⟩
    · split at h
      · simp at h
      · rw [Option.bind_eq_some] at h
        obtain ⟨r1, e1, h⟩ := h
        rw [Option.bind_eq_some] at h
        obtain ⟨o1, e2, h⟩ := h
        rw [Option.bind_eq_some] at h
        obtain ⟨it1, _, h⟩ := h
        obtain ⟨t1, it0, b⟩ := r1
        have q1 := insert_PtrOK e1 h1
        have q2 : ParentsOK none o1 ∧ (addrs o1).Nodup ∧ ∀ a ∈ addrs o1, a < n + 1 := by
          simp only at e2
          split at e2
          · exact PtrOK_mono (erase_PtrOK e2 h2) (Nat.le_succ _)
          · simp only [Option.some.injEq] at e2
            subst e2
            exact PtrOK_mono h2 (Nat.le_succ _)
        obtain ⟨g1, g2, g3⟩ := ih it1 t1 o1 (n + 1) res h q1 q2
        exact ⟨by omega, g2, g3⟩

/-- `merge` on two trees in BST order: it returns, `*this` holds the union of the keys and
`other` keeps the keys that were in both. -/
theorem merge_spec (A B : Tree K V) (n : Nat) (h1 : HeightsNonneg A) (h2 : BST A)
    (h3 : HeightsNonneg B) (h4 : BST B) :
    ∃ A1 B1 n1, merge A B n = some (A1, B1, n1) ∧
      HeightsNonneg A1 ∧ BST A1 ∧ HeightsNonneg B1 ∧ BST B1 ∧
      (∀ x, x ∈ keys A1 ↔ x ∈ keys A ∨ x ∈ keys B) ∧
      (∀ x, x ∈ keys B1 ↔ x ∈ keys B ∧ x ∈ keys A) := by
  have hk : keys (CopyTree B none n).1 = keys B := keys_of_toList_eq (CopyTree_toList B none n)
  have hc := chain_root (CopyTree_ParentsOK B none n) (CopyTree_addrs_nodup B none n)
  have hnd : ((nodes (CopyTree B none n).1).filterMap rootKey).Nodup := by
    rw [keys_eq_filterMap, hk]
    exact nodup_keys_of_BST h4
  obtain ⟨A1, B1, n1, e, r1, r2, r3, r4, r5, r6⟩ :=
    mergeLoop_spec (CopyTree B none n).1 .null (nodes (CopyTree B none n).1) A B
      (CopyTree B none n).2 hc (fun y hy => isNull_of_mem_nodes hy) hnd h1 h2 h3 h4
  rw [keys_eq_filterMap, hk] at r5 r6
  refine ⟨A1, B1, n1, ?_, r1, r2, r3, r4, r5, ?_⟩
  · unfold merge
    simp only [begin, GetMinNode_headD]
    rw [length_nodes] at e
    exact e
  · intro x
    rw [r6]
    tauto

/-- `merge` keeps well-formed trees well formed. -/
theorem merge_TreeOK {A B : Tree K V} {n : Nat} (hA : TreeOK n A) (hB : TreeOK n B) :
    ∃ A1 B1 n1, merge A B n = some (A1, B1, n1) ∧ n ≤ n1 ∧ TreeOK n1 A1 ∧ TreeOK n1 B1 := by
  obtain ⟨A1, B1, n1, e, r1, r2, r3, r4, _, _⟩ := merge_spec A B n hA.1 hA.2.1 hB.1 hB.2.1
  have hle := CopyTree_fresh_le B none n
  have e1 := e
  unfold merge at e1
  obtain ⟨g1, g2, g3⟩ := mergeLoop_ptr _ _ _ _ _ _ _ e1 (PtrOK_mono hA.2.2 hle)
    (PtrOK_mono hB.2.2 hle)
  exact ⟨A1, B1, n1, e, le_trans hle g1, ⟨r1, r2, g2⟩, ⟨r3, r4, g3⟩⟩

/-- The loop of `merge` when `other` is `*this`: it returns and the tree stays in BST
order. -/
theorem mergeSelfLoop_spec (tree q : Tree K V) :
    ∀ (ys : List (Tree K V)) (this : Tree K V) (n : Nat),
      List.Chain' (NextNode tree (RecursiveSize tree + 1)) (ys ++ [.null]) →
      (∀ y ∈ ys, y.isNull = false) → HeightsNonneg this → BST this →
      ∃ this1 n1, mergeSelfLoop tree (ys.length + 1) ⟨ys.headD .null, q⟩ this n =
          some (this1, n1) ∧ HeightsNonneg this1 ∧ BST this1 := by
  intro ys
  induction ys with
  | nil =>
    intro this n _ _ h1 h2
    have hnull : (Tree.null : Tree K V).isNull = true := rfl
    exact ⟨this, n, by simp [mergeSelfLoop, eq_end_iff, hnull], h1, h2⟩
  | cons y ys ih =>
    intro this n hc hnn h1 h2
    have hy := hnn y (by simp)
    cases y with
    | null => simp [Tree.isNull] at hy
    | node a h v k p l r =>
      obtain ⟨st, hc1⟩ := chain_head_step hc q
      obtain ⟨this1, b, e, hn1, hb1, _, _, _, _⟩ := insert_spec this k (default : V) n h1 h2
      obtain ⟨this2, e2, hn2, hb2⟩ : ∃ this2,
          (if b then erase this1 (Search this1 k) else some this1) = some this2 ∧
          HeightsNonneg this2 ∧ BST this2 := by
        cases b with
        | false => exact ⟨this1, rfl, hn1, hb1⟩
        | true =>
          obtain ⟨o1, e1, q1, q2, _, _⟩ := erase_spec this1 (Search this1 k) hn1 hb1
          exact ⟨o1, e1, q1, q2⟩
      obtain ⟨this3, n3, e3, r1, r2⟩ :=
        ih this2 (n + 1) hc1 (fun z hz => hnn z (List.mem_cons_of_mem _ hz)) hn2 hb2
      refine ⟨this3, n3, ?_, r1, r2⟩
      rw [List.length_cons, mergeSelfLoop, eq_end_iff]
      simp only [Tree.isNull, Bool.false_eq_true, if_false, Iterator.deref, e,
        Option.some_bind, e2, st, List.headD_cons]
      exact e3

theorem mergeSelfLoop_ptr (tree : Tree K V) :
    ∀ (fuel : Nat) (it : Iterator K V) (this : Tree K V) (n : Nat) (res : Tree K V × Nat),
      mergeSelfLoop tree fuel it this n = some res →
      (ParentsOK none this ∧ (addrs this).Nodup ∧ ∀ a ∈ addrs this, a < n) →
      n ≤ res.2 ∧
        (ParentsOK none res.1 ∧ (addrs res.1).Nodup ∧ ∀ a ∈ addrs res.1, a < res.2) := by
  intro fuel
  induction fuel with
  | zero => intro it this n res h; simp [mergeSelfLoop] at h
  | succ fuel ih =>
    intro it this n res h h1
    rw [mergeSelfLoop] at h
    split at h
    · simp only [Option.some.injEq] at h
      subst h
      exact ⟨le_refl _, h1⟩
    · split at h
      · simp at h
      · rw [Option.bind_eq_some] at h
        obtain ⟨r1, e1, h⟩ := h
        rw [Option.bind_eq_some] at h
        obtain ⟨o1, e2, h⟩ := h
        rw [Option.bind_eq_some] at h
        obtain ⟨it1, _, h⟩ := h
        obtain ⟨t1, it0, b⟩ := r1
        have q1 := insert_PtrOK e1 h1
        have q2 : ParentsOK none o1 ∧ (addrs o1).Nodup ∧ ∀ a ∈ addrs o1, a < n + 1 := by
          simp only at e2
          split at e2
          · exact erase_PtrOK e2 q1
          · simp only [Option.some.injEq] at e2
            subst e2
            exact q1
        obtain ⟨g1, g2⟩ := ih it1 o1 (n + 1) res h q2
        exact ⟨by omega, g2⟩

/-- `merge` of a tree into itself keeps it well formed. -/
theorem mergeSelf_TreeOK {A : Tree K V} {n : Nat} (hA : TreeOK n A) :
    ∃ A1 n1, mergeSelf A n = some (A1, n1) ∧ n ≤ n1 ∧ TreeOK n1 A1 := by
  have hc := chain_root (CopyTree_ParentsOK A none n) (CopyTree_addrs_nodup A none n)
  obtain ⟨A1, n1, e, r1, r2⟩ :=
    mergeSelfLoop_spec (CopyTree A none n).1 .null (nodes (CopyTree A none n).1) A
      (CopyTree A none n).2 hc (fun y hy => isNull_of_mem_nodes hy) hA.1 hA.2.1
  have hle := CopyTree_fresh_le A none n
  have e1 : mergeSelf A n = some (A1, n1) := by
    unfold mergeSelf
    simp only [begin, GetMinNode_headD]
    rw [length_nodes] at e
    exact e
  have e2 := e1
  unfold mergeSelf at e2
  obtain ⟨g1, g2⟩ := mergeSelfLoop_ptr _ _ _ _ _ _ e2 (PtrOK_mono hA.2.2 hle)
  exact ⟨A1, n1, e1, le_trans hle g1, ⟨r1, r2, g2⟩⟩

end MergeOK

end AVLTree

namespace AVLTree

section Worlds

variable {K V : Type} [LinearOrder K] [Inhabited V]

omit [Inhabited V] in
theorem WorldOK_step {w : World K V} {ts : List (Tree K V)} {n : Nat} (hw : WorldOK w)
    (hn : w.fresh ≤ n) (h : ∀ t ∈ ts, t ∈ w.trees ∨ TreeOK n t) : WorldOK ⟨ts, n⟩ := by
  intro t ht
  rcases h t ht with h1 | h1
  · exact TreeOK_mono (hw t h1) hn
  · exact h1

omit [LinearOrder K] [Inhabited V] in
theorem mem_set_cases {l : List (Tree K V)} {i : Nat} {x t : Tree K V} (h : t ∈ l.set i x) :
    t ∈ l ∨ t = x :=
  List.mem_or_eq_of_mem_set h

omit [LinearOrder K] [Inhabited V] in
theorem mem_of_getElem {l : List (Tree K V)} {i : Nat} {t : Tree K V} (h : l[i]? = some t) :
    t ∈ l := by
  rw [List.getElem?_eq_some_iff] at h
  obtain ⟨hi, rfl⟩ := h
  exact List.getElem_mem hi

/-- Every call of the interface returns on a well-formed world and keeps it well formed. -/
theorem Op.run_WorldOK (op : Op K V) {w : World K V} (hw : WorldOK w) :
    ∃ w1, op.run w = some w1 ∧ WorldOK w1 := by
  cases op with
  | construct =>
    refine ⟨_, rfl, WorldOK_step hw (le_refl _) ?_⟩
    intro t ht
    rcases List.mem_append.mp ht with h | h
    · exact Or.inl h
    · simp only [List.mem_singleton] at h
      subst h
      exact Or.inr (TreeOK_null _)
  | copyConstruct src =>
    simp only [Op.run]
    cases hs : w.trees[src]? with
    | none => exact ⟨w, rfl, hw⟩
    | some t =>
      refine ⟨_, rfl, WorldOK_step hw (CopyTree_fresh_le t none w.fresh) ?_⟩
      intro x hx
      rcases List.mem_append.mp hx with h | h
      · exact Or.inl h
      · simp only [List.mem_singleton] at h
        subst h
        exact Or.inr (CopyTree_TreeOK _ (hw t (mem_of_getElem hs)).2.1)
  | moveConstruct src =>
    simp only [Op.run]
    cases hs : w.trees[src]? with
    | none => exact ⟨w, rfl, hw⟩
    | some t =>
      refine ⟨_, rfl, WorldOK_step hw (le_refl _) ?_⟩
      intro x hx
      rcases List.mem_append.mp hx with h | h
      · rcases mem_set_cases h with h | h
        · exact Or.inl h
        · subst h; exact Or.inr (TreeOK_null _)
      · simp only [List.mem_singleton] at h
        subst h
        exact Or.inl (mem_of_getElem hs)
  | moveAssign dst src =>
    simp only [Op.run]
    cases hd : w.trees[dst]? with
    | none => exact ⟨w, rfl, hw⟩
    | some d =>
      cases hs : w.trees[src]? with
      | none => exact ⟨w, rfl, hw⟩
      | some t =>
        simp only
        by_cases e : dst = src
        · rw [if_pos e]; exact ⟨w, rfl, hw⟩
        · rw [if_neg e]
          refine ⟨_, rfl, WorldOK_step hw (le_refl _) ?_⟩
          intro x hx
          rcases mem_set_cases hx with h | h
          · rcases mem_set_cases h with h | h
            · exact Or.inl h
            · subst h; exact Or.inl (mem_of_getElem hs)
          · subst h; exact Or.inr (TreeOK_null _)
  | copyAssign dst src =>
    simp only [Op.run]
    cases hd : w.trees[dst]? with
    | none => exact ⟨w, rfl, hw⟩
    | some d =>
      cases hs : w.trees[src]? with
      | none => exact ⟨w, rfl, hw⟩
      | some t =>
        simp only
        by_cases e : dst = src
        · rw [if_pos e]; exact ⟨w, rfl, hw⟩
        · rw [if_neg e]
          refine ⟨_, rfl, WorldOK_step hw (CopyTree_fresh_le t none w.fresh) ?_⟩
          intro x hx
          rcases mem_set_cases hx with h | h
          · exact Or.inl h
          · subst h
            exact Or.inr (CopyTree_TreeOK _ (hw t (mem_of_getElem hs)).2.1)
  | clean i =>
    refine ⟨_, rfl, WorldOK_step hw (le_refl _) ?_⟩
    intro x hx
    rcases mem_set_cases hx with h | h
    · exact Or.inl h
    · subst h; exact Or.inr (TreeOK_null _)
  | insert i key value =>
    simp only [Op.run]
    cases hs : w.trees[i]? with
    | none => exact ⟨w, rfl, hw⟩
    | some t =>
      obtain ⟨t1, b, e, ok, _, _⟩ := insert_TreeOK key value (hw t (mem_of_getElem hs))
      simp only [e, Option.map_some']
      refine ⟨_, rfl, WorldOK_step hw (Nat.le_succ _) ?_⟩
      intro x hx
      rcases mem_set_cases hx with h | h
      · exact Or.inl h
      · subst h; exact Or.inr ok
  | erase i pos =>
    simp only [Op.run]
    cases hs : w.trees[i]? with
    | none => exact ⟨w, rfl, hw⟩
    | some t =>
      obtain ⟨t1, e, ok, _, _⟩ := erase_TreeOK pos (hw t (mem_of_getElem hs))
      simp only [e, Option.map_some']
      refine ⟨_, rfl, WorldOK_step hw (le_refl _) ?_⟩
      intro x hx
      rcases mem_set_cases hx with h | h
      · exact Or.inl h
      · subst h; exact Or.inr ok
  | swap i j =>
    simp only [Op.run]
    cases hi : w.trees[i]? with
    | none => exact ⟨w, rfl, hw⟩
    | some a =>
      cases hj : w.trees[j]? with
      | none => exact ⟨w, rfl, hw⟩
      | some b =>
        refine ⟨_, rfl, WorldOK_step hw (le_refl _) ?_⟩
        intro x hx
        rcases mem_set_cases hx with h | h
        · rcases mem_set_cases h with h | h
          · exact Or.inl h
          · subst h; exact Or.inl (mem_of_getElem hj)
        · subst h; exact Or.inl (mem_of_getElem hi)
  | merge i j =>
    simp only [Op.run]
    cases hi : w.trees[i]? with
    | none => exact ⟨w, rfl, hw⟩
    | some a =>
      cases hj : w.trees[j]? with
      | none => exact ⟨w, rfl, hw⟩
      | some b =>
        simp only
        by_cases e : i = j
        · rw [if_pos e]
          obtain ⟨a1, n1, e1, hle, ok⟩ := mergeSelf_TreeOK (hw a (mem_of_getElem hi))
          simp only [e1, Option.map_some']
          refine ⟨_, rfl, WorldOK_step hw hle ?_⟩
          intro x hx
          rcases mem_set_cases hx with h | h
          · exact Or.inl h
          · subst h; exact Or.inr ok
        · rw [if_neg e]
          obtain ⟨a1, b1, n1, e1, hle, oka, okb⟩ :=
            merge_TreeOK (hw a (mem_of_getElem hi)) (hw b (mem_of_getElem hj))
          simp only [e1, Option.map_some']
          refine ⟨_, rfl, WorldOK_step hw hle ?_⟩
          intro x hx
          rcases mem_set_cases hx with h | h
          · rcases mem_set_cases h with h | h
            · exact Or.inl h
            · subst h; exact Or.inr oka
          · subst h; exact Or.inr okb

/-- Every program returns on a well-formed world and ends in a well-formed world. -/
theorem runOps_WorldOK (ops : List (Op K V)) {w : World K V} (hw : WorldOK w) :
    ∃ w1, runOps ops w = some w1 ∧ WorldOK w1 := by
  induction ops generalizing w with
  | nil => exact ⟨w, rfl, hw⟩
  | cons op ops ih =>
    obtain ⟨w1, e1, h1⟩ := Op.run_WorldOK op hw
    obtain ⟨w2, e2, h2⟩ := ih h1
    exact ⟨w2, by simp [runOps, e1, e2], h2⟩

omit [Inhabited V] in
theorem WorldOK_init (n : Nat) : WorldOK (⟨[], n⟩ : World K V) := by
  intro t ht
  simp at ht

end Worlds

end AVLTree

namespace AVLTree

section Calls

variable {K V : Type} [LinearOrder K]

theorem insert_StoredAVL (t : Tree K V) (key : K) (value : V) (n : Nat) (ha : StoredAVL t) :
    ∃ t1 b, insert t key value n = some (t1, Search t1 key, b) ∧ StoredAVL t1 := by
  cases t with
  | null =>
    refine ⟨newNode n key value, true, ?_, ?_⟩
    · simp [insert, Search, newNode, RecursiveSearch]
    · exact ⟨rfl, by simp [GetHeightNum], by simp [GetHeightNum], trivial, trivial⟩
  | node a h v k p l r =>
    obtain ⟨t1, b, e, a1, _⟩ := RecursiveInsertion_StoredAVL n key value ha rfl
    exact ⟨t1, b, by simp [insert, e], a1⟩

theorem erase_StoredAVL (t : Tree K V) (pos : Iterator K V) (ha : StoredAVL t) :
    ∃ t1, erase t pos = some t1 ∧ StoredAVL t1 := by
  cases t with
  | null => exact ⟨.null, by simp [erase], trivial⟩
  | node a h v k p l r =>
    cases hp : pos.it_node with
    | null => exact ⟨_, by simp [erase, hp], ha⟩
    | node a1 h1 v1 k1 p1 l1 r1 =>
      obtain ⟨t1, e, a1, _⟩ := RecursiveDeleting_StoredAVL k1 ha
      exact ⟨t1, by simp [erase, hp, e], a1⟩

/-- From a tree that is AVL and in BST order, every sequence of `insert` and `erase` calls
returns and ends in such a tree. -/
theorem runCalls_inv (cs : List (Call K V)) (st : Tree K V × Nat)
    (ha : StoredAVL st.1) (hb : BST st.1) :
    ∃ st1, runCalls cs st = some st1 ∧ StoredAVL st1.1 ∧ BST st1.1 := by
  induction cs generalizing st with
  | nil => exact ⟨st, rfl, ha, hb⟩
  | cons c cs ih =>
    cases c with
    | insert key value =>
      obtain ⟨t1, b, e, a1⟩ := insert_StoredAVL st.1 key value st.2 ha
      obtain ⟨t2, b2, e2, _, hb2, _⟩ := insert_spec st.1 key value st.2 (StoredAVL_nonneg ha) hb
      rw [e] at e2
      simp only [Option.some.injEq, Prod.mk.injEq] at e2
      obtain ⟨rfl, _, _⟩ := e2
      obtain ⟨st2, e3, h3⟩ := ih (t1, st.2 + 1) a1 hb2
      exact ⟨st2, by simp [runCalls, Call.run, e, e3], h3⟩
    | erase pos =>
      obtain ⟨t1, e, a1⟩ := erase_StoredAVL st.1 pos ha
      obtain ⟨t2, e2, _, hb2, _⟩ := erase_spec st.1 pos (StoredAVL_nonneg ha) hb
      rw [e] at e2
      simp only [Option.some.injEq] at e2
      subst e2
      obtain ⟨st2, e3, h3⟩ := ih (t1, st.2) a1 hb2
      exact ⟨st2, by simp [runCalls, Call.run, e, e3], h3⟩

omit [LinearOrder K] in
theorem mem_toList_of_mem_nodes {a : Nat} {h : Int} {v : V} {k : K} {p : Option Nat}
    {l r t : Tree K V} (hm : Tree.node a h v k p l r ∈ nodes t) : (k, v) ∈ toList t := by
  induction t with
  | null => simp [nodes] at hm
  | node b hb vb kb pb lb rb ihl ihr =>
    simp only [nodes_node, List.mem_append, List.mem_cons] at hm
    simp only [toList, List.mem_append, List.mem_cons]
    rcases hm with hm | hm | hm
    · exact Or.inl (ihl hm)
    · injection hm with _ _ e3 e4
      exact Or.inr (Or.inl (by rw [e3, e4]))
    · exact Or.inr (Or.inr (ihr hm))

/-- In a tree in BST order a key is stored with one value only. -/
theorem value_unique {t : Tree K V} (hb : BST t) {k : K} {v1 v2 : V}
    (h1 : (k, v1) ∈ toList t) (h2 : (k, v2) ∈ toList t) : v1 = v2 := by
  rw [BST_iff_pairwise, keys_eq_map, List.pairwise_map] at hb
  by_contra hne
  have hs : Symmetric (fun x y : K × V => x.1 ≠ y.1) := fun x y h => Ne.symm h
  have hp : (toList t).Pairwise (fun x y : K × V => x.1 ≠ y.1) :=
    hb.imp (fun h => ne_of_lt h)
  have := hp.forall hs h1 h2 (fun e => hne (by injection e))
  exact this rfl

/-- After `erase` of a stored key the key sequence is the old one without that key. -/
theorem keys_erase_eq {t t1 : Tree K V} {k : K} (hb : BST t)
    (h : toList t1 = (toList t).filter (fun x => decide (x.1 ≠ k))) :
    keys t1 = (keys t).erase k := by
  rw [(nodup_keys_of_BST hb).erase_eq_filter, keys_eq_map, keys_eq_map, h, List.filter_map]
  congr 1
  apply List.filter_congr
  intro x _
  simp only [bne, Function.comp, ne_eq, decide_not]
  rfl

end Calls

end AVLTree

namespace AVLTree

section Backward

variable {K V : Type}

theorem climbWhileLeft_mono (root : Tree K V) {f : Nat} {prev c : Tree K V} {a : Option Nat}
    (h : climbWhileLeft root f prev a = some c) {g : Nat} (hg : f ≤ g) :
    climbWhileLeft root g prev a = some c := by
  induction f generalizing prev a g with
  | zero => simp [climbWhileLeft] at h
  | succ f ih =>
    obtain ⟨g, rfl⟩ : ∃ g1, g = g1 + 1 := ⟨g - 1, by omega⟩
    cases a with
    | none => simpa [climbWhileLeft] using h
    | some a =>
      simp only [climbWhileLeft] at h ⊢
      split at h
      · simp at h
      · split at h
        · rename_i e1
          rw [if_pos e1]
          exact ih h (by omega)
        · rename_i e1
          rw [if_neg e1]
          exact h

theorem PrevNode_mono (root : Tree K V) {f g : Nat} {x y : Tree K V}
    (h : PrevNode root f x y) (hg : f ≤ g) : PrevNode root g x y := by
  unfold PrevNode at h ⊢
  split
  · simp at h
  · simpa using h
  · simp only at h
    exact climbWhileLeft_mono root h hg

theorem GetMaxNode_node_node (a : Nat) (h : Int) (v : V) (k : K) (p : Option Nat)
    (ra : Nat) (rh : Int) (rv : V) (rk : K) (rp : Option Nat) (l rl rr : Tree K V) :
    GetMaxNode (.node a h v k p l (.node ra rh rv rk rp rl rr)) =
      GetMaxNode (.node ra rh rv rk rp rl rr) := by
  rw [GetMaxNode]
  intro hc; cases hc

/-- On a node, `GetMaxNode` returns the last node of the in-order sequence. -/
theorem GetMaxNode_last {t : Tree K V} (ht : t.isNull = false) :
    ∃ init, nodes t = init ++ [GetMaxNode t] := by
  induction t with
  | null => simp [Tree.isNull] at ht
  | node a h v k p l r _ ihr =>
    cases r with
    | null => exact ⟨nodes l, rfl⟩
    | node ra rh rv rk rp rl rr =>
      obtain ⟨init, e⟩ := ihr rfl
      refine ⟨nodes l ++ Tree.node a h v k p l (Tree.node ra rh rv rk rp rl rr) :: init, ?_⟩
      rw [nodes_node, e, GetMaxNode_node_node]
      simp

/-- In-order predecession inside a subtree `s` of `root`: consecutive nodes of `s` are linked
by `operator--`, and the first node of `s` is linked to `c`, the node the climbing loop
reaches when it leaves `s`. -/
theorem chain_subtree_back (root : Tree K V) (s : Tree K V) :
    ∀ (P : Option Nat) (f : Nat) (c : Tree K V),
      (∀ a h v k p l r, Tree.node a h v k p l r ∈ nodes s →
        nodeAt a root = .node a h v k p l r) →
      ParentsOK P s → (addrs s).Nodup → climbWhileLeft root f s P = some c →
      List.Chain' (fun x y => PrevNode root (f + RecursiveSize s) y x) (c :: nodes s) := by
  induction s with
  | null => intro P f c _ _ _ _; simp [nodes]
  | node a h v k p l r ihl ihr =>
    intro P f c hlook hpar hnd hexit
    obtain ⟨e, pl, pr⟩ := hpar
    subst e
    have hs := hlook a h v k p l r (by simp [nodes_node])
    simp only [addrs_node] at hnd
    rw [List.nodup_append] at hnd
    obtain ⟨d1, d2, d3⟩ := hnd
    rw [List.nodup_cons] at d2
    have hlookl : ∀ a1 h1 v1 k1 p1 l1 r1, Tree.node a1 h1 v1 k1 p1 l1 r1 ∈ nodes l →
        nodeAt a1 root = .node a1 h1 v1 k1 p1 l1 r1 :=
      fun a1 h1 v1 k1 p1 l1 r1 m => hlook a1 h1 v1 k1 p1 l1 r1 (by simp [nodes_node, m])
    have hlookr : ∀ a1 h1 v1 k1 p1 l1 r1, Tree.node a1 h1 v1 k1 p1 l1 r1 ∈ nodes r →
        nodeAt a1 root = .node a1 h1 v1 k1 p1 l1 r1 :=
      fun a1 h1 v1 k1 p1 l1 r1 m => hlook a1 h1 v1 k1 p1 l1 r1 (by simp [nodes_node, m])
    rw [nodes_node, ← List.cons_append, List.chain'_split]
    constructor
    · cases l with
      | null =>
        show List.Chain' _ [c, Tree.node a h v k p Tree.null r]
        rw [List.chain'_pair]
        show climbWhileLeft root _ (Tree.node a h v k p Tree.null r) p = some c
        exact climbWhileLeft_mono root hexit (Nat.le_add_right _ _)
      | node la lh lv lk lp ll lr =>
        have hex : climbWhileLeft root (f + 1) (Tree.node la lh lv lk lp ll lr) (some a) =
            some c := by
          simp only [climbWhileLeft, hs, Tree.ptrEq, beq_self_eq_true, if_true]
          exact hexit
        have := ihl (some a) (f + 1) c hlookl pl d1 hex
        obtain ⟨init, er⟩ := GetMaxNode_last (t := Tree.node la lh lv lk lp ll lr) rfl
        rw [er] at this ⊢
        have hl : c :: (init ++ [GetMaxNode (Tree.node la lh lv lk lp ll lr)]) ++
            [Tree.node a h v k p (Tree.node la lh lv lk lp ll lr) r] =
            (c :: init) ++ GetMaxNode (Tree.node la lh lv lk lp ll lr) ::
              [Tree.node a h v k p (Tree.node la lh lv lk lp ll lr) r] := by simp
        rw [hl, List.chain'_split]
        refine ⟨?_, ?_⟩
        · exact this.imp fun x y hxy =>
            PrevNode_mono root hxy (by simp only [RecursiveSize]; omega)
        · simp only [List.chain'_cons, List.chain'_singleton, and_true]
          rfl
    · cases r with
      | null => simp [nodes]
      | node ra rh rv rk rp rl rr =>
        have hne : (Tree.node ra rh rv rk rp rl rr).ptrEq l = false := by
          cases l with
          | null => rfl
          | node la lh lv lk lp ll lr =>
            simp only [Tree.ptrEq, beq_eq_false_iff_ne]
            intro e
            exact d3 (a := la) (by simp [addrs_node]) (by simp [addrs_node, e])
        have hex : climbWhileLeft root 1 (Tree.node ra rh rv rk rp rl rr) (some a) =
            some (Tree.node a h v k p l (Tree.node ra rh rv rk rp rl rr)) := by
          simp only [climbWhileLeft, hs, hne]
          simp
        have := ihr (some a) 1 _ hlookr pr d2.2 hex
        exact this.imp fun x y hxy => PrevNode_mono root hxy (by simp only [RecursiveSize]; omega)

/-- In a tree with reciprocal parent links and pairwise different addresses, `operator--`
links every node to its in-order predecessor and the first node to null. -/
theorem chain_root_back {root : Tree K V} (hp : ParentsOK none root)
    (hd : (addrs root).Nodup) :
    List.Chain' (fun x y => PrevNode root (RecursiveSize root + 1) y x)
      (.null :: nodes root) := by
  have := chain_subtree_back root root none 1 .null
    (fun a h v k p l r m => nodeAt_of_mem hd m) hp hd
    (by cases root <;> rfl)
  rwa [Nat.add_comm] at this

theorem decr_of_PrevNode {root x y : Tree K V} (q : Tree K V)
    (h : PrevNode root (RecursiveSize root + 1) x y) :
    Iterator.decr root ⟨x, q⟩ = some ⟨y, q⟩ := by
  unfold PrevNode at h
  split at h
  · exact absurd h id
  · subst h
    rfl
  · simp only [Iterator.decr, h, Option.map_some']

theorem ptrEq_self {x : Tree K V} : x.ptrEq x = true := by
  cases x <;> simp [Tree.ptrEq]

theorem chain_link {R : Tree K V → Tree K V → Prop} {l m : List (Tree K V)}
    {x y : Tree K V} (h : List.Chain' R (l ++ x :: y :: m)) : R x y := by
  rw [List.chain'_split, List.chain'_cons] at h
  exact h.2.1

theorem chain_link_cons {R : Tree K V → Tree K V → Prop} {l m : List (Tree K V)}
    {c x y : Tree K V} (h : List.Chain' R (c :: (l ++ x :: y :: m))) : R x y :=
  chain_link (l := c :: l) h

/-- Iterator symmetry on a tree with reciprocal parent links and pairwise different
addresses, for an iterator positioned at a node `x` of the tree. -/
theorem incr_decr_symm {t x : Tree K V} (q : Tree K V) (hp : ParentsOK none t)
    (hd : (addrs t).Nodup) (hx : x ∈ nodes t) :
    (∃ it1, Iterator.incr t ⟨x, q⟩ = some it1 ∧
      (it1.eq (end_ t) = false →
        ∃ it2, Iterator.decr t it1 = some it2 ∧ it2.eq ⟨x, q⟩ = true)) ∧
    ((Iterator.mk x q).eq (begin t) = false →
      ∃ it1, Iterator.decr t ⟨x, q⟩ = some it1 ∧
        ∃ it2, Iterator.incr t it1 = some it2 ∧ it2.eq ⟨x, q⟩ = true) := by
  have hn := chain_root hp hd
  have hb := chain_root_back hp hd
  obtain ⟨l1, l2, e⟩ := List.append_of_mem hx
  rw [e] at hn hb
  constructor
  · cases l2 with
    | nil =>
      simp only [List.append_assoc, List.cons_append, List.nil_append] at hn
      have h1 : NextNode t (RecursiveSize t + 1) x .null := chain_link (m := []) hn
      refine ⟨⟨.null, q⟩, incr_of_NextNode q h1, ?_⟩
      intro hne
      rw [eq_end_iff] at hne
      simp [Tree.isNull] at hne
    | cons y l2 =>
      simp only [List.append_assoc, List.cons_append] at hn
      have h1 : NextNode t (RecursiveSize t + 1) x y := chain_link hn
      have h2 : PrevNode t (RecursiveSize t + 1) y x :=
        chain_link_cons (R := fun a b => PrevNode t (RecursiveSize t + 1) b a) hb
      exact ⟨⟨y, q⟩, incr_of_NextNode q h1, fun _ => ⟨⟨x, q⟩, decr_of_PrevNode q h2, ptrEq_self⟩⟩
  · intro hne
    rcases List.eq_nil_or_concat l1 with rfl | ⟨l0, z, rfl⟩
    · exfalso
      have hnn : t.isNull = false := by
        cases t with
        | null => simp [nodes] at hx
        | node => rfl
      obtain ⟨rest, er⟩ := GetMinNode_head hnn
      rw [er] at e
      simp only [List.nil_append, List.cons.injEq] at e
      simp only [Iterator.eq, begin, e.1, ptrEq_self] at hne
      exact absurd hne (by simp)
    · simp only [List.concat_eq_append, List.append_assoc, List.cons_append, List.nil_append,
        List.singleton_append] at hn hb
      have h1 : PrevNode t (RecursiveSize t + 1) x z :=
        chain_link_cons (R := fun a b => PrevNode t (RecursiveSize t + 1) b a) hb
      have h2 : NextNode t (RecursiveSize t + 1) z x := chain_link hn
      exact ⟨⟨z, q⟩, decr_of_PrevNode q h1, ⟨x, q⟩, incr_of_NextNode q h2, ptrEq_self⟩

end Backward

end AVLTree

namespace AVLTree

section Bounds

variable {K V : Type}

theorem height_ge (t : Tree K V) : -1 ≤ height t := by
  cases t with
  | null => simp [height]
  | node a h v k p l r =>
    simp only [height]
    have := height_ge l
    omega

/-- A balanced tree of height `h` holds at least `fib (h + 3) - 1` nodes. -/
theorem fib_height_le_size {t : Tree K V} (hb : Balanced t) :
    Nat.fib (height t + 3).toNat ≤ RecursiveSize t + 1 := by
  induction t with
  | null => simp [height, RecursiveSize]
  | node a h v k p l r ihl ihr =>
    obtain ⟨hbal, bl, br⟩ := hb
    have il := ihl bl
    have ir := ihr br
    have gl := height_ge l
    have gr := height_ge r
    simp only [height, RecursiveSize]
    by_cases hle : height l ≤ height r
    · obtain ⟨n, hn⟩ : ∃ n : Nat, height r + 2 = n := ⟨(height r + 2).toNat, by omega⟩
      have e1 : (max (height l) (height r) + 1 + 3).toNat = n + 2 := by omega
      have e2 : (height r + 3).toNat = n + 1 := by omega
      have e3 : n ≤ (height l + 3).toNat := by omega
      rw [e1, Nat.fib_add_two]
      rw [e2] at ir
      have := Nat.fib_mono e3
      omega
    · obtain ⟨n, hn⟩ : ∃ n : Nat, height l + 2 = n := ⟨(height l + 2).toNat, by omega⟩
      have e1 : (max (height l) (height r) + 1 + 3).toNat = n + 2 := by omega
      have e2 : (height l + 3).toNat = n + 1 := by omega
      have e3 : n ≤ (height r + 3).toNat := by omega
      rw [e1, Nat.fib_add_two]
      rw [e2] at il
      have := Nat.fib_mono e3
      omega

/-- With no negative stored height, a node of stored balance `-2` has a left child, which
has a right child when its own stored balance is `1`; symmetrically for `2`. -/
theorem heavy_child_exists {n : Tree K V} (hn : HeightsNonneg n) :
    (GetBalanceNum n = -2 →
      ∃ a h v k p la lh lv lk lp ll lr r,
        n = .node a h v k p (.node la lh lv lk lp ll lr) r ∧
        (GetBalanceNum (.node la lh lv lk lp ll lr : Tree K V) = 1 → lr.isNull = false)) ∧
    (GetBalanceNum n = 2 →
      ∃ a h v k p l ra rh rv rk rp rl rr,
        n = .node a h v k p l (.node ra rh rv rk rp rl rr) ∧
        (GetBalanceNum (.node ra rh rv rk rp rl rr : Tree K V) = -1 → rl.isNull = false)) := by
  cases n with
  | null => simp [GetBalanceNum]
  | node a h v k p l r =>
    obtain ⟨_, hl, hr⟩ := hn
    have gl := GetHeightNum_ge hl
    have gr := GetHeightNum_ge hr
    constructor
    · intro b
      cases l with
      | null => simp only [GetBalanceNum_node, GetHeightNum_null] at b; omega
      | node la lh lv lk lp ll lr =>
        refine ⟨a, h, v, k, p, la, lh, lv, lk, lp, ll, lr, r, rfl, ?_⟩
        intro b2
        have gll := GetHeightNum_ge hl.2.1
        cases lr with
        | null => simp only [GetBalanceNum_node, GetHeightNum_null] at b2; omega
        | node => rfl
    · intro b
      cases r with
      | null => simp only [GetBalanceNum_node, GetHeightNum_null] at b; omega
      | node ra rh rv rk rp rl rr =>
        refine ⟨a, h, v, k, p, l, ra, rh, rv, rk, rp, rl, rr, rfl, ?_⟩
        intro b2
        have grr := GetHeightNum_ge hr.2.2
        cases rl with
        | null => simp only [GetBalanceNum_node, GetHeightNum_null] at b2; omega
        | node => rfl

variable [LinearOrder K]

/-- With no negative stored height `RecursiveInsertion` returns. -/
theorem RecursiveInsertion_total (fresh : Nat) (key : K) (value : V) {t : Tree K V}
    (hn : HeightsNonneg t) :
    ∃ t1 b, RecursiveInsertion fresh key value t = some (t1, b) ∧ HeightsNonneg t1 := by
  induction t with
  | null => exact ⟨.null, false, rfl, trivial⟩
  | node a h v k p l r ihl ihr =>
    obtain ⟨h0, hl, hr⟩ := hn
    unfold RecursiveInsertion
    by_cases g : k > key
    · rw [if_pos g]
      cases l with
      | null =>
        obtain ⟨n1, e, hn1, _, _⟩ := retrace_spec (a := a) (h := h) (v := v) (k := k) (p := p)
          true (l := newNodeP fresh key value (some a)) (r := r) ⟨le_refl _, trivial, trivial⟩ hr
        exact ⟨n1, true, e, hn1⟩
      | node la lh lv lk lp ll lr =>
        obtain ⟨l1, b, e, hl1⟩ := ihl hl
        obtain ⟨n1, e1, hn1, _, _⟩ := retrace_spec (a := a) (h := h) (v := v) (k := k)
          (p := p) b (l := l1) (r := r) hl1 hr
        exact ⟨n1, b, by simp only [e, Option.some_bind, e1], hn1⟩
    · rw [if_neg g]
      by_cases g2 : k < key
      · rw [if_pos g2]
        cases r with
        | null =>
          obtain ⟨n1, e, hn1, _, _⟩ := retrace_spec (a := a) (h := h) (v := v) (k := k)
            (p := p) true (l := l) (r := newNodeP fresh key value (some a)) hl
            ⟨le_refl _, trivial, trivial⟩
          exact ⟨n1, true, e, hn1⟩
        | node ra rh rv rk rp rl rr =>
          obtain ⟨r1, b, e, hr1⟩ := ihr hr
          obtain ⟨n1, e1, hn1, _, _⟩ := retrace_spec (a := a) (h := h) (v := v) (k := k)
            (p := p) b (l := l) (r := r1) hl hr1
          exact ⟨n1, b, by simp only [e, Option.some_bind, e1], hn1⟩
      · rw [if_neg g2]
        obtain ⟨n1, e1, hn1, _, _⟩ := retrace_spec (a := a) (h := h) (v := v) (k := k)
          (p := p) false (l := l) (r := r) hl hr
        exact ⟨n1, false, e1, hn1⟩

/-- With no negative stored height `RecursiveDeleting` returns. -/
theorem RecursiveDeleting_total {t : Tree K V} (key : K) (hn : HeightsNonneg t) :
    ∃ t1, RecursiveDeleting t key = some t1 ∧ HeightsNonneg t1 := by
  induction t generalizing key with
  | null => exact ⟨.null, rfl, trivial⟩
  | node a h v k p l r ihl ihr =>
    obtain ⟨h0, hl, hr⟩ := hn
    unfold RecursiveDeleting
    by_cases g : key < k
    · rw [if_pos g]
      obtain ⟨l1, e, hl1⟩ := ihl key hl
      obtain ⟨n1, e1, hn1, _⟩ := retraceDel_node_spec (a := a) (h := h) (v := v) (k := k)
        (p := p) hl1 hr
      exact ⟨n1, by simp only [e, Option.some_bind, e1], hn1⟩
    · rw [if_neg g]
      by_cases g2 : key > k
      · rw [if_pos g2]
        obtain ⟨r1, e, hr1⟩ := ihr key hr
        obtain ⟨n1, e1, hn1, _⟩ := retraceDel_node_spec (a := a) (h := h) (v := v) (k := k)
          (p := p) hl hr1
        exact ⟨n1, by simp only [e, Option.some_bind, e1], hn1⟩
      · rw [if_neg g2]
        cases l with
        | null =>
          obtain ⟨n1, e1, hn1, _⟩ := retraceDel_spec (t := setParent p r) (by simpa using hr)
          exact ⟨n1, e1, hn1⟩
        | node la lh lv lk lp ll lr =>
          cases r with
          | null =>
            obtain ⟨n1, e1, hn1, _⟩ := retraceDel_spec
              (t := setParent p (Tree.node la lh lv lk lp ll lr)) (by simpa using hl)
            exact ⟨n1, e1, hn1⟩
          | node ra rh rv rk rp rl rr =>
            obtain ⟨a1, h1, mv, mk, p1, r1, rest, em, _⟩ :=
              GetMinNode_spec (t := Tree.node ra rh rv rk rp rl rr) rfl
            obtain ⟨r2, e, hr2⟩ := ihr mk hr
            obtain ⟨n1, e1, hn1, _⟩ := retraceDel_node_spec (a := a) (h := h) (v := mv)
              (k := mk) (p := p) hl hr2
            exact ⟨n1, by simp only [em, e, Option.some_bind, e1], hn1⟩

end Bounds

end AVLTree

namespace AVLTree

section Records

variable {K V : Type}

/-- Dropping the record, `BalancingLog` is `Balancing`. -/
theorem BalancingLog_fst (n : Tree K V) : (BalancingLog n).map Prod.fst = Balancing n := by
  unfold BalancingLog Balancing
  by_cases b1 : GetBalanceNum n = -2
  · rw [if_pos b1, if_pos b1]
    cases n with
    | null => rfl
    | node a h v k p l r =>
      simp only
      by_cases b2 : GetBalanceNum l = 1
      · rw [if_pos b2, if_pos b2]
        cases LeftRotation l with
        | none => rfl
        | some l1 =>
          simp only [Option.some_bind]
          cases RightRotation (Tree.node a h v k p l1 r) <;> rfl
      · rw [if_neg b2, if_neg b2]
        cases RightRotation (Tree.node a h v k p l r) <;> rfl
  · rw [if_neg b1, if_neg b1]
    by_cases b3 : GetBalanceNum n = 2
    · rw [if_pos b3, if_pos b3]
      cases n with
      | null => rfl
      | node a h v k p l r =>
        simp only
        by_cases b4 : GetBalanceNum r = -1
        · rw [if_pos b4, if_pos b4]
          cases RightRotation r with
          | none => rfl
          | some r1 =>
            simp only [Option.some_bind]
            cases LeftRotation (Tree.node a h v k p l r1) <;> rfl
        · rw [if_neg b4, if_neg b4]
          cases LeftRotation (Tree.node a h v k p l r) <;> rfl
    · rw [if_neg b3, if_neg b3]
      rfl

theorem BalancingLog_eq_some {n n1 : Tree K V} {c : BalancingCall}
    (h : BalancingLog n = some (n1, c)) : Balancing n = some n1 := by
  rw [← BalancingLog_fst, h]
  rfl

theorem BalancingLog_of_Balancing {n n1 : Tree K V} (h : Balancing n = some n1) :
    ∃ c, BalancingLog n = some (n1, c) := by
  rw [← BalancingLog_fst] at h
  cases hb : BalancingLog n with
  | none => rw [hb] at h; simp at h
  | some res =>
    rw [hb] at h
    simp only [Option.map_some', Option.some.injEq] at h
    exact ⟨res.2, by rw [← h]⟩

/-- The record of a call of `Balancing`: the balance read, and rotations exactly when that
balance is `-2` or `2`. -/
theorem BalancingLog_record {n n1 : Tree K V} {c : BalancingCall}
    (h : BalancingLog n = some (n1, c)) :
    c.bal = GetBalanceNum n ∧ (c.rotations ≠ [] ↔ (c.bal = -2 ∨ c.bal = 2)) ∧
      (c.rotations = [] → n1 = n) := by
  unfold BalancingLog at h
  split at h
  · rename_i b
    split at h
    · simp at h
    · split at h
      · rw [Option.bind_eq_some] at h
        obtain ⟨l1, _, h⟩ := h
        rw [Option.map_eq_some'] at h
        obtain ⟨n2, _, h⟩ := h
        simp only [Prod.mk.injEq] at h
        obtain ⟨_, rfl⟩ := h
        simp [b]
      · rw [Option.map_eq_some'] at h
        obtain ⟨n2, _, h⟩ := h
        simp only [Prod.mk.injEq] at h
        obtain ⟨_, rfl⟩ := h
        simp [b]
  · rename_i b
    split at h
    · rename_i b2
      split at h
      · simp at h
      · split at h
        · rw [Option.bind_eq_some] at h
          obtain ⟨l1, _, h⟩ := h
          rw [Option.map_eq_some'] at h
          obtain ⟨n2, _, h⟩ := h
          simp only [Prod.mk.injEq] at h
          obtain ⟨_, rfl⟩ := h
          simp [b2]
        · rw [Option.map_eq_some'] at h
          obtain ⟨n2, _, h⟩ := h
          simp only [Prod.mk.injEq] at h
          obtain ⟨_, rfl⟩ := h
          simp [b2]
    · rename_i b2
      simp only [Option.some.injEq, Prod.mk.injEq] at h
      obtain ⟨rfl, rfl⟩ := h
      simp [b, b2]

theorem retraceLog_fst (n : Tree K V) (st : Bool) (below : List BalancingCall) :
    (retraceLog n st below).map (fun res => (res.1, res.2.1)) = retrace n st := by
  unfold retraceLog retrace
  rw [← BalancingLog_fst]
  cases BalancingLog (SetHeight n) <;> rfl

variable [LinearOrder K]

/-- Dropping the records, `RecursiveInsertionLog` is `RecursiveInsertion`. -/
theorem RecursiveInsertionLog_fst (fresh : Nat) (key : K) (value : V) (t : Tree K V) :
    (RecursiveInsertionLog fresh key value t).map (fun res => (res.1, res.2.1)) =
      RecursiveInsertion fresh key value t := by
  induction t with
  | null => rfl
  | node a h v k p l r ihl ihr =>
    unfold RecursiveInsertionLog RecursiveInsertion
    split
    · cases l with
      | null => exact retraceLog_fst _ _ _
      | node la lh lv lk lp ll lr =>
        simp only
        rw [← ihl]
        cases RecursiveInsertionLog fresh key value (Tree.node la lh lv lk lp ll lr) with
        | none => rfl
        | some res => exact retraceLog_fst _ _ _
    · split
      · cases r with
        | null => exact retraceLog_fst _ _ _
        | node ra rh rv rk rp rl rr =>
          simp only
          rw [← ihr]
          cases RecursiveInsertionLog fresh key value (Tree.node ra rh rv rk rp rl rr) with
          | none => rfl
          | some res => exact retraceLog_fst _ _ _
      · exact retraceLog_fst _ _ _

/-- Dropping the records, `insertLog` is `insert`. -/
theorem insertLog_fst (t : Tree K V) (key : K) (value : V) (fresh : Nat) :
    (insertLog t key value fresh).map (fun res => (res.1, res.2.1, res.2.2.1)) =
      insert t key value fresh := by
  cases t with
  | null => rfl
  | node a h v k p l r =>
    unfold insertLog insert
    simp only
    rw [← RecursiveInsertionLog_fst]
    cases RecursiveInsertionLog fresh key value (Tree.node a h v k p l r) <;> rfl

theorem insertLog_of_insert {t t1 : Tree K V} {key : K} {value : V} {fresh : Nat}
    {it : Iterator K V} {b : Bool} (h : insert t key value fresh = some (t1, it, b)) :
    ∃ tr, insertLog t key value fresh = some (t1, it, b, tr) := by
  rw [← insertLog_fst] at h
  cases hb : insertLog t key value fresh with
  | none => rw [hb] at h; simp at h
  | some res =>
    rw [hb] at h
    simp only [Option.map_some', Option.some.injEq, Prod.mk.injEq] at h
    obtain ⟨rfl, rfl, rfl⟩ := h
    exact ⟨res.2.2.2, rfl⟩

end Records

end AVLTree

namespace AVLTree

section OneSite

variable {K V : Type}

/-- After a rotation made by `Balancing` at a node whose heavy child does not have stored
balance `0`, the node has the stored height of that child. -/
theorem Balancing_height_restored {a : Nat} {h : Int} {v : V} {k : K} {p : Option Nat}
    {l r n1 : Tree K V} (hl : StoredAVL l) (hr : StoredAVL r)
    (e : Balancing (SetHeight (.node a h v k p l r)) = some n1) :
    (GetHeightNum r - GetHeightNum l = -2 → GetBalanceNum l ≠ 0 →
      GetHeightNum n1 = max (GetHeightNum l) (GetHeightNum r)) ∧
    (GetHeightNum r - GetHeightNum l = 2 → GetBalanceNum r ≠ 0 →
      GetHeightNum n1 = max (GetHeightNum l) (GetHeightNum r)) := by
  have gl := StoredAVL_ge hl
  have gr := StoredAVL_ge hr
  unfold Balancing at e
  by_cases b1 : GetHeightNum r - GetHeightNum l = -2
  · rw [if_pos (by simpa [SetHeight, GetBalanceNum] using b1)] at e
    refine ⟨fun _ hb => ?_, fun b3 => by omega⟩
    cases l with
    | null => simp only [GetHeightNum_null] at b1 gr; omega
    | node la lh lv lk lp ll lr =>
      obtain ⟨e1, e2, e3, all, alr⟩ := hl
      have gll := StoredAVL_ge all
      have glr := StoredAVL_ge alr
      simp only [SetHeight] at e
      by_cases b2 : GetBalanceNum (Tree.node la lh lv lk lp ll lr) = 1
      · rw [if_pos b2] at e
        cases lr with
        | null => simp only [GetBalanceNum_node, GetHeightNum_null] at b2; omega
        | node ca ch cv ck cp cl cr =>
          obtain ⟨f1, f2, f3, acl, acr⟩ := alr
          have gcl := StoredAVL_ge acl
          have gcr := StoredAVL_ge acr
          simp only [LeftRotation, Option.some_bind, RightRotation, SetHeight_node,
            Option.some.injEq] at e
          subst e
          simp only [GetBalanceNum_node, GetHeightNum_node, GetHeightNum_setParent] at *
          omega
      · rw [if_neg b2] at e
        simp only [RightRotation, SetHeight_node, Option.some.injEq] at e
        subst e
        simp only [GetBalanceNum_node, GetHeightNum_node, GetHeightNum_setParent] at *
        omega
  · rw [if_neg (by simpa [SetHeight, GetBalanceNum] using b1)] at e
    refine ⟨fun b3 => absurd b3 b1, fun b3 hb => ?_⟩
    rw [if_pos (by simpa [SetHeight, GetBalanceNum] using b3)] at e
    cases r with
    | null => simp only [GetHeightNum_null] at b3 gl; omega
    | node ra rh rv rk rp rl rr =>
      obtain ⟨e1, e2, e3, arl, arr⟩ := hr
      have grl := StoredAVL_ge arl
      have grr := StoredAVL_ge arr
      simp only [SetHeight] at e
      by_cases b4 : GetBalanceNum (Tree.node ra rh rv rk rp rl rr) = -1
      · rw [if_pos b4] at e
        cases rl with
        | null => simp only [GetBalanceNum_node, GetHeightNum_null] at b4; omega
        | node ca ch cv ck cp cl cr =>
          obtain ⟨f1, f2, f3, acl, acr⟩ := arl
          have gcl := StoredAVL_ge acl
          have gcr := StoredAVL_ge acr
          simp only [RightRotation, Option.some_bind, LeftRotation, SetHeight_node,
            Option.some.injEq] at e
          subst e
          simp only [GetBalanceNum_node, GetHeightNum_node, GetHeightNum_setParent] at *
          omega
      · rw [if_neg b4] at e
        simp only [LeftRotation, SetHeight_node, Option.some.injEq] at e
        subst e
        simp only [GetBalanceNum_node, GetHeightNum_node, GetHeightNum_setParent] at *
        omega

/-- The closing statements of `RecursiveInsertion` on a node with AVL children whose stored
heights are at most two apart: what is returned and what is recorded. -/
theorem retraceLog_StoredAVL {a : Nat} {h : Int} {v : V} {k : K} {p : Option Nat}
    {l r : Tree K V} (st : Bool) (below : List BalancingCall)
    (hl : StoredAVL l) (hr : StoredAVL r)
    (d1 : -2 ≤ GetHeightNum r - GetHeightNum l) (d2 : GetHeightNum r - GetHeightNum l ≤ 2) :
    ∃ n1 c, retraceLog (.node a h v k p l r) st below = some (n1, st, below ++ [c]) ∧
      StoredAVL n1 ∧ n1.isNull = false ∧
      c.bal = GetHeightNum r - GetHeightNum l ∧
      (c.rotations ≠ [] ↔ (c.bal = -2 ∨ c.bal = 2)) ∧
      (c.rotations = [] → GetHeightNum n1 = max (GetHeightNum l) (GetHeightNum r) + 1 ∧
        GetBalanceNum n1 = GetHeightNum r - GetHeightNum l) ∧
      (GetHeightNum r - GetHeightNum l = -2 → GetBalanceNum l ≠ 0 →
        GetHeightNum n1 = max (GetHeightNum l) (GetHeightNum r)) ∧
      (GetHeightNum r - GetHeightNum l = 2 → GetBalanceNum r ≠ 0 →
        GetHeightNum n1 = max (GetHeightNum l) (GetHeightNum r)) := by
  obtain ⟨n1, e, an1, _⟩ := Balancing_StoredAVL (a := a) (h := h) (v := v) (k := k) (p := p)
    hl hr d1 d2
  obtain ⟨c, ec⟩ := BalancingLog_of_Balancing e
  obtain ⟨c1, c2, c3⟩ := BalancingLog_record ec
  obtain ⟨r1, r2⟩ := Balancing_height_restored hl hr e
  have hbal : c.bal = GetHeightNum r - GetHeightNum l := by
    rw [c1]; rfl
  refine ⟨n1, c, ?_, an1, Balancing_isNull e rfl, hbal, c2, ?_, r1, r2⟩
  · simp [retraceLog, ec]
  · intro hc
    rw [c3 hc]
    exact ⟨rfl, rfl⟩

theorem filter_rotations_nil {tr : List BalancingCall} (h : ∀ c ∈ tr, c.rotations = []) :
    tr.filter (fun c => decide (c.rotations ≠ [])) = [] := by
  rw [List.filter_eq_nil_iff]
  intro c hc
  simp [h c hc]

theorem filter_rotations_append (below : List BalancingCall) (c : BalancingCall) :
    ((below ++ [c]).filter (fun c => decide (c.rotations ≠ []))).length =
      (below.filter (fun c => decide (c.rotations ≠ []))).length +
        (if c.rotations = [] then 0 else 1) := by
  rw [List.filter_append, List.length_append]
  congr 1
  by_cases hc : c.rotations = []
  · simp [hc]
  · simp [hc]

variable [LinearOrder K]

/-- Insertion into an AVL tree: the result is AVL, its height is the old one or one more,
a grown result is not evenly balanced and was reached without any rotation, and at most one
call of `Balancing` on the path makes rotations. -/
theorem RecursiveInsertionLog_StoredAVL (fresh : Nat) (key : K) (value : V) {t : Tree K V}
    (ha : StoredAVL t) (ht : t.isNull = false) :
    ∃ t1 b tr, RecursiveInsertionLog fresh key value t = some (t1, b, tr) ∧
      StoredAVL t1 ∧ t1.isNull = false ∧
      (GetHeightNum t1 = GetHeightNum t ∨
        (GetHeightNum t1 = GetHeightNum t + 1 ∧ GetBalanceNum t1 ≠ 0 ∧
          ∀ c ∈ tr, c.rotations = [])) ∧
      (tr.filter (fun c => decide (c.rotations ≠ []))).length ≤ 1 ∧
      (∀ c ∈ tr, (c.rotations ≠ [] ↔ (c.bal = -2 ∨ c.bal = 2))) := by
  induction t with
  | null => simp [Tree.isNull] at ht
  | node a h v k p l r ihl ihr =>
    obtain ⟨e1, e2, e3, al, ar⟩ := ha
    have gl := StoredAVL_ge al
    have gr := StoredAVL_ge ar
    unfold RecursiveInsertionLog
    by_cases g : k > key
    · rw [if_pos g]
      cases l with
      | null =>
        simp only
        have an : StoredAVL (newNodeP fresh key value (some a) : Tree K V) :=
          ⟨rfl, by simp [GetHeightNum], by simp [GetHeightNum], trivial, trivial⟩
        simp only [GetHeightNum_null, GetHeightNum_node] at e1 e2 e3 gl
        obtain ⟨n1, c, q1, q2, q3, q4, q5, q6, _, _⟩ := retraceLog_StoredAVL (a := a) (h := h)
          (v := v) (k := k) (p := p) true [] an ar
          (by simp only [newNodeP, GetHeightNum_node]; omega)
          (by simp only [newNodeP, GetHeightNum_node]; omega)
        simp only [newNodeP, GetHeightNum_node, List.nil_append] at q1 q4 q6
        have hc : c.rotations = [] := by
          by_contra hne
          have := q5.mp hne
          omega
        obtain ⟨s1, s2⟩ := q6 hc
        refine ⟨n1, true, [c], q1, q2, q3, ?_, ?_, ?_⟩
        · simp only [GetHeightNum_node]
          by_cases hg : GetHeightNum n1 = h
          · exact Or.inl hg
          · refine Or.inr ⟨by omega, by omega, ?_⟩
            intro c1 hc1
            simp only [List.mem_singleton] at hc1
            rw [hc1]; exact hc
        · simp [hc]
        · intro c1 hc1
          simp only [List.mem_singleton] at hc1
          rw [hc1]; exact q5
      | node la lh lv lk lp ll lr =>
        simp only
        obtain ⟨l1, b, below, e, al1, _, i1, i2, i3⟩ := ihl al rfl
        rw [e]
        simp only [Option.some_bind]
        have hd : GetHeightNum l1 = GetHeightNum (Tree.node la lh lv lk lp ll lr) ∨
            GetHeightNum l1 = GetHeightNum (Tree.node la lh lv lk lp ll lr) + 1 := by
          rcases i1 with i1 | i1
          · exact Or.inl i1
          · exact Or.inr i1.1
        obtain ⟨n1, c, q1, q2, q3, q4, q5, q6, q7, _⟩ := retraceLog_StoredAVL (a := a) (h := h)
          (v := v) (k := k) (p := p) b below al1 ar (by omega) (by omega)
        have i4 : ∀ c1 ∈ below ++ [c], (c1.rotations ≠ [] ↔ (c1.bal = -2 ∨ c1.bal = 2)) := by
          intro c1 hc1
          rcases List.mem_append.mp hc1 with hc1 | hc1
          · exact i3 c1 hc1
          · simp only [List.mem_singleton] at hc1
            rw [hc1]; exact q5
        refine ⟨n1, b, below ++ [c], q1, q2, q3, ?_, ?_, i4⟩
        · simp only [GetHeightNum_node] at e1 e2 e3 hd i1 ⊢
          rcases i1 with i1 | ⟨i1, ib, inr⟩
          · have hc : c.rotations = [] := by
              by_contra hne
              have := q5.mp hne
              omega
            obtain ⟨s1, s2⟩ := q6 hc
            exact Or.inl (by omega)
          · by_cases hrot : c.rotations = []
            · obtain ⟨s1, s2⟩ := q6 hrot
              by_cases hg : GetHeightNum n1 = h
              · exact Or.inl hg
              · refine Or.inr ⟨by omega, by omega, ?_⟩
                intro c1 hc1
                rcases List.mem_append.mp hc1 with hc1 | hc1
                · exact inr c1 hc1
                · simp only [List.mem_singleton] at hc1
                  rw [hc1]; exact hrot
            · have hb2 := q5.mp hrot
              have := q7 (by omega) ib
              exact Or.inl (by omega)
        · rw [filter_rotations_append]
          simp only [GetHeightNum_node] at e1 e2 e3 hd i1
          rcases i1 with i1 | ⟨i1, ib, inr⟩
          · have hc : c.rotations = [] := by
              by_contra hne
              have := q5.mp hne
              omega
            simp only [hc, if_true]
            omega
          · rw [filter_rotations_nil inr]
            simp only [List.length_nil]
            split <;> omega
    · rw [if_neg g]
      by_cases g2 : k < key
      · rw [if_pos g2]
        cases r with
        | null =>
          simp only
          have an : StoredAVL (newNodeP fresh key value (some a) : Tree K V) :=
            ⟨rfl, by simp [GetHeightNum], by simp [GetHeightNum], trivial, trivial⟩
          simp only [GetHeightNum_null, GetHeightNum_node] at e1 e2 e3 gr
          obtain ⟨n1, c, q1, q2, q3, q4, q5, q6, _, _⟩ := retraceLog_StoredAVL (a := a)
            (h := h) (v := v) (k := k) (p := p) true [] al an
            (by simp only [newNodeP, GetHeightNum_node]; omega)
            (by simp only [newNodeP, GetHeightNum_node]; omega)
          simp only [newNodeP, GetHeightNum_node, List.nil_append] at q1 q4 q6
          have hc : c.rotations = [] := by
            by_contra hne
            have := q5.mp hne
            omega
          obtain ⟨s1, s2⟩ := q6 hc
          refine ⟨n1, true, [c], q1, q2, q3, ?_, ?_, ?_⟩
          · simp only [GetHeightNum_node]
            by_cases hg : GetHeightNum n1 = h
            · exact Or.inl hg
            · refine Or.inr ⟨by omega, by omega, ?_⟩
              intro c1 hc1
              simp only [List.mem_singleton] at hc1
              rw [hc1]; exact hc
          · simp [hc]
          · intro c1 hc1
            simp only [List.mem_singleton] at hc1
            rw [hc1]; exact q5
        | node ra rh rv rk rp rl rr =>
          simp only
          obtain ⟨r1, b, below, e, ar1, _, i1, i2, i3⟩ := ihr ar rfl
          rw [e]
          simp only [Option.some_bind]
          have hd : GetHeightNum r1 = GetHeightNum (Tree.node ra rh rv rk rp rl rr) ∨
              GetHeightNum r1 = GetHeightNum (Tree.node ra rh rv rk rp rl rr) + 1 := by
            rcases i1 with i1 | i1
            · exact Or.inl i1
            · exact Or.inr i1.1
          obtain ⟨n1, c, q1, q2, q3, q4, q5, q6, _, q8⟩ := retraceLog_StoredAVL (a := a)
            (h := h) (v := v) (k := k) (p := p) b below al ar1 (by omega) (by omega)
          have i4 : ∀ c1 ∈ below ++ [c], (c1.rotations ≠ [] ↔ (c1.bal = -2 ∨ c1.bal = 2)) := by
            intro c1 hc1
            rcases List.mem_append.mp hc1 with hc1 | hc1
            · exact i3 c1 hc1
            · simp only [List.mem_singleton] at hc1
              rw [hc1]; exact q5
          refine ⟨n1, b, below ++ [c], q1, q2, q3, ?_, ?_, i4⟩
          · simp only [GetHeightNum_node] at e1 e2 e3 hd i1 ⊢
            rcases i1 with i1 | ⟨i1, ib, inr⟩
            · have hc : c.rotations = [] := by
                by_contra hne
                have := q5.mp hne
                omega
              obtain ⟨s1, s2⟩ := q6 hc
              exact Or.inl (by omega)
            · by_cases hrot : c.rotations = []
              · obtain ⟨s1, s2⟩ := q6 hrot
                by_cases hg : GetHeightNum n1 = h
                · exact Or.inl hg
                · refine Or.inr ⟨by omega, by omega, ?_⟩
                  intro c1 hc1
                  rcases List.mem_append.mp hc1 with hc1 | hc1
                  · exact inr c1 hc1
                  · simp only [List.mem_singleton] at hc1
                    rw [hc1]; exact hrot
              · have hb2 := q5.mp hrot
                have := q8 (by omega) ib
                exact Or.inl (by omega)
          · rw [filter_rotations_append]
            simp only [GetHeightNum_node] at e1 e2 e3 hd i1
            rcases i1 with i1 | ⟨i1, ib, inr⟩
            · have hc : c.rotations = [] := by
                by_contra hne
                have := q5.mp hne
                omega
              simp only [hc, if_true]
              omega
            · rw [filter_rotations_nil inr]
              simp only [List.length_nil]
              split <;> omega
      · rw [if_neg g2]
        obtain ⟨n1, c, q1, q2, q3, q4, q5, q6, _, _⟩ := retraceLog_StoredAVL (a := a) (h := h)
          (v := v) (k := k) (p := p) false [] al ar (by omega) (by omega)
        simp only [List.nil_append] at q1
        have hc : c.rotations = [] := by
          by_contra hne
          have := q5.mp hne
          omega
        obtain ⟨s1, s2⟩ := q6 hc
        refine ⟨n1, false, [c], q1, q2, q3, Or.inl ?_, by simp [hc], ?_⟩
        · simp only [GetHeightNum_node]; omega
        · intro c1 hc1
          simp only [List.mem_singleton] at hc1
          rw [hc1]; exact q5

end OneSite

end AVLTree

namespace AVLTree

section NodeIdentity

variable {K V : Type}

theorem HoldsAt_null (f : Nat) (key : K) (value : V) :
    ¬ HoldsAt f key value (.null : Tree K V) := by
  rintro ⟨h, p, l, r, hm⟩
  simp [nodes] at hm

theorem HoldsAt_node (f : Nat) (key : K) (value : V) (a : Nat) (h : Int) (v : V) (k : K)
    (p : Option Nat) (l r : Tree K V) :
    HoldsAt f key value (.node a h v k p l r) ↔
      (HoldsAt f key value l ∨ (a = f ∧ v = value ∧ k = key) ∨ HoldsAt f key value r) := by
  unfold HoldsAt
  simp only [nodes_node, List.mem_append, List.mem_cons]
  constructor
  · rintro ⟨h1, p1, l1, r1, hm | hm | hm⟩
    · exact Or.inl ⟨h1, p1, l1, r1, hm⟩
    · injection hm with e1 e2 e3 e4
      exact Or.inr (Or.inl ⟨e1.symm, e3.symm, e4.symm⟩)
    · exact Or.inr (Or.inr ⟨h1, p1, l1, r1, hm⟩)
  · rintro (⟨h1, p1, l1, r1, hm⟩ | ⟨rfl, rfl, rfl⟩ | ⟨h1, p1, l1, r1, hm⟩)
    · exact ⟨h1, p1, l1, r1, Or.inl hm⟩
    · exact ⟨h, p, l, r, Or.inr (Or.inl rfl)⟩
    · exact ⟨h1, p1, l1, r1, Or.inr (Or.inr hm)⟩

theorem HoldsAt_setParent (f : Nat) (key : K) (value : V) (P : Option Nat) (t : Tree K V) :
    HoldsAt f key value (setParent P t) ↔ HoldsAt f key value t := by
  cases t with
  | null => rfl
  | node a h v k p l r => rw [setParent_node, HoldsAt_node, HoldsAt_node]

theorem HoldsAt_SetHeight (f : Nat) (key : K) (value : V) (t : Tree K V) :
    HoldsAt f key value (SetHeight t) ↔ HoldsAt f key value t := by
  cases t with
  | null => rfl
  | node a h v k p l r => rw [SetHeight_node, HoldsAt_node, HoldsAt_node]

theorem rootAddr_SetHeight (t : Tree K V) : rootAddr (SetHeight t) = rootAddr t := by
  cases t <;> rfl

theorem RightRotation_rootAddr {n n1 : Tree K V} (h : RightRotation n = some n1) :
    rootAddr n1 = rootAddr n := by
  unfold RightRotation at h
  split at h
  · simp only [Option.some.injEq] at h
    subst h
    rfl
  · simp at h

theorem LeftRotation_rootAddr {n n1 : Tree K V} (h : LeftRotation n = some n1) :
    rootAddr n1 = rootAddr n := by
  unfold LeftRotation at h
  split at h
  · simp only [Option.some.injEq] at h
    subst h
    rfl
  · simp at h

/-- `Balancing` leaves the node it is called on at the top: rotations swap payloads. -/
theorem Balancing_rootAddr {n n1 : Tree K V} (h : Balancing n = some n1) :
    rootAddr n1 = rootAddr n := by
  unfold Balancing at h
  split at h
  · split at h
    · simp at h
    · split at h
      · rw [Option.bind_eq_some] at h
        obtain ⟨l1, _, h2⟩ := h
        rw [RightRotation_rootAddr h2]
        rfl
      · exact RightRotation_rootAddr h
  · split at h
    · split at h
      · simp at h
      · split at h
        · rw [Option.bind_eq_some] at h
          obtain ⟨r1, _, h2⟩ := h
          rw [LeftRotation_rootAddr h2]
          rfl
        · exact LeftRotation_rootAddr h
    · simp only [Option.some.injEq] at h
      subst h
      rfl

/-- A call of `Balancing` that makes at most one rotation keeps the payload of a node of the
left subtree, unless that node is the left child and the rotation is a right rotation. -/
theorem BalancingLog_holds_left {f : Nat} {key : K} {value : V} {a : Nat} {h : Int} {v : V}
    {k : K} {p : Option Nat} {l r n1 : Tree K V} {c : BalancingCall}
    (e : BalancingLog (SetHeight (.node a h v k p l r)) = some (n1, c))
    (hc : c.rotations.length ≤ 1) (hx : HoldsAt f key value l)
    (hs : rootAddr l ≠ some f ∨ -2 < GetHeightNum r - GetHeightNum l) :
    HoldsAt f key value n1 := by
  unfold BalancingLog at e
  rw [SetHeight_node] at e
  by_cases b1 : GetHeightNum r - GetHeightNum l = -2
  · rw [if_pos (by simpa [GetBalanceNum] using b1)] at e
    simp only at e
    by_cases b2 : GetBalanceNum l = 1
    · rw [if_pos b2, Option.bind_eq_some] at e
      obtain ⟨l1, _, e⟩ := e
      rw [Option.map_eq_some'] at e
      obtain ⟨n2, _, e⟩ := e
      simp only [Prod.mk.injEq] at e
      obtain ⟨_, rfl⟩ := e
      simp at hc
    · rw [if_neg b2, Option.map_eq_some'] at e
      obtain ⟨n2, e, e2⟩ := e
      simp only [Prod.mk.injEq] at e2
      obtain ⟨rfl, _⟩ := e2
      cases l with
      | null => simp [RightRotation] at e
      | node la lh lv lk lp ll lr =>
        have hne : la ≠ f := by
          rcases hs with hs | hs
          · intro e1; exact hs (by rw [e1]; rfl)
          · omega
        simp only [RightRotation, Option.some.injEq] at e
        subst e
        rw [HoldsAt_node] at hx
        simp only [SetHeight_node, HoldsAt_node, HoldsAt_setParent]
        rcases hx with hx | ⟨e1, _⟩ | hx
        · exact Or.inl hx
        · exact absurd e1 hne
        · exact Or.inr (Or.inr (Or.inl hx))
  · rw [if_neg (by simpa [GetBalanceNum] using b1)] at e
    by_cases b3 : GetHeightNum r - GetHeightNum l = 2
    · rw [if_pos (by simpa [GetBalanceNum] using b3)] at e
      simp only at e
      by_cases b4 : GetBalanceNum r = -1
      · rw [if_pos b4, Option.bind_eq_some] at e
        obtain ⟨r1, _, e⟩ := e
        rw [Option.map_eq_some'] at e
        obtain ⟨n2, _, e⟩ := e
        simp only [Prod.mk.injEq] at e
        obtain ⟨_, rfl⟩ := e
        simp at hc
      · rw [if_neg b4, Option.map_eq_some'] at e
        obtain ⟨n2, e, e2⟩ := e
        simp only [Prod.mk.injEq] at e2
        obtain ⟨rfl, _⟩ := e2
        cases r with
        | null => simp [LeftRotation] at e
        | node ra rh rv rk rp rl rr =>
          simp only [LeftRotation, Option.some.injEq] at e
          subst e
          simp only [SetHeight_node, HoldsAt_node, HoldsAt_setParent]
          exact Or.inl (Or.inl hx)
    · rw [if_neg (by simpa [GetBalanceNum] using b3)] at e
      simp only [Option.some.injEq, Prod.mk.injEq] at e
      obtain ⟨rfl, _⟩ := e
      rw [HoldsAt_node]
      exact Or.inl hx

/-- Mirror image of `BalancingLog_holds_left`. -/
theorem BalancingLog_holds_right {f : Nat} {key : K} {value : V} {a : Nat} {h : Int} {v : V}
    {k : K} {p : Option Nat} {l r n1 : Tree K V} {c : BalancingCall}
    (e : BalancingLog (SetHeight (.node a h v k p l r)) = some (n1, c))
    (hc : c.rotations.length ≤ 1) (hx : HoldsAt f key value r)
    (hs : rootAddr r ≠ some f ∨ GetHeightNum r - GetHeightNum l < 2) :
    HoldsAt f key value n1 := by
  unfold BalancingLog at e
  rw [SetHeight_node] at e
  by_cases b1 : GetHeightNum r - GetHeightNum l = -2
  · rw [if_pos (by simpa [GetBalanceNum] using b1)] at e
    simp only at e
    by_cases b2 : GetBalanceNum l = 1
    · rw [if_pos b2, Option.bind_eq_some] at e
      obtain ⟨l1, _, e⟩ := e
      rw [Option.map_eq_some'] at e
      obtain ⟨n2, _, e⟩ := e
      simp only [Prod.mk.injEq] at e
      obtain ⟨_, rfl⟩ := e
      simp at hc
    · rw [if_neg b2, Option.map_eq_some'] at e
      obtain ⟨n2, e, e2⟩ := e
      simp only [Prod.mk.injEq] at e2
      obtain ⟨rfl, _⟩ := e2
      cases l with
      | null => simp [RightRotation] at e
      | node la lh lv lk lp ll lr =>
        simp only [RightRotation, Option.some.injEq] at e
        subst e
        simp only [SetHeight_node, HoldsAt_node, HoldsAt_setParent]
        exact Or.inr (Or.inr (Or.inr (Or.inr hx)))
  · rw [if_neg (by simpa [GetBalanceNum] using b1)] at e
    by_cases b3 : GetHeightNum r - GetHeightNum l = 2
    · rw [if_pos (by simpa [GetBalanceNum] using b3)] at e
      simp only at e
      by_cases b4 : GetBalanceNum r = -1
      · rw [if_pos b4, Option.bind_eq_some] at e
        obtain ⟨r1, _, e⟩ := e
        rw [Option.map_eq_some'] at e
        obtain ⟨n2, _, e⟩ := e
        simp only [Prod.mk.injEq] at e
        obtain ⟨_, rfl⟩ := e
        simp at hc
      · rw [if_neg b4, Option.map_eq_some'] at e
        obtain ⟨n2, e, e2⟩ := e
        simp only [Prod.mk.injEq] at e2
        obtain ⟨rfl, _⟩ := e2
        cases r with
        | null => simp [LeftRotation] at e
        | node ra rh rv rk rp rl rr =>
          have hne : ra ≠ f := by
            rcases hs with hs | hs
            · intro e1; exact hs (by rw [e1]; rfl)
            · omega
          simp only [LeftRotation, Option.some.injEq] at e
          subst e
          rw [HoldsAt_node] at hx
          simp only [SetHeight_node, HoldsAt_node, HoldsAt_setParent]
          rcases hx with hx | ⟨e1, _⟩ | hx
          · exact Or.inl (Or.inr (Or.inr hx))
          · exact absurd e1 hne
          · exact Or.inr (Or.inr hx)
    · rw [if_neg (by simpa [GetBalanceNum] using b3)] at e
      simp only [Option.some.injEq, Prod.mk.injEq] at e
      obtain ⟨rfl, _⟩ := e
      rw [HoldsAt_node]
      exact Or.inr (Or.inr hx)

theorem retraceLog_eq_some {n n1 : Tree K V} {st b : Bool} {below tr : List BalancingCall}
    (h : retraceLog n st below = some (n1, b, tr)) :
    ∃ c, BalancingLog (SetHeight n) = some (n1, c) ∧ b = st ∧ tr = below ++ [c] := by
  unfold retraceLog at h
  rw [Option.map_eq_some'] at h
  obtain ⟨res, h1, h2⟩ := h
  simp only [Prod.mk.injEq] at h2
  obtain ⟨rfl, rfl, rfl⟩ := h2
  exact ⟨res.2, h1, rfl, rfl⟩

variable [LinearOrder K]

/-- Insertion keeps the node at the top where it is, and the node object allocated for a new
key keeps that key when no call of `Balancing` on the path makes a double rotation. -/
theorem RecursiveInsertionLog_keeps {fresh : Nat} {key : K} {value : V} {t t1 : Tree K V}
    {b : Bool} {tr : List BalancingCall} (hn : HeightsNonneg t) (hf : fresh ∉ addrs t)
    (e : RecursiveInsertionLog fresh key value t = some (t1, b, tr)) :
    rootAddr t1 = rootAddr t ∧
      (b = true → (∀ c ∈ tr, c.rotations.length ≤ 1) → HoldsAt fresh key value t1) := by
  induction t generalizing t1 b tr with
  | null =>
    simp only [RecursiveInsertionLog, Option.some.injEq, Prod.mk.injEq] at e
    obtain ⟨rfl, rfl, rfl⟩ := e
    exact ⟨rfl, fun hb => by cases hb⟩
  | node a h v k p l r ihl ihr =>
    obtain ⟨_, hl, hr⟩ := hn
    simp only [addrs_node, List.mem_append, List.mem_cons, not_or] at hf
    obtain ⟨fl, fa, fr⟩ := hf
    have gl := GetHeightNum_ge hl
    have gr := GetHeightNum_ge hr
    unfold RecursiveInsertionLog at e
    split at e
    · split at e
      · obtain ⟨c, e1, rfl, rfl⟩ := retraceLog_eq_some e
        refine ⟨?_, fun _ hc => ?_⟩
        · rw [Balancing_rootAddr (BalancingLog_eq_some e1)]; rfl
        · refine BalancingLog_holds_left e1 (hc c (by simp)) ?_ (Or.inr ?_)
          · rw [newNodeP, HoldsAt_node]
            exact Or.inr (Or.inl ⟨rfl, rfl, rfl⟩)
          · simp only [newNodeP, GetHeightNum_node]
            omega
      · rw [Option.bind_eq_some] at e
        obtain ⟨res, e0, e⟩ := e
        obtain ⟨l1, b1, below⟩ := res
        obtain ⟨c, e1, rfl, rfl⟩ := retraceLog_eq_some e
        obtain ⟨i1, i2⟩ := ihl hl fl e0
        refine ⟨?_, fun hb hc => ?_⟩
        · rw [Balancing_rootAddr (BalancingLog_eq_some e1)]; rfl
        · refine BalancingLog_holds_left e1 (hc c (by simp))
            (i2 hb (fun c1 hc1 => hc c1 (by simp [hc1]))) (Or.inl ?_)
          rw [i1]
          intro e2
          simp only [rootAddr, Option.some.injEq] at e2
          exact fl (by rw [← e2]; simp [addrs_node])
    · split at e
      · split at e
        · obtain ⟨c, e1, rfl, rfl⟩ := retraceLog_eq_some e
          refine ⟨?_, fun _ hc => ?_⟩
          · rw [Balancing_rootAddr (BalancingLog_eq_some e1)]; rfl
          · refine BalancingLog_holds_right e1 (hc c (by simp)) ?_ (Or.inr ?_)
            · rw [newNodeP, HoldsAt_node]
              exact Or.inr (Or.inl ⟨rfl, rfl, rfl⟩)
            · simp only [newNodeP, GetHeightNum_node]
              omega
        · rw [Option.bind_eq_some] at e
          obtain ⟨res, e0, e⟩ := e
          obtain ⟨r1, b1, below⟩ := res
          obtain ⟨c, e1, rfl, rfl⟩ := retraceLog_eq_some e
          obtain ⟨i1, i2⟩ := ihr hr fr e0
          refine ⟨?_, fun hb hc => ?_⟩
          · rw [Balancing_rootAddr (BalancingLog_eq_some e1)]; rfl
          · refine BalancingLog_holds_right e1 (hc c (by simp))
              (i2 hb (fun c1 hc1 => hc c1 (by simp [hc1]))) (Or.inl ?_)
            rw [i1]
            intro e2
            simp only [rootAddr, Option.some.injEq] at e2
            exact fr (by rw [← e2]; simp [addrs_node])
      · obtain ⟨c, e1, rfl, rfl⟩ := retraceLog_eq_some e
        refine ⟨?_, fun hb => by cases hb⟩
        rw [Balancing_rootAddr (BalancingLog_eq_some e1)]; rfl

end NodeIdentity

end AVLTree

namespace AVLTree

section Leaves

variable {K V : Type}

/-- Where every node stores its actual height, every leaf stores `0`. -/
theorem HeightsStored_leaf {t : Tree K V} (hs : HeightsStored t) {a : Nat} {h : Int} {v : V}
    {k : K} {p : Option Nat} (hm : Tree.node a h v k p .null .null ∈ nodes t) : h = 0 := by
  induction t with
  | null => simp [nodes] at hm
  | node b hb vb kb pb lb rb ihl ihr =>
    obtain ⟨e, sl, sr⟩ := hs
    simp only [nodes_node, List.mem_append, List.mem_cons] at hm
    rcases hm with hm | hm | hm
    · exact ihl sl hm
    · injection hm with _ e2 _ _ _ e6 e7
      subst e6 e7
      rw [e2, e]
      simp [height]
    · exact ihr sr hm

theorem getLast_nodes {t : Tree K V} (ht : t.isNull = false) :
    (nodes t).getLast? = some (GetMaxNode t) := by
  obtain ⟨init, e⟩ := GetMaxNode_last ht
  rw [e]
  simp

theorem end_prev_node (t : Tree K V) : (end_ t).it_prev_node = GetMaxNode t := by
  cases t <;> rfl

theorem decr_end (t : Tree K V) : Iterator.decr t (end_ t) = some (end_ t) := by
  unfold Iterator.decr
  rw [end_it_node]

end Leaves

end AVLTree

namespace AVLTree

section Claims

variable {K V : Type} [LinearOrder K]

/-- C1: every finite sequence of `insert` and `erase` calls started on the empty tree
returns, and in the tree it builds every node satisfies the AVL balance condition on
actual heights (absent subtree `-1`): right height minus left height is `-1`, `0` or `1`. -/
theorem balance_after_calls (cs : List (Call K V)) (fresh : Nat) :
    ∃ st, runCalls cs (empty, fresh) = some st ∧ Balanced st.1 := by
  obtain ⟨st, e, ha, _⟩ := runCalls_inv cs (empty, fresh) trivial trivial
  exact ⟨st, e, StoredAVL_balanced ha⟩

/-- C2: every program of `insert`, `erase`, `merge`, `swap`, `clean`, copy and move calls
started without any tree returns, and every tree it leaves is in BST order (left keys
smaller, right keys larger, at every node) with a strictly increasing in-order key
sequence. -/
theorem order_in_reachable_trees [Inhabited V] (ops : List (Op K V)) (fresh : Nat) :
    ∃ w, runOps ops ⟨[], fresh⟩ = some w ∧
      ∀ t ∈ w.trees, BST t ∧ (keys t).Pairwise (· < ·) := by
  obtain ⟨w, e, hw⟩ := runOps_WorldOK ops (WorldOK_init fresh)
  exact ⟨w, e, fun t ht => ⟨(hw t ht).2.1, (BST_iff_pairwise t).mp (hw t ht).2.1⟩⟩

/-- C3: on a tree in BST order (no negative stored height) `insert(key, value)` returns
`(it, b)` with `b` true exactly when `key` was not stored (so always on the empty tree),
`it` positioned at a node of the new tree that holds `key`, and the new key set is the old
one together with `key`; the new tree is again in BST order. -/
theorem insert_correct (t : Tree K V) (key : K) (value : V) (fresh : Nat)
    (hb : BST t) (hn : HeightsNonneg t) :
    ∃ t1 it b, insert t key value fresh = some (t1, it, b) ∧
      (b = true ↔ key ∉ keys t) ∧ (t = .null → b = true) ∧
      it.it_node ∈ nodes t1 ∧ rootKey it.it_node = some key ∧
      (∀ x, x ∈ keys t1 ↔ x = key ∨ x ∈ keys t) ∧ BST t1 := by
  obtain ⟨t1, b, e, _, hb1, _, c1, c2, c3⟩ := insert_spec t key value fresh hn hb
  have kin := insert_keys c2 c3
  obtain ⟨f1, a, h, v, p, l, r, f2⟩ := Search_found hb1 ((kin key).mpr (Or.inl rfl))
  refine ⟨t1, Search t1 key, b, e, c1, ?_, f1, by rw [f2]; rfl, kin, hb1⟩
  intro ht
  subst ht
  exact c1.mpr (by simp [keys])

/-- Witness for C3: inserting `20` into the one-node tree holding `10`. -/
theorem insert_correct_witness :
    BST tree10 ∧
    HeightsNonneg tree10 ∧
    ∃ t1 it b, insert tree10 20 2 1 =
        some (t1, it, b) ∧
      (b = true ↔ (20 : Int) ∉ keys tree10) ∧
      (Tree.node 0 0 (1 : Int) (10 : Int) none .null .null = .null → b = true) ∧
      it.it_node ∈ nodes t1 ∧ rootKey it.it_node = some 20 ∧
      (∀ x, x ∈ keys t1 ↔
        x = 20 ∨ x ∈ keys tree10) ∧ BST t1 :=
  ⟨by simp [BST, keys, tree10], by simp [HeightsNonneg, tree10],
    insert_correct _ 20 2 1 (by simp [BST, keys, tree10]) (by simp [HeightsNonneg, tree10])⟩

/-- C4: in a tree built from the empty tree by `insert` and `erase` calls, for a stored key
`k`, `erase(find(k))` returns, the in-order key sequence afterwards is the old one with `k`
deleted, and `find(k)` then equals `end()`. -/
theorem erase_find_removes (cs : List (Call K V)) (fresh : Nat) (st : Tree K V × Nat) (k : K)
    (hrun : runCalls cs (empty, fresh) = some st) (hk : k ∈ keys st.1) :
    ∃ t1, erase st.1 (find st.1 k) = some t1 ∧ keys t1 = (keys st.1).erase k ∧
      (find t1 k).eq (end_ t1) = true := by
  obtain ⟨st1, e, ha, hb⟩ := runCalls_inv cs (empty, fresh) trivial trivial
  rw [hrun] at e
  simp only [Option.some.injEq] at e
  subst e
  obtain ⟨t1, e1, _, hb1, _, c2⟩ := erase_spec st.1 (find st.1 k) (StoredAVL_nonneg ha) hb
  obtain ⟨_, a, h, v, p, l, r, f2⟩ := Search_found hb hk
  have hf := c2 a h v k p l r f2
  have hke := keys_erase_eq hb hf
  refine ⟨t1, e1, hke, ?_⟩
  have hnot : k ∉ keys t1 := by
    rw [hke]
    exact fun m => (List.Nodup.mem_erase_iff (nodup_keys_of_BST hb)).mp m |>.1 rfl
  rw [eq_end_iff]
  simp only [find, Search, RecursiveSearch_absent k hnot]
  rfl

/-- Witness for C4: erasing the root `20` of the tree built by inserting `10`, `20`, `30`
leaves the in-order key sequence `[10, 30]`. -/
theorem erase_find_removes_witness :
    runCalls [Call.insert (10 : Int) (1 : Int), Call.insert 20 2, Call.insert 30 3] (empty, 0) =
      some (tree102030, 3) ∧
    rootKey tree102030 = some 20 ∧
    ∃ t1, erase tree102030 (find tree102030 20) = some t1 ∧ keys t1 = [10, 30] ∧
      (find t1 20).eq (end_ t1) = true := by
  obtain ⟨t1, e, hk, he⟩ := erase_find_removes
    [Call.insert (10 : Int) (1 : Int), Call.insert 20 2, Call.insert 30 3] 0
    (tree102030, 3) 20 (by rfl) (by simp [keys, tree102030])
  exact ⟨by rfl, by rfl, t1, e, by rw [hk]; decide, he⟩

/-- C5: in a tree in BST order `contains(key)` is true exactly when `key` is stored;
`find(key)` is positioned at a node of the tree holding `key` when it is stored and equals
`end()` when it is not. -/
theorem search_correct (t : Tree K V) (key : K) (hb : BST t) :
    (contains t key = true ↔ key ∈ keys t) ∧
      (key ∈ keys t →
        (find t key).it_node ∈ nodes t ∧ rootKey (find t key).it_node = some key) ∧
      (key ∉ keys t → (find t key).eq (end_ t) = true) := by
  refine ⟨?_, ?_, ?_⟩
  · constructor
    · intro hc
      by_contra hk
      simp [contains, RecursiveSearch_absent key hk, Tree.isNull] at hc
    · intro hk
      simp [contains, RecursiveSearch_complete key hb hk]
  · intro hk
    obtain ⟨f1, a, h, v, p, l, r, f2⟩ := Search_found hb hk
    exact ⟨f1, by rw [find, f2]; rfl⟩
  · intro hk
    rw [eq_end_iff]
    simp only [find, Search, RecursiveSearch_absent key hk]
    rfl

/-- Witness for C5: searching the tree holding `10`, `20`, `30` for `30`. -/
theorem search_correct_witness :
    BST tree102030 ∧ contains tree102030 30 = true :=
  ⟨by simp [BST, keys, tree102030],
    (search_correct tree102030 30 (by simp [BST, keys, tree102030])).1.mpr
      (by simp [keys, tree102030])⟩

/-- C6: on a tree in BST order (no negative stored height), inserting `key` twice in a row
returns both times; the second call returns the flag `false` and an iterator positioned at a
node of the tree holding `key`, and `size()` is the same after both calls. -/
theorem insert_twice (t : Tree K V) (key : K) (v1 v2 : V) (f1 f2 : Nat)
    (hb : BST t) (hn : HeightsNonneg t) :
    ∃ t1 it1 b1 t2 it2, insert t key v1 f1 = some (t1, it1, b1) ∧
      insert t1 key v2 f2 = some (t2, it2, false) ∧
      it2.it_node ∈ nodes t2 ∧ rootKey it2.it_node = some key ∧ size t2 = size t1 := by
  obtain ⟨t1, b1, e1, hn1, hb1, _, c1, c2, c3⟩ := insert_spec t key v1 f1 hn hb
  have k1 : key ∈ keys t1 := (insert_keys c2 c3 key).mpr (Or.inl rfl)
  obtain ⟨t2, b2, e2, _, hb2, _, d1, d2, d3⟩ := insert_spec t1 key v2 f2 hn1 hb1
  have hb2f : b2 = false := by
    cases b2
    · rfl
    · exact absurd k1 (d1.mp rfl)
  subst hb2f
  have k2 : key ∈ keys t2 := (insert_keys d2 d3 key).mpr (Or.inl rfl)
  obtain ⟨g1, a, h, v, p, l, r, g2⟩ := Search_found hb2 k2
  refine ⟨t1, Search t1 key, b1, t2, Search t2 key, e1, e2, g1, by rw [g2]; rfl, ?_⟩
  exact size_of_toList_eq (d2 k1)

/-- Witness for C6: inserting `20` twice into the one-node tree holding `10`. -/
theorem insert_twice_witness :
    BST tree10 ∧
    HeightsNonneg tree10 ∧
    ∃ t1 it1 b1 t2 it2,
      insert tree10 20 2 1 =
        some (t1, it1, b1) ∧
      insert t1 20 3 2 = some (t2, it2, false) ∧
      it2.it_node ∈ nodes t2 ∧ rootKey it2.it_node = some 20 ∧ size t2 = size t1 :=
  ⟨by simp [BST, keys, tree10], by simp [HeightsNonneg, tree10],
    insert_twice _ 20 2 3 1 2 (by simp [BST, keys, tree10]) (by simp [HeightsNonneg, tree10])⟩

/-- C7, the claim as written fails: after `insert(1, 2)` on the empty tree, `*find(1)` is
the key `1`, not the inserted value `2`. -/
theorem deref_find_not_value :
    ∃ t1 it b, insert (empty : Tree Int Int) 1 2 0 = some (t1, it, b) ∧
      (find t1 1).deref = .ok 1 ∧ (find t1 1).deref ≠ .ok 2 :=
  ⟨newNode 0 1 2, ⟨newNode 0 1 2, .null⟩, true, by rfl, by rfl,
    fun h => by simp [find, Search, RecursiveSearch, Iterator.deref, newNode] at h⟩

/-- C7 as amended: on a tree in BST order (no negative stored height) and a key not yet
stored, after `insert(key, value)` the iterator returned by `find(key)` dereferences to
`key`, and the node it is positioned at stores `value` in `value_`. -/
theorem deref_find_after_insert (t : Tree K V) (key : K) (value : V) (fresh : Nat)
    (hb : BST t) (hn : HeightsNonneg t) (hk : key ∉ keys t) :
    ∃ t1 it b, insert t key value fresh = some (t1, it, b) ∧
      (find t1 key).deref = .ok key ∧
      ∃ a h p l r, (find t1 key).it_node = .node a h value key p l r := by
  obtain ⟨t1, b, e, _, hb1, _, c1, c2, c3⟩ := insert_spec t key value fresh hn hb
  have kin := insert_keys c2 c3
  obtain ⟨f1, a, h, v, p, l, r, f2⟩ := Search_found hb1 ((kin key).mpr (Or.inl rfl))
  obtain ⟨l1, l2, _, q2, _, _⟩ := c3 hk
  have m1 : (key, v) ∈ toList t1 := by
    rw [f2] at f1
    exact mem_toList_of_mem_nodes f1
  have m2 : (key, value) ∈ toList t1 := by rw [q2]; simp
  have hv := value_unique hb1 m1 m2
  subst hv
  exact ⟨t1, Search t1 key, b, e, by simp only [find, Iterator.deref, f2],
    a, h, p, l, r, f2⟩

/-- Witness for C7 as amended: `insert(20, 2)` into the one-node tree holding `10`. -/
theorem deref_find_after_insert_witness :
    BST tree10 ∧
    HeightsNonneg tree10 ∧
    (20 : Int) ∉ keys tree10 ∧
    ∃ t1 it b, insert tree10 20 2 1 =
        some (t1, it, b) ∧
      (find t1 20).deref = .ok 20 ∧
      ∃ a h p l r, (find t1 20).it_node = .node a h 2 20 p l r :=
  ⟨by simp [BST, keys, tree10], by simp [HeightsNonneg, tree10], by simp [keys, tree10],
    deref_find_after_insert _ 20 2 1 (by simp [BST, keys, tree10]) (by simp [HeightsNonneg, tree10])
      (by simp [keys, tree10])⟩

/-- C8: for two different trees `A` and `B` in BST order (no negative stored height),
`A.merge(B)` returns; afterwards the keys of `A` are the union of the former keys of `A`
and `B`, and the keys of `B` are the keys that were in both. -/
theorem merge_correct [Inhabited V] (A B : Tree K V) (fresh : Nat) (hA : BST A)
    (hnA : HeightsNonneg A) (hB : BST B) (hnB : HeightsNonneg B) :
    ∃ A1 B1 n1, merge A B fresh = some (A1, B1, n1) ∧
      (∀ x, x ∈ keys A1 ↔ x ∈ keys A ∨ x ∈ keys B) ∧
      (∀ x, x ∈ keys B1 ↔ x ∈ keys B ∧ x ∈ keys A) ∧ BST A1 ∧ BST B1 := by
  obtain ⟨A1, B1, n1, e, _, r2, _, r4, r5, r6⟩ := merge_spec A B fresh hnA hA hnB hB
  exact ⟨A1, B1, n1, e, r5, r6, r2, r4⟩

/-- Witness for C8: with `A` holding `1`, `3`, `5` and `B` holding `3`, `4`, `6`,
`A.merge(B)` leaves `1`, `3`, `4`, `5`, `6` in `A` and `3` in `B`. -/
theorem merge_correct_witness :
    BST tree135 ∧ HeightsNonneg tree135 ∧ BST tree346 ∧ HeightsNonneg tree346 ∧
    keys tree135 = [1, 3, 5] ∧ keys tree346 = [3, 4, 6] ∧
    ∃ A1 B1 n1, merge tree135 tree346 6 = some (A1, B1, n1) ∧
      keys A1 = [1, 3, 4, 5, 6] ∧ keys B1 = [3] ∧
      (∀ x, x ∈ keys A1 ↔ x ∈ keys tree135 ∨ x ∈ keys tree346) ∧
      (∀ x, x ∈ keys B1 ↔ x ∈ keys tree346 ∧ x ∈ keys tree135) := by
  obtain ⟨A1, B1, n1, e, h1, h2, _, _⟩ := merge_correct tree135 tree346 6
    (by simp [BST, keys, tree135]) (by simp [HeightsNonneg, tree135])
    (by simp [BST, keys, tree346]) (by simp [HeightsNonneg, tree346])
  have ev : (merge tree135 tree346 6).map (fun r => (keys r.1, keys r.2.1)) =
      some ([1, 3, 4, 5, 6], [3]) := by rfl
  rw [e] at ev
  simp only [Option.map_some', Option.some.injEq, Prod.mk.injEq] at ev
  exact ⟨by simp [BST, keys, tree135], by simp [HeightsNonneg, tree135],
    by simp [BST, keys, tree346], by simp [HeightsNonneg, tree346], by rfl, by rfl,
    A1, B1, n1, e, ev.1, ev.2, h1, h2⟩

/-- C9: every program over the public interface returns, and in every tree it leaves the
forward loop from `begin()` stops at `end()` after exactly `size()` increments, having
visited the nodes of the tree in in-order: keys strictly increasing, every node once. -/
theorem forward_iteration [Inhabited V] (ops : List (Op K V)) (fresh : Nat) :
    ∃ w, runOps ops ⟨[], fresh⟩ = some w ∧
      ∀ t ∈ w.trees, forward t (size t + 1) (begin t) = some (nodes t) ∧
        (nodes t).length = size t ∧
        ((nodes t).filterMap rootKey).Pairwise (· < ·) ∧
        ((nodes t).filterMap rootAddr).Nodup := by
  obtain ⟨w, e, hw⟩ := runOps_WorldOK ops (WorldOK_init fresh)
  refine ⟨w, e, fun t ht => ?_⟩
  obtain ⟨_, hb, hp, hd, _⟩ := hw t ht
  refine ⟨forward_begin hp hd, length_nodes t, ?_, ?_⟩
  · rw [keys_eq_filterMap]
    exact (BST_iff_pairwise t).mp hb
  · rw [addrs_eq_filterMap]
    exact hd

/-- C10, the code at a failing input: the tree built by inserting `1` and `2` stores
height `1` at its root, its clone made by `CopyTree` has the same shape, keys, values and
reciprocal parent links, but stores height `0` at the root. -/
theorem copy_resets_heights :
    runCalls [Call.insert (1 : Int) (1 : Int), Call.insert 2 2] (empty, 0) = some (tree12, 2) ∧
    GetHeightNum tree12 = 1 ∧ GetHeightNum (CopyTree tree12 none 2).1 = 0 ∧
    ¬ SameHeights tree12 (CopyTree tree12 none 2).1 ∧
    SameShape tree12 (CopyTree tree12 none 2).1 ∧ ParentsOK none (CopyTree tree12 none 2).1 :=
  ⟨by rfl, by rfl, by rfl, by simp [SameHeights, tree12, CopyTree],
    CopyTree_SameShape _ _ _, CopyTree_ParentsOK _ _ _⟩

end Claims

end AVLTree

namespace AVLTree

section Claims

variable {K V : Type} [LinearOrder K]

/-- C11, the code at a failing input: the tree built by inserting `10` to `60` is balanced;
its clone made by `CopyTree` stores height `0` in every node, and `insert(25)` on the clone
rotates at the root on these stored heights and returns a tree that is not balanced (the
node holding `40` has no left child and a right subtree of height `1`). -/
theorem copy_then_insert_unbalanced :
    runCalls [Call.insert (10 : Int) (0 : Int), Call.insert 20 0, Call.insert 30 0,
      Call.insert 40 0, Call.insert 50 0, Call.insert 60 0] (empty, 0) =
        some (tree10to60, 6) ∧
    Balanced tree10to60 ∧
    runCalls [Call.insert (25 : Int) (0 : Int)] (CopyTree tree10to60 none 6) =
      some (treeCopy25, 13) ∧
    ¬ Balanced treeCopy25 :=
  ⟨by rfl, by simp [Balanced, height, tree10to60], by rfl,
    by simp [Balanced, height, treeCopy25]⟩

/-- C12: every program over the public interface returns, and in every tree it leaves, for
an iterator positioned at a node of the tree: `++it` returns, and if it is not `end()` then
`--(++it) == it`; if `it` is not `begin()` (the minimum node) then `--it` returns and
`++(--it) == it`. -/
theorem iterator_symmetry [Inhabited V] (ops : List (Op K V)) (fresh : Nat) :
    ∃ w, runOps ops ⟨[], fresh⟩ = some w ∧
      ∀ t ∈ w.trees, ∀ x ∈ nodes t, ∀ q : Tree K V,
        (∃ it1, Iterator.incr t ⟨x, q⟩ = some it1 ∧
          (it1.eq (end_ t) = false →
            ∃ it2, Iterator.decr t it1 = some it2 ∧ it2.eq ⟨x, q⟩ = true)) ∧
        ((Iterator.mk x q).eq (begin t) = false →
          ∃ it1, Iterator.decr t ⟨x, q⟩ = some it1 ∧
            ∃ it2, Iterator.incr t it1 = some it2 ∧ it2.eq ⟨x, q⟩ = true) := by
  obtain ⟨w, e, hw⟩ := runOps_WorldOK ops (WorldOK_init fresh)
  refine ⟨w, e, fun t ht x hx q => ?_⟩
  obtain ⟨_, _, hp, hd, _⟩ := hw t ht
  exact incr_decr_symm q hp hd hx

/-- C13, the claim as written fails: on the tree holding `10`, `20`, `30`, `operator--`
applied to `end()` returns `end()` itself, whose `it_node` is null, not an iterator
positioned at the node holding `30`. -/
theorem decr_end_not_at_max :
    Iterator.decr tree102030 (end_ tree102030) = some (end_ tree102030) ∧
    (end_ tree102030).it_node = .null ∧
    GetMaxNode tree102030 = .node 2 0 3 30 (some 0) .null .null ∧
    (end_ tree102030).eq ⟨GetMaxNode tree102030, .null⟩ = false :=
  ⟨by rfl, by rfl, by rfl, by rfl⟩

/-- C13 as amended: for every non-empty tree, `end()` remembers in `it_prev_node` the node
with the maximum key (the last node of the in-order sequence), and `operator--` applied to
`end()` returns the iterator unchanged: it still equals `end()`, its `it_node` is null. -/
theorem decr_end_unchanged (t : Tree K V) (ht : t.isNull = false) :
    Iterator.decr t (end_ t) = some (end_ t) ∧ (end_ t).it_node = .null ∧
      (end_ t).it_prev_node = GetMaxNode t ∧ (nodes t).getLast? = some (GetMaxNode t) :=
  ⟨decr_end t, end_it_node t, end_prev_node t, getLast_nodes ht⟩

/-- Witness for C13 as amended: the tree holding `10`, `20`, `30`. -/
theorem decr_end_unchanged_witness :
    tree102030.isNull = false ∧
    Iterator.decr tree102030 (end_ tree102030) = some (end_ tree102030) ∧
    (end_ tree102030).it_node = .null ∧
    (end_ tree102030).it_prev_node = GetMaxNode tree102030 ∧
    (nodes tree102030).getLast? = some (GetMaxNode tree102030) :=
  ⟨by rfl, decr_end_unchanged tree102030 (by rfl)⟩

/-- C14: `operator*` fails with `out_of_range` exactly when `it_node` is null, that is when
the iterator equals `end()`; so it fails on `end()` of every tree and on `find(key)` for a
key that is not stored, and on an iterator positioned at a node it returns the key of that
node. -/
theorem deref_fails_iff_end (it : Iterator K V) (t : Tree K V) (key : K) :
    (it.deref = .error .out_of_range ↔ it.it_node.isNull = true) ∧
    (it.deref = .error .out_of_range ↔ it.eq (end_ t) = true) ∧
    (end_ t).deref = .error .out_of_range ∧
    (key ∉ keys t → (find t key).deref = .error .out_of_range) ∧
    (it.it_node.isNull = false → ∃ k, it.deref = .ok k ∧ rootKey it.it_node = some k) := by
  have h1 : it.deref = .error .out_of_range ↔ it.it_node.isNull = true := by
    unfold Iterator.deref
    cases it.it_node <;> simp [Tree.isNull]
  refine ⟨h1, by rw [eq_end_iff]; exact h1, ?_, ?_, ?_⟩
  · unfold Iterator.deref
    rw [end_it_node]
  · intro hk
    simp only [find, Search, Iterator.deref, RecursiveSearch_absent key hk]
  · intro hn
    unfold Iterator.deref
    cases hi : it.it_node with
    | null => rw [hi] at hn; simp [Tree.isNull] at hn
    | node a h v k p l r => exact ⟨k, rfl, rfl⟩

/-- C15: every sequence of `insert` and `erase` calls started on the empty tree returns,
and the tree it builds, of height `h` (empty `-1`, leaf `0`) with `n` elements, satisfies
`Fib(h + 3) ≤ n + 1` with `Fib(1) = Fib(2) = 1`. -/
theorem height_bound (cs : List (Call K V)) (fresh : Nat) :
    ∃ st, runCalls cs (empty, fresh) = some st ∧
      Nat.fib (height st.1 + 3).toNat ≤ size st.1 + 1 := by
  obtain ⟨st, e, ha, _⟩ := runCalls_inv cs (empty, fresh) trivial trivial
  exact ⟨st, e, fib_height_le_size (StoredAVL_balanced ha)⟩

/-- C16: inserting `10`, `20`, `30` into the empty tree: the first call makes no call of
`Balancing`, the second one call without rotation, the third two calls, the lower one
without rotation and the one at the root (address `0`, balance `2`) with the single call
`LeftRotation(root)`; the result has `20` at the root with stored height `1` and the leaves
`10` and `30` with stored height `0` as its children. -/
theorem insert_10_20_30 (v1 v2 v3 : V) :
    (insertLog (empty : Tree Int V) 10 v1 0).map (fun res => (res.1, res.2.2)) =
      some (.node 0 0 v1 10 none .null .null, true, []) ∧
    (insertLog (.node 0 0 v1 (10 : Int) none .null .null) 20 v2 1).map
        (fun res => (res.1, res.2.2)) =
      some (.node 0 1 v1 10 none .null (.node 1 0 v2 20 (some 0) .null .null), true,
        [⟨some 0, 1, []⟩]) ∧
    (insertLog (.node 0 1 v1 (10 : Int) none .null (.node 1 0 v2 20 (some 0) .null .null))
        30 v3 2).map (fun res => (res.1, res.2.2)) =
      some (.node 0 1 v2 20 none (.node 1 0 v1 10 (some 0) .null .null)
          (.node 2 0 v3 30 (some 0) .null .null), true,
        [⟨some 1, 1, []⟩, ⟨some 0, 2, [Rotation.left (some 0)]⟩]) :=
  ⟨by rfl, by rfl, by rfl⟩

/-- C17: every sequence of `insert` and `erase` calls started on the empty tree returns,
and in the tree it builds every node stores the actual height of its subtree (one more than
the larger child height, an absent child counting `-1`); so every leaf stores `0`. -/
theorem heights_stored (cs : List (Call K V)) (fresh : Nat) :
    ∃ st, runCalls cs (empty, fresh) = some st ∧ HeightsStored st.1 ∧
      ∀ a h v k p, Tree.node a h v k p .null .null ∈ nodes st.1 → h = 0 := by
  obtain ⟨st, e, ha, _⟩ := runCalls_inv cs (empty, fresh) trivial trivial
  exact ⟨st, e, StoredAVL_stored ha, fun a h v k p hm => HeightsStored_leaf (StoredAVL_stored ha) hm⟩

/-- C18: in a tree built from the empty tree by `insert` and `erase` calls, `insert` returns
and, among the calls of `Balancing` on the insertion path (lowest node first), at most one
makes rotations; a call makes rotations exactly when the balance it reads is `-2` or `2`,
so every other call reads another balance and takes no action. -/
theorem one_rebalancing_site (cs : List (Call K V)) (fresh : Nat) (key : K) (value : V)
    (n : Nat) :
    ∃ st, runCalls cs (empty, fresh) = some st ∧
      ∃ t1 it b tr, insertLog st.1 key value n = some (t1, it, b, tr) ∧
        insert st.1 key value n = some (t1, it, b) ∧
        (tr.filter (fun c => decide (c.rotations ≠ []))).length ≤ 1 ∧
        ∀ c ∈ tr, (c.rotations ≠ [] ↔ (c.bal = -2 ∨ c.bal = 2)) := by
  obtain ⟨st, e, ha, _⟩ := runCalls_inv cs (empty, fresh) trivial trivial
  refine ⟨st, e, ?_⟩
  cases hs : st.1 with
  | null =>
    exact ⟨newNode n key value, ⟨newNode n key value, .null⟩, true, [], rfl, rfl, by simp,
      by simp⟩
  | node a h v k p l r =>
    rw [hs] at ha
    obtain ⟨t1, b, tr, e1, _, _, _, q1, q2⟩ :=
      RecursiveInsertionLog_StoredAVL n key value ha rfl
    have e2 : insertLog (Tree.node a h v k p l r) key value n =
        some (t1, Search t1 key, b, tr) := by
      simp [insertLog, e1]
    refine ⟨t1, Search t1 key, b, tr, e2, ?_, q1, q2⟩
    rw [← insertLog_fst, e2]
    rfl

/-- C19, the claim as written fails: in the tree built by inserting `10` and `30`, the node
allocated for the new key `20` at address `2` holds `30` when `insert(20)` returns; the
double rotation has moved `20` to the root, where the returned iterator is positioned. -/
theorem allocated_node_loses_key :
    runCalls [Call.insert (10 : Int) (0 : Int), Call.insert 30 0] (empty, 0) =
      some (tree1030, 2) ∧
    (20 : Int) ∉ keys tree1030 ∧
    ∃ t1 it, insert tree1030 20 0 2 = some (t1, it, true) ∧
      nodeAt 2 t1 = .node 2 0 0 30 (some 0) .null .null ∧
      rootAddr it.it_node = some 0 ∧ rootKey it.it_node = some 20 ∧
      ¬ HoldsAt 2 20 0 t1 := by
  refine ⟨by rfl, by simp [keys, tree1030],
    .node 0 1 0 20 none (.node 1 0 0 10 (some 0) .null .null)
      (.node 2 0 0 30 (some 0) .null .null),
    ⟨.node 0 1 0 20 none (.node 1 0 0 10 (some 0) .null .null)
      (.node 2 0 0 30 (some 0) .null .null), .null⟩, by rfl, by rfl, by rfl, by rfl, ?_⟩
  simp [HoldsAt_node, HoldsAt_null]

/-- C19 as amended: on a tree in BST order (no negative stored height) and a key not yet
stored, with `fresh` the unused address handed out for the new node, `insert` returns an
iterator positioned at the node of the new tree that holds the key; the node object at
address `fresh` holds the key and the value when `insert` returns provided no call of
`Balancing` made a double rotation (rotations exchange the payloads of a node and its
child). -/
theorem allocated_node_keeps_key (t : Tree K V) (key : K) (value : V) (fresh : Nat)
    (hb : BST t) (hn : HeightsNonneg t) (hf : fresh ∉ addrs t) (hk : key ∉ keys t) :
    ∃ t1 it tr, insertLog t key value fresh = some (t1, it, true, tr) ∧
      insert t key value fresh = some (t1, it, true) ∧
      it.it_node ∈ nodes t1 ∧ rootKey it.it_node = some key ∧
      ((∀ c ∈ tr, c.rotations.length ≤ 1) → HoldsAt fresh key value t1) := by
  obtain ⟨t1, b, e, _, hb1, _, c1, c2, c3⟩ := insert_spec t key value fresh hn hb
  have hbt : b = true := c1.mpr hk
  subst hbt
  obtain ⟨tr, e1⟩ := insertLog_of_insert e
  obtain ⟨f1, a, h, v, p, l, r, f2⟩ :=
    Search_found hb1 ((insert_keys c2 c3 key).mpr (Or.inl rfl))
  refine ⟨t1, Search t1 key, tr, e1, e, f1, by rw [f2]; rfl, ?_⟩
  intro hc
  cases t with
  | null =>
    simp only [insertLog, Option.some.injEq, Prod.mk.injEq] at e1
    obtain ⟨rfl, _, _, _⟩ := e1
    rw [newNode, HoldsAt_node]
    exact Or.inr (Or.inl ⟨rfl, rfl, rfl⟩)
  | node a0 h0 v0 k0 p0 l0 r0 =>
    simp only [insertLog, Option.map_eq_some', Prod.mk.injEq] at e1
    obtain ⟨res, e2, rfl, _, hb2, rfl⟩ := e1
    obtain ⟨t2, b2, tr2⟩ := res
    simp only at hb2
    subst hb2
    exact (RecursiveInsertionLog_keeps hn hf e2).2 rfl hc

/-- Witness for C19 as amended: `insert(20, 2)` into the one-node tree holding `10`, the
new node allocated at address `1`. -/
theorem allocated_node_keeps_key_witness :
    BST tree10 ∧ HeightsNonneg tree10 ∧ 1 ∉ addrs tree10 ∧ (20 : Int) ∉ keys tree10 ∧
    ∃ t1 it tr, insertLog tree10 20 2 1 = some (t1, it, true, tr) ∧
      insert tree10 20 2 1 = some (t1, it, true) ∧
      it.it_node ∈ nodes t1 ∧ rootKey it.it_node = some 20 ∧
      ((∀ c ∈ tr, c.rotations.length ≤ 1) → HoldsAt 1 20 2 t1) :=
  ⟨by simp [BST, keys, tree10], by simp [HeightsNonneg, tree10], by simp [addrs, tree10],
    by simp [keys, tree10],
    allocated_node_keeps_key tree10 20 2 1 (by simp [BST, keys, tree10])
      (by simp [HeightsNonneg, tree10]) (by simp [addrs, tree10]) (by simp [keys, tree10])⟩

/-- C20: at a node below which no stored height is negative, a stored balance of `-2` means
the left child exists, and if the stored balance of that child is `1` its right child
exists; symmetrically for `2`; so `Balancing` returns at that node, and `RecursiveInsertion`
and `RecursiveDeleting` return on the subtree: no rotation follows a null link. -/
theorem balancing_never_null (n : Tree K V) (hn : HeightsNonneg n) :
    (GetBalanceNum n = -2 →
      ∃ a h v k p la lh lv lk lp ll lr r,
        n = .node a h v k p (.node la lh lv lk lp ll lr) r ∧
        (GetBalanceNum (.node la lh lv lk lp ll lr : Tree K V) = 1 → lr.isNull = false)) ∧
    (GetBalanceNum n = 2 →
      ∃ a h v k p l ra rh rv rk rp rl rr,
        n = .node a h v k p l (.node ra rh rv rk rp rl rr) ∧
        (GetBalanceNum (.node ra rh rv rk rp rl rr : Tree K V) = -1 → rl.isNull = false)) ∧
    (∃ n1, Balancing n = some n1) ∧
    (∀ (fresh : Nat) (key : K) (value : V),
      ∃ res, RecursiveInsertion fresh key value n = some res) ∧
    (∀ key : K, ∃ n1, RecursiveDeleting n key = some n1) := by
  obtain ⟨s1, s2⟩ := heavy_child_exists hn
  obtain ⟨n1, e, _⟩ := Balancing_total hn
  refine ⟨s1, s2, ⟨n1, e⟩, ?_, ?_⟩
  · intro fresh key value
    obtain ⟨t1, b, e1, _⟩ := RecursiveInsertion_total fresh key value hn
    exact ⟨(t1, b), e1⟩
  · intro key
    obtain ⟨t1, e1, _⟩ := RecursiveDeleting_total key hn
    exact ⟨t1, e1⟩

/-- Witness for C20: the tree handed to `Balancing` at the root when `10` is inserted after
`30` and `20`, whose root stores balance `-2`. -/
theorem balancing_never_null_witness :
    HeightsNonneg tree302010 ∧ GetBalanceNum tree302010 = -2 ∧
    (∃ n1, Balancing tree302010 = some n1) ∧
    (∀ (fresh : Nat) (key value : Int),
      ∃ res, RecursiveInsertion fresh key value tree302010 = some res) ∧
    (∀ key : Int, ∃ n1, RecursiveDeleting tree302010 key = some n1) :=
  ⟨by simp [HeightsNonneg, tree302010], by rfl,
    (balancing_never_null tree302010 (by simp [HeightsNonneg, tree302010])).2.2⟩

end Claims

end AVLTree
